import Mathlib

/-!
# Parsing arithmetic expressions into an AST

A shallow embedding of `ParsingArithmeticExpressionsIntoAST.cpp`: the `Lexer`
(a cursor over the input text), the `ASTNode` tree with its `print` and
`evaluate` walks, and the recursive-descent `Parser` with one token of
lookahead.

Conventions of the embedding.

* A `std::string` is a `List Char`; `input[pos]` is `List.getD` with the
  terminating `'\x00'` as the value at `pos = length`.
* A C++ exception is the `error` side of `Except Error`; the constructor of
  `Error` records which `throw` was taken.
* The `while` loops of the lexer and the mutually recursive parser run on an
  explicit iteration budget (`fuel`).  The budgets handed out by
  `Lexer.getNextToken` and `parse` are large enough that they are never used
  up (`skipWhitespace_eq`, `scanDigits_eq`, `parse_ne_outOfFuel`).
* `int` is the 32-bit signed range `[INT_MIN, INT_MAX]`.  Addition,
  subtraction and multiplication wrap around (two's complement, `wrapInt`).
  Division by zero and `INT_MIN / -1` produce no value: the division stops the
  process; they are reported as `Fault.undefined`.
* A run of `main` is the text it emits on standard output, the text it emits
  on standard error, and the way it ends (`Run`).
-/

namespace ArithAST

/-! ## Tokens -/

/-- The enumeration `TokenType`. -/
inductive TokenType where
  | NUMBER | PLUS | MINUS | MUL | DIV | LPAREN | RPAREN | END
  deriving DecidableEq, Repr

/-- The struct `Token`: a kind and the text it was read from. -/
structure Token where
  type : TokenType
  value : List Char
  deriving DecidableEq, Repr

/-- The exceptions the program can raise.  The first four are the
`std::runtime_error`s thrown by the source, the next two are the exceptions of
`std::stoi`, and `outOfFuel` is the embedding's own marker for an exhausted
iteration budget (it has no counterpart in the source). -/
inductive Error where
  | invalidCharacter
  | unexpectedToken
  | unexpectedTokenInFactor
  | invalidOperator
  | stoiInvalidArgument
  | stoiOutOfRange
  | outOfFuel
  deriving DecidableEq, Repr

/-- The text returned by `what()` for each exception.  For the two exceptions
of `std::stoi` the text is the library's choice; libstdc++ uses `stoi`. -/
def Error.what : Error → String
  | .invalidCharacter => "Invalid character"
  | .unexpectedToken => "Unexpected token"
  | .unexpectedTokenInFactor => "Unexpected token in factor"
  | .invalidOperator => "Invalid operator"
  | .stoiInvalidArgument => "stoi"
  | .stoiOutOfRange => "stoi"
  | .outOfFuel => ""

/-! ## Character classes (`<cctype>`, "C" locale)

Characters outside ASCII are neither whitespace nor digits. -/

/-- The function `isspace`: space, `\t`, `\n`, `\v`, `\f`, `\r`. -/
def isspace (c : Char) : Bool :=
  c = ' ' || c = '\t' || c = '\n' || c = '\x0b' || c = '\x0c' || c = '\r'

/-- The function `isdigit`: `'0'` to `'9'`. -/
def isdigit (c : Char) : Bool :=
  decide (48 ≤ c.toNat) && decide (c.toNat ≤ 57)

/-! ## Lexer -/

/-- The class `Lexer`: the input text and the scan cursor `pos`. -/
structure Lexer where
  input : List Char
  pos : Nat
  deriving DecidableEq, Repr

/-- The expression `input[pos]`. -/
def charAt (input : List Char) (pos : Nat) : Char :=
  input.getD pos '\x00'

/-- The loop `while (pos < input.length() && isspace(input[pos])) pos++;`
run for at most `fuel` iterations; returns the final `pos`. -/
def skipWhitespace (input : List Char) : Nat → Nat → Nat
  | 0, pos => pos
  | fuel + 1, pos =>
    if pos < input.length && isspace (charAt input pos) then
      skipWhitespace input fuel (pos + 1)
    else pos

/-- The loop `while (pos < input.length() && isdigit(input[pos])) num += input[pos++];`
run for at most `fuel` iterations; returns the final `pos` and `num`. -/
def scanDigits (input : List Char) : Nat → Nat → List Char → Nat × List Char
  | 0, pos, num => (pos, num)
  | fuel + 1, pos, num =>
    if pos < input.length && isdigit (charAt input pos) then
      scanDigits input fuel (pos + 1) (num ++ [charAt input pos])
    else (pos, num)

namespace Lexer

/-- The constructor `Lexer(input)`: cursor at 0. -/
def new (input : List Char) : Lexer := ⟨input, 0⟩

/-- The method `advanceAndReturn`: step over one character and return the token. -/
def advanceAndReturn (L : Lexer) (type : TokenType) (value : List Char) : Token × Lexer :=
  (⟨type, value⟩, { L with pos := L.pos + 1 })

/-- The method `getNextToken`.  Both loops get `input.length - pos` iterations,
which they cannot exceed because every iteration needs `pos < input.length`
and increments `pos`. -/
def getNextToken (L : Lexer) : Except Error (Token × Lexer) :=
  let pos := skipWhitespace L.input (L.input.length - L.pos) L.pos
  let L1 : Lexer := { L with pos := pos }
  if pos = L.input.length then .ok (⟨.END, []⟩, L1)
  else
    let current_char := charAt L.input pos
    if isdigit current_char then
      let r := scanDigits L.input (L.input.length - pos) pos []
      .ok (⟨.NUMBER, r.2⟩, { L1 with pos := r.1 })
    else if current_char = '+' then .ok (L1.advanceAndReturn .PLUS ['+'])
    else if current_char = '-' then .ok (L1.advanceAndReturn .MINUS ['-'])
    else if current_char = '*' then .ok (L1.advanceAndReturn .MUL ['*'])
    else if current_char = '/' then .ok (L1.advanceAndReturn .DIV ['/'])
    else if current_char = '(' then .ok (L1.advanceAndReturn .LPAREN ['('])
    else if current_char = ')' then .ok (L1.advanceAndReturn .RPAREN [')'])
    else .error .invalidCharacter

end Lexer

/-! ## AST nodes -/

/-- The smallest `int`. -/
def INT_MIN : Int := -2147483648

/-- The largest `int`. -/
def INT_MAX : Int := 2147483647

/-- The classes `NumberNode` and `OperatorNode` behind `ASTNode`. -/
inductive ASTNode where
  | NumberNode (value : Int)
  | OperatorNode (op : TokenType) (left right : ASTNode)
  deriving DecidableEq, Repr

/-- The static method `OperatorNode::getOpChar`. -/
def getOpChar : TokenType → Except Error Char
  | .PLUS => .ok '+'
  | .MINUS => .ok '-'
  | .MUL => .ok '*'
  | .DIV => .ok '/'
  | _ => .error .invalidOperator

/-- The text `std::cout << value` writes for an `int`: decimal digits, with a
leading `-` for a negative value. -/
def printInt (value : Int) : List Char :=
  if value < 0 then '-' :: Nat.toDigits 10 value.natAbs else Nat.toDigits 10 value.toNat

/-- How an evaluation can end without a value: a C++ exception, or a division
that has no result (division by zero, `INT_MIN / -1`) and stops the
process. -/
inductive Fault where
  | exception (e : Error)
  | undefined
  deriving DecidableEq, Repr

/-- The `int` that addition, subtraction and multiplication return when the
mathematical result is `v`: the value congruent to `v` modulo `2^32` in
`[INT_MIN, INT_MAX]` (two's-complement wrap-around). -/
def wrapInt (v : Int) : Int :=
  (v + 2147483648) % 4294967296 - 2147483648

/-- The result of an `int` division whose mathematical quotient is `v`: the
quotient itself, except that `INT_MIN / -1`, whose quotient is not an `int`,
has none. -/
def divResult (v : Int) : Except Fault Int :=
  if INT_MIN ≤ v ∧ v ≤ INT_MAX then .ok v else .error .undefined

namespace ASTNode

/-- The method `print`, as a transformer of the text written to `std::cout` so
far; the second component is the exception that interrupted it, if any.  The
operands of `<<` are taken left to right. -/
def print : ASTNode → List Char → List Char × Option Error
  | NumberNode value, out => (out ++ printInt value, none)
  | OperatorNode op left right, out =>
    match left.print (out ++ ['(']) with
    | (out1, some e) => (out1, some e)
    | (out1, none) =>
      match getOpChar op with
      | .error e => (out1 ++ [' '], some e)
      | .ok c =>
        match right.print (out1 ++ [' ', c, ' ']) with
        | (out2, some e) => (out2, some e)
        | (out2, none) => (out2 ++ [')'], none)

/-- The method `evaluate`. -/
def evaluate : ASTNode → Except Fault Int
  | NumberNode value => .ok value
  | OperatorNode op left right =>
    match left.evaluate with
    | .error f => .error f
    | .ok leftVal =>
      match right.evaluate with
      | .error f => .error f
      | .ok rightVal =>
        match op with
        | .PLUS => .ok (wrapInt (leftVal + rightVal))
        | .MINUS => .ok (wrapInt (leftVal - rightVal))
        | .MUL => .ok (wrapInt (leftVal * rightVal))
        | .DIV => if rightVal = 0 then .error .undefined else divResult (Int.tdiv leftVal rightVal)
        | _ => .error (.exception .invalidOperator)

end ASTNode

/-! ## `std::stoi` -/

/-- The value of a digit string read in base 10. -/
def digitsValue (ds : List Char) : Nat :=
  ds.foldl (fun acc c => 10 * acc + (c.toNat - 48)) 0

/-- The library function `std::stoi(str)` (base 10): skip leading whitespace,
take an optional sign, read the longest run of digits; `invalid_argument` when
there is no digit, `out_of_range` when the value is not an `int`. -/
def stoi (str : List Char) : Except Error Int :=
  let s1 := str.dropWhile isspace
  let neg := s1.head? = some '-'
  let s2 := if s1.head? = some '-' ∨ s1.head? = some '+' then s1.tail else s1
  let ds := s2.takeWhile isdigit
  if ds = [] then .error .stoiInvalidArgument
  else
    let v : Int := if neg then -(digitsValue ds : Int) else (digitsValue ds : Int)
    if INT_MIN ≤ v ∧ v ≤ INT_MAX then .ok v else .error .stoiOutOfRange

/-! ## Parser -/

/-- The class `Parser`: the lookahead token and the lexer it is refilled from. -/
structure Parser where
  currentToken : Token
  lexer : Lexer
  deriving DecidableEq, Repr

namespace Parser

/-- The constructor `Parser(lexer)`: reads the first token. -/
def new (lexer : Lexer) : Except Error Parser :=
  match lexer.getNextToken with
  | .error e => .error e
  | .ok (tok, lexer1) => .ok ⟨tok, lexer1⟩

/-- The method `consume`. -/
def consume (P : Parser) (type : TokenType) : Except Error Parser :=
  if P.currentToken.type = type then
    match P.lexer.getNextToken with
    | .error e => .error e
    | .ok (tok, lexer1) => .ok ⟨tok, lexer1⟩
  else .error .unexpectedToken

mutual

/-- The method `parseExpression`; `parseExpressionLoop` is its `while` loop. -/
def parseExpression : Nat → Parser → Except Error (ASTNode × Parser)
  | 0, _ => .error .outOfFuel
  | fuel + 1, P =>
    match parseTerm fuel P with
    | .error e => .error e
    | .ok (node, P1) => parseExpressionLoop fuel node P1

/-- The `while` loop of `parseExpression`, entered with the tree built so far. -/
def parseExpressionLoop : Nat → ASTNode → Parser → Except Error (ASTNode × Parser)
  | 0, _, _ => .error .outOfFuel
  | fuel + 1, node, P =>
    if P.currentToken.type = .PLUS ∨ P.currentToken.type = .MINUS then
      match P.consume P.currentToken.type with
      | .error e => .error e
      | .ok P1 =>
        match parseTerm fuel P1 with
        | .error e => .error e
        | .ok (right, P2) =>
          parseExpressionLoop fuel (.OperatorNode P.currentToken.type node right) P2
    else .ok (node, P)

/-- The method `parseTerm`; `parseTermLoop` is its `while` loop. -/
def parseTerm : Nat → Parser → Except Error (ASTNode × Parser)
  | 0, _ => .error .outOfFuel
  | fuel + 1, P =>
    match parseFactor fuel P with
    | .error e => .error e
    | .ok (node, P1) => parseTermLoop fuel node P1

/-- The `while` loop of `parseTerm`, entered with the tree built so far. -/
def parseTermLoop : Nat → ASTNode → Parser → Except Error (ASTNode × Parser)
  | 0, _, _ => .error .outOfFuel
  | fuel + 1, node, P =>
    if P.currentToken.type = .MUL ∨ P.currentToken.type = .DIV then
      match P.consume P.currentToken.type with
      | .error e => .error e
      | .ok P1 =>
        match parseFactor fuel P1 with
        | .error e => .error e
        | .ok (right, P2) =>
          parseTermLoop fuel (.OperatorNode P.currentToken.type node right) P2
    else .ok (node, P)

/-- The method `parseFactor`. -/
def parseFactor : Nat → Parser → Except Error (ASTNode × Parser)
  | 0, _ => .error .outOfFuel
  | fuel + 1, P =>
    if P.currentToken.type = .NUMBER then
      match stoi P.currentToken.value with
      | .error e => .error e
      | .ok v =>
        match P.consume .NUMBER with
        | .error e => .error e
        | .ok P1 => .ok (.NumberNode v, P1)
    else if P.currentToken.type = .LPAREN then
      match P.consume .LPAREN with
      | .error e => .error e
      | .ok P1 =>
        match parseExpression fuel P1 with
        | .error e => .error e
        | .ok (node, P2) =>
          match P2.consume .RPAREN with
          | .error e => .error e
          | .ok P3 => .ok (node, P3)
    else .error .unexpectedTokenInFactor

end

/-- The method `parse`. -/
def parse (fuel : Nat) (P : Parser) : Except Error (ASTNode × Parser) :=
  parseExpression fuel P

end Parser

/-- The budget `parse` gives the parser: three calls per character, plus three. -/
def parseFuel (input : List Char) : Nat := 3 * input.length + 3

/-- The first three statements of the pipeline in `main`, for an arbitrary
input: build the `Lexer`, build the `Parser` (which reads the first token),
call `parse()`.  Returns the tree and the parser state left behind. -/
def parse (input : List Char) : Except Error (ASTNode × Parser) :=
  match Parser.new (Lexer.new input) with
  | .error e => .error e
  | .ok P => P.parse (parseFuel input)

/-- The text `print` writes for a tree, starting from an empty stream. -/
def render (t : ASTNode) : List Char := (t.print []).1

/-- Equality of results is decidable, so that concrete runs can be checked by
evaluation. -/
instance instDecidableEqExcept {ε α : Type} [DecidableEq ε] [DecidableEq α] :
    DecidableEq (Except ε α) := fun a b =>
  match a, b with
  | .ok x, .ok y =>
    if h : x = y then isTrue (by rw [h]) else isFalse (fun h1 => h (by injection h1))
  | .error x, .error y =>
    if h : x = y then isTrue (by rw [h]) else isFalse (fun h1 => h (by injection h1))
  | .ok _, .error _ => isFalse (fun h => by cases h)
  | .error _, .ok _ => isFalse (fun h => by cases h)

/-- Whether the text starts with a character of the given class. -/
def startsWith (p : Char → Bool) : List Char → Bool
  | [] => false
  | c :: _ => p c

/-- The six one-character tokens. -/
def charToken (c : Char) : Option Token :=
  if c = '+' then some ⟨.PLUS, ['+']⟩
  else if c = '-' then some ⟨.MINUS, ['-']⟩
  else if c = '*' then some ⟨.MUL, ['*']⟩
  else if c = '/' then some ⟨.DIV, ['/']⟩
  else if c = '(' then some ⟨.LPAREN, ['(']⟩
  else if c = ')' then some ⟨.RPAREN, [')']⟩
  else none

/-- The outcome of the call number `n + 1` in a row of `getNextToken` calls. -/
def Lexer.nthToken : Nat → Lexer → Except Error (Token × Lexer)
  | 0, L => L.getNextToken
  | n + 1, L =>
    match L.getNextToken with
    | .error e => .error e
    | .ok (_, L1) => nthToken n L1

/-- A tree a parse can return: every operator node carries one of the four
binary operators and every literal is a non-negative `int`. -/
def ASTNode.Valid : ASTNode → Prop
  | .NumberNode value => 0 ≤ value ∧ value ≤ INT_MAX
  | .OperatorNode op left right =>
    (op = .PLUS ∨ op = .MINUS ∨ op = .MUL ∨ op = .DIV) ∧ left.Valid ∧ right.Valid

/-- The tree of `3 + 5 * (2 - 8)`. -/
def driverTree : ASTNode :=
  .OperatorNode .PLUS (.NumberNode 3)
    (.OperatorNode .MUL (.NumberNode 5) (.OperatorNode .MINUS (.NumberNode 2) (.NumberNode 8)))

/-- The lexer as a function of the text `rest` that remains after the cursor:
the token it returns and the number of characters it moves the cursor by. -/
def lexText (rest : List Char) : Except Error (Token × Nat) :=
  match rest.dropWhile isspace with
  | [] => .ok (⟨.END, []⟩, rest.length)
  | c :: cs =>
    if isdigit c then
      .ok (⟨.NUMBER, (c :: cs).takeWhile isdigit⟩,
        (rest.takeWhile isspace).length + ((c :: cs).takeWhile isdigit).length)
    else match charToken c with
      | some tok => .ok (tok, (rest.takeWhile isspace).length + 1)
      | none => .error .invalidCharacter

/-- A token as the lexer produces it: the text of a `NUMBER` is a non-empty
run of digits. -/
def Token.WF (tok : Token) : Prop :=
  tok.type = .NUMBER → tok.value ≠ [] ∧ ∀ c ∈ tok.value, isdigit c = true

/-- The fuel `parseFactor` needs to read back the rendering of a tree. -/
def ASTNode.need : ASTNode → Nat
  | .NumberNode _ => 1
  | .OperatorNode _ left right => max left.need right.need + 4

/-- Construct a parser with the cursor at `pos` and run `k` on it. -/
def startThen {α : Type} (input : List Char) (pos : Nat) (k : Parser → Except Error α) :
    Except Error α :=
  match Parser.new ⟨input, pos⟩ with
  | .error e => .error e
  | .ok P => k P

/-- A literal as the claims write it: a non-empty digit string whose value is
an `int`. -/
def LiteralOK (d : List Char) : Prop :=
  d ≠ [] ∧ (∀ c ∈ d, isdigit c = true) ∧ (digitsValue d : Int) ≤ INT_MAX

/-- The text ` o ` of a binary operator between two operands. -/
def opText (op : TokenType) : List Char :=
  match getOpChar op with
  | .ok c => [' ', c, ' ']
  | .error _ => []

/-- The text of the operator-literal pairs that continue a chain. -/
def tailText : List (TokenType × List Char) → List Char
  | [] => []
  | (op, d) :: rest => opText op ++ d ++ tailText rest

/-- The left-nested tree of a chain that continues the tree `acc`. -/
def leftNest (acc : ASTNode) : List (TokenType × List Char) → ASTNode
  | [] => acc
  | (op, d) :: rest => leftNest (.OperatorNode op acc (.NumberNode (digitsValue d))) rest

/-- The text of the operator-term pairs that continue a sum; a term is a
literal followed by a chain of `*` and `/`. -/
def sumTailText : List (TokenType × List Char × List (TokenType × List Char)) → List Char
  | [] => []
  | (op, d, ms) :: rest => opText op ++ d ++ tailText ms ++ sumTailText rest

/-- The left-nested tree of a sum that continues the tree `acc`. -/
def sumLeftNest (acc : ASTNode) :
    List (TokenType × List Char × List (TokenType × List Char)) → ASTNode
  | [] => acc
  | (op, d, ms) :: rest =>
    sumLeftNest (.OperatorNode op acc (leftNest (.NumberNode (digitsValue d)) ms)) rest

/-- The number of operators in the continuation of a sum. -/
def sumOps : List (TokenType × List Char × List (TokenType × List Char)) → Nat
  | [] => 0
  | (_, _, ms) :: rest => 1 + ms.length + sumOps rest

/-- The texts `e` and `rest` can be put side by side without joining a
number across the seam: when `e` ends in a digit, `rest` does not start with
one. -/
def TokenBoundary (e rest : List Char) : Prop :=
  ∀ a c, e = a ++ [c] → isdigit c = true → startsWith isdigit rest = false

/-- The parser `Q` runs on `pre ++ e ++ rest` in step with the parser `P` on
`e`: as long as `P` has not met the end of `e` both hold the same lookahead
at corresponding cursors; once `P` holds `END`, `Q` is the parser `QR` that
holds the first token of `rest`. -/
def Sim (pre e rest : List Char) (QR P Q : Parser) : Prop :=
  (P.currentToken.type ≠ .END ∧ Q.currentToken = P.currentToken ∧ P.lexer.input = e ∧
      Q.lexer.input = pre ++ (e ++ rest) ∧ Q.lexer.pos = pre.length + P.lexer.pos ∧
      P.lexer.pos ≤ e.length) ∨
    (P.currentToken.type = .END ∧ Q = QR)

/-- The number of tokens a parser can still consume is at most this: the
characters after the cursor, plus one for a lookahead other than `END`. -/
def Parser.remaining (P : Parser) : Nat :=
  (P.lexer.input.length - P.lexer.pos) + (if P.currentToken.type = .END then 0 else 1)

/-! ## The driver -/

/-- How a run of `main` ends: it returns, or an exception leaves `main` (the
program ends through `std::terminate`), or a division without a result stops
the process. -/
inductive Exit where
  | returned (code : Int)
  | terminated (e : Error)
  | undefined
  deriving DecidableEq, Repr

/-- What a run of `main` leaves behind: the text emitted on standard output,
the text emitted on standard error, and how the run ended. -/
structure Run where
  stdout : List Char
  stderr : List Char
  exit : Exit
  deriving DecidableEq, Repr

/-- The function `main`, with the input string as a parameter (the source
fixes it to `3 + 5 * (2 - 8)`).  The `Lexer` and the `Parser` are constructed
before the `try` block; `parse`, `print` and `evaluate` run inside it.  The
operands of `<<` are taken left to right, so `std::endl` has written the line
break and flushed the stream before `evaluate` runs; when `evaluate` stops
the process, the `Result: ` written after that flush is not emitted. -/
def main (input : List Char) : Run :=
  match Parser.new (Lexer.new input) with
  | .error e => ⟨[], [], .terminated e⟩
  | .ok parser =>
    match parser.parse (parseFuel input) with
    | .error e => ⟨[], e.what.toList ++ ['\n'], .returned 0⟩
    | .ok (ast, _) =>
      match ast.print [] with
      | (out, some e) => ⟨out, e.what.toList ++ ['\n'], .returned 0⟩
      | (out, none) =>
        match ast.evaluate with
        | .ok v => ⟨out ++ "\nResult: ".toList ++ printInt v ++ ['\n'], [], .returned 0⟩
        | .error (.exception e) =>
          ⟨out ++ "\nResult: ".toList, e.what.toList ++ ['\n'], .returned 0⟩
        | .error .undefined => ⟨out ++ ['\n'], [], .undefined⟩

/-! ## Notions used to state the properties of the lexer and the parser -/

/-- The lexer as a `getNextToken` call leaves it, whether the call returns or
throws: a throwing call has only run the whitespace loop. -/
def Lexer.afterGetNextToken (L : Lexer) : Lexer :=
  match L.getNextToken with
  | .ok (_, L1) => L1
  | .error _ => { L with pos := skipWhitespace L.input (L.input.length - L.pos) L.pos }

/-- The tokens other than `END` that at most `n` calls of `getNextToken` in a
row return, up to the first `END` or the first failure. -/
def Lexer.tokens : Nat → Lexer → List Token
  | 0, _ => []
  | n + 1, L =>
    match L.getNextToken with
    | .error _ => []
    | .ok (tok, L1) => if tok.type = .END then [] else tok :: tokens n L1

/-- The lexer left by a row of `getNextToken` calls that return exactly the
tokens `toks`, one after the other; `none` when they do not. -/
def Lexer.run : Lexer → List Token → Option Lexer
  | L, [] => some L
  | L, tok :: toks =>
    match L.getNextToken with
    | .error _ => none
    | .ok (tok1, L1) => if tok1 = tok then run L1 toks else none

/-- An operand or an operator, as it occurs in a token stream or in a tree. -/
inductive Item where
  | number (value : Int)
  | operator (op : TokenType)
  deriving DecidableEq, Repr

/-- The operand or operator a token stands for; parentheses and `END` stand
for none. -/
def Token.item (tok : Token) : Option Item :=
  match tok.type with
  | .NUMBER => some (.number (digitsValue tok.value))
  | .PLUS => some (.operator .PLUS)
  | .MINUS => some (.operator .MINUS)
  | .MUL => some (.operator .MUL)
  | .DIV => some (.operator .DIV)
  | _ => none

/-- The operands and operators of a token sequence, in order. -/
def tokenItems (toks : List Token) : List Item := toks.filterMap Token.item

/-- The in-order traversal of a tree: literal values and operators, left to
right. -/
def ASTNode.inorder : ASTNode → List Item
  | .NumberNode value => [.number value]
  | .OperatorNode op left right => left.inorder ++ .operator op :: right.inorder

/-- The operators carried by the operator nodes of a tree. -/
def ASTNode.operators : ASTNode → List TokenType
  | .NumberNode _ => []
  | .OperatorNode op left right => op :: (left.operators ++ right.operators)

/-- The values carried by the literals of a tree. -/
def ASTNode.literals : ASTNode → List Int
  | .NumberNode value => [value]
  | .OperatorNode _ left right => left.literals ++ right.literals

/-- The parser `P1` is reached from the parser `P` by consuming the tokens
`toks`, the first of which is the lookahead of `P`. -/
def Consumed : Parser → List Token → Parser → Prop
  | P, [], P1 => P1 = P
  | P, tok :: toks, P1 =>
    tok = P.currentToken ∧ ∃ P2, Parser.new P.lexer = .ok P2 ∧ Consumed P2 toks P1

/-! ## The lexer on the text that remains after the cursor -/

theorem drop_cons_facts {input : List Char} {pos : Nat} {c : Char} {rest : List Char}
    (h : input.drop pos = c :: rest) :
    pos < input.length ∧ charAt input pos = c ∧ input.drop (pos + 1) = rest := by
  have hlt : pos < input.length := by
    by_contra hge
    rw [List.drop_eq_nil_of_le (by omega)] at h
    cases h
  refine ⟨hlt, ?_, ?_⟩
  · rw [List.drop_eq_getElem_cons hlt] at h
    simp only [charAt, List.getD_eq_getElem?_getD, List.getElem?_eq_getElem hlt, Option.getD_some]
    exact (List.cons.inj h).1
  · rw [List.drop_eq_getElem_cons hlt] at h
    exact (List.cons.inj h).2

theorem drop_append_facts {input : List Char} {pos : Nat} (a b : List Char)
    (h : input.drop pos = a ++ b) : input.drop (pos + a.length) = b := by
  rw [← List.drop_drop, h, List.drop_left]

/-- With enough iterations the whitespace loop stops right after the run of
whitespace that starts at the cursor. -/
theorem skipWhitespace_eq (input : List Char) :
    ∀ (rest : List Char) (pos fuel : Nat), input.drop pos = rest → rest.length ≤ fuel →
      skipWhitespace input fuel pos = pos + (rest.takeWhile isspace).length := by
  intro rest
  induction rest with
  | nil =>
    intro pos fuel h _
    have hge : ¬ pos < input.length := by
      intro hlt
      have := List.length_drop pos input
      rw [h] at this
      simp at this
      omega
    cases fuel with
    | zero => simp [skipWhitespace]
    | succ f => simp [skipWhitespace, hge]
  | cons c rest ih =>
    intro pos fuel h hf
    obtain ⟨hlt, hc, hd⟩ := drop_cons_facts h
    cases fuel with
    | zero => simp at hf
    | succ f =>
      simp only [List.length_cons, Nat.add_le_add_iff_right] at hf
      by_cases hs : isspace c = true
      · simp only [skipWhitespace, hlt, hc, hs, decide_True, Bool.and_self, if_true,
          List.takeWhile_cons, List.length_cons]
        rw [ih (pos + 1) f hd hf]
        omega
      · simp [skipWhitespace, hc, hs, List.takeWhile_cons]

/-- With enough iterations the digit loop appends exactly the run of digits
that starts at the cursor and stops right after it. -/
theorem scanDigits_eq (input : List Char) :
    ∀ (rest : List Char) (pos fuel : Nat) (num : List Char), input.drop pos = rest →
      rest.length ≤ fuel →
      scanDigits input fuel pos num =
        (pos + (rest.takeWhile isdigit).length, num ++ rest.takeWhile isdigit) := by
  intro rest
  induction rest with
  | nil =>
    intro pos fuel num h _
    have hge : ¬ pos < input.length := by
      intro hlt
      have := List.length_drop pos input
      rw [h] at this
      simp at this
      omega
    cases fuel with
    | zero => simp [scanDigits]
    | succ f => simp [scanDigits, hge]
  | cons c rest ih =>
    intro pos fuel num h hf
    obtain ⟨hlt, hc, hd⟩ := drop_cons_facts h
    cases fuel with
    | zero => simp at hf
    | succ f =>
      simp only [List.length_cons, Nat.add_le_add_iff_right] at hf
      by_cases hs : isdigit c = true
      · simp only [scanDigits, hlt, hc, hs, decide_True, Bool.and_self, if_true,
          List.takeWhile_cons, List.length_cons]
        rw [ih (pos + 1) f _ hd hf]
        simp
        omega
      · simp [scanDigits, hc, hs, List.takeWhile_cons]

theorem takeWhile_of_not_startsWith {p : Char → Bool} {l : List Char}
    (h : startsWith p l = false) : l.takeWhile p = [] := by
  cases l with
  | nil => rfl
  | cons c t => simp only [startsWith] at h; simp [List.takeWhile_cons, h]

theorem takeWhile_run {p : Char → Bool} (a b : List Char) (ha : ∀ c ∈ a, p c = true)
    (hb : startsWith p b = false) : (a ++ b).takeWhile p = a := by
  rw [List.takeWhile_append_of_pos ha, takeWhile_of_not_startsWith hb, List.append_nil]

theorem isspace_of_isdigit {c : Char} (h : isdigit c = true) : isspace c = false := by
  by_contra hs
  simp only [Bool.not_eq_false] at hs
  simp only [isspace, Bool.or_eq_true, decide_eq_true_eq] at hs
  rcases hs with ((((h1 | h1) | h1) | h1) | h1) | h1 <;> subst h1 <;> simp [isdigit] at h

namespace Lexer

theorem getNextToken_congr (input : List Char) (p q : Nat)
    (h : skipWhitespace input (input.length - p) p = skipWhitespace input (input.length - q) q) :
    getNextToken ⟨input, p⟩ = getNextToken ⟨input, q⟩ := by
  simp only [getNextToken, h]

/-- At the end of the input the lexer returns `END` and stays where it is. -/
theorem getNextToken_end (input : List Char) :
    getNextToken ⟨input, input.length⟩ = .ok (⟨.END, []⟩, ⟨input, input.length⟩) := by
  have h : skipWhitespace input (input.length - input.length) input.length = input.length := by
    simp [skipWhitespace]
  simp only [getNextToken, h, if_true]

/-- A whitespace character under the cursor is skipped. -/
theorem getNextToken_space {input : List Char} {pos : Nat} {c : Char} {rest : List Char}
    (h : input.drop pos = c :: rest) (hc : isspace c = true) :
    getNextToken ⟨input, pos⟩ = getNextToken ⟨input, pos + 1⟩ := by
  apply getNextToken_congr
  obtain ⟨_, _, hd⟩ := drop_cons_facts h
  rw [skipWhitespace_eq input _ pos _ h (by rw [← h, List.length_drop]),
    skipWhitespace_eq input _ (pos + 1) _ hd (by rw [← hd, List.length_drop])]
  simp [List.takeWhile_cons, hc]
  omega

/-- A run of whitespace under the cursor is skipped. -/
theorem getNextToken_spaces {input : List Char} :
    ∀ (ws : List Char) {pos : Nat} {rest : List Char}, input.drop pos = ws ++ rest →
      (∀ c ∈ ws, isspace c = true) →
      getNextToken ⟨input, pos⟩ = getNextToken ⟨input, pos + ws.length⟩ := by
  intro ws
  induction ws with
  | nil => intro pos rest _ _; rfl
  | cons c ws ih =>
    intro pos rest h hws
    rw [getNextToken_space h (hws c (List.mem_cons_self _ _))]
    have hd := (drop_cons_facts h).2.2
    rw [ih hd (fun x hx => hws x (List.mem_cons_of_mem _ hx))]
    simp only [List.length_cons]
    congr 2
    omega

/-- What the lexer does with a non-whitespace character under the cursor. -/
theorem getNextToken_at {input : List Char} {pos : Nat} {c : Char} {rest : List Char}
    (h : input.drop pos = c :: rest) (hc : isspace c = false) :
    getNextToken ⟨input, pos⟩ =
      if isdigit c then
        .ok (⟨.NUMBER, (c :: rest).takeWhile isdigit⟩,
          ⟨input, pos + ((c :: rest).takeWhile isdigit).length⟩)
      else match charToken c with
        | some tok => .ok (tok, ⟨input, pos + 1⟩)
        | none => .error .invalidCharacter := by
  obtain ⟨hlt, hch, _⟩ := drop_cons_facts h
  have hskip : skipWhitespace input (input.length - pos) pos = pos := by
    rw [skipWhitespace_eq input _ pos _ h (by rw [← h, List.length_drop])]
    simp [List.takeWhile_cons, hc]
  have hne : pos ≠ input.length := by omega
  simp only [getNextToken, hskip, hne, if_false, hch]
  by_cases hd : isdigit c = true
  · simp only [hd, if_true]
    rw [scanDigits_eq input _ pos _ [] h (by rw [← h, List.length_drop])]
    simp
  · have hd1 : isdigit c = false := by simpa using hd
    simp only [hd1, Bool.false_eq_true, if_false, charToken, advanceAndReturn]
    split_ifs <;> rfl

/-- A run of digits under the cursor, not followed by another digit, is read
as one `NUMBER` token. -/
theorem getNextToken_digits {input : List Char} {pos : Nat} (ds rest : List Char)
    (h : input.drop pos = ds ++ rest) (hne : ds ≠ []) (hds : ∀ c ∈ ds, isdigit c = true)
    (hrest : startsWith isdigit rest = false) :
    getNextToken ⟨input, pos⟩ = .ok (⟨.NUMBER, ds⟩, ⟨input, pos + ds.length⟩) := by
  cases ds with
  | nil => exact absurd rfl hne
  | cons d ds =>
    have hd : isdigit d = true := hds d (List.mem_cons_self _ _)
    rw [getNextToken_at (by simpa using h) (isspace_of_isdigit hd)]
    have hrun := takeWhile_run (d :: ds) rest hds hrest
    simp only [List.cons_append] at hrun
    simp only [hd, if_true, hrun]

/-- One of the six one-character tokens under the cursor. -/
theorem getNextToken_char {input : List Char} {pos : Nat} {c : Char} {rest : List Char}
    {tok : Token} (h : input.drop pos = c :: rest) (hc : charToken c = some tok) :
    getNextToken ⟨input, pos⟩ = .ok (tok, ⟨input, pos + 1⟩) := by
  have hs : isspace c = false := by
    by_contra hs
    simp only [Bool.not_eq_false] at hs
    simp only [isspace, Bool.or_eq_true, decide_eq_true_eq] at hs
    rcases hs with ((((h1 | h1) | h1) | h1) | h1) | h1 <;> subst h1 <;> simp [charToken] at hc
  have hd : isdigit c = false := by
    by_contra hd
    simp only [Bool.not_eq_false] at hd
    simp only [charToken] at hc
    split_ifs at hc with h1 h2 h3 h4 h5 h6 <;> subst_vars <;> simp [isdigit] at hd
  rw [getNextToken_at h hs]
  simp [hd, hc]

end Lexer

/-! ## Integer arithmetic -/

/-- Wrapping leaves an `int` as it is. -/
theorem wrapInt_of_range (v : Int) (h : INT_MIN ≤ v ∧ v ≤ INT_MAX) : wrapInt v = v := by
  simp only [INT_MIN, INT_MAX] at h
  simp only [wrapInt]
  omega

/-- Wrapping gives an `int`, congruent to the mathematical result modulo
`2^32`; `INT_MAX + 1` wraps to `INT_MIN`. -/
theorem wrapInt_facts (v : Int) :
    INT_MIN ≤ wrapInt v ∧ wrapInt v ≤ INT_MAX ∧ (wrapInt v - v) % 4294967296 = 0 ∧
      wrapInt (INT_MAX + 1) = INT_MIN := by
  refine ⟨?_, ?_, ?_, by decide⟩ <;> simp only [wrapInt, INT_MIN, INT_MAX] <;> omega


theorem natdiv_pos_mul (a b : Nat) (h : 0 < a / b) : 0 < (a : Int) * b := by
  have hb : 0 < b := Nat.pos_of_ne_zero (by rintro rfl; simp at h)
  have ha : 0 < a := Nat.pos_of_ne_zero (by rintro rfl; simp at h)
  positivity

/-- The quotient `Int.tdiv` is the quotient of the magnitudes, carrying the
sign of the product. -/
theorem tdiv_sign_facts (x y : Int) :
    (Int.tdiv x y).natAbs = x.natAbs / y.natAbs ∧ (0 < Int.tdiv x y → 0 < x * y) ∧
      (Int.tdiv x y < 0 → x * y < 0) := by
  refine ⟨Int.natAbs_tdiv x y, ?_, ?_⟩
  · intro h
    obtain ⟨a, rfl | rfl⟩ := Int.eq_nat_or_neg x <;> obtain ⟨b, rfl | rfl⟩ := Int.eq_nat_or_neg y
    all_goals simp only [Int.tdiv_neg, Int.neg_tdiv, neg_neg, ← Int.ofNat_tdiv] at h
    · have := natdiv_pos_mul a b (by omega); omega
    · have hq := Int.ofNat_nonneg (a / b); omega
    · have hq := Int.ofNat_nonneg (a / b); omega
    · have := natdiv_pos_mul a b (by omega)
      simp only [neg_mul, mul_neg, neg_neg]; omega
  · intro h
    obtain ⟨a, rfl | rfl⟩ := Int.eq_nat_or_neg x <;> obtain ⟨b, rfl | rfl⟩ := Int.eq_nat_or_neg y
    all_goals simp only [Int.tdiv_neg, Int.neg_tdiv, neg_neg, ← Int.ofNat_tdiv] at h
    · have hq := Int.ofNat_nonneg (a / b); omega
    · have := natdiv_pos_mul a b (by omega)
      simp only [neg_mul, mul_neg, neg_neg]; omega
    · have := natdiv_pos_mul a b (by omega)
      simp only [neg_mul, mul_neg, neg_neg]; omega
    · have hq := Int.ofNat_nonneg (a / b); omega

/-- The quotient of two `int`s is an `int`, except for `INT_MIN / -1`. -/
theorem tdiv_in_range (x y : Int) (hx : INT_MIN ≤ x ∧ x ≤ INT_MAX)
    (hxy : ¬ (x = INT_MIN ∧ y = -1)) (hy : y ≠ 0) :
    INT_MIN ≤ Int.tdiv x y ∧ Int.tdiv x y ≤ INT_MAX := by
  obtain ⟨habs, hpos, _⟩ := tdiv_sign_facts x y
  simp only [INT_MIN, INT_MAX] at *
  have hle : x.natAbs / y.natAbs ≤ x.natAbs := Nat.div_le_self _ _
  have hxa : x.natAbs ≤ 2147483648 := by omega
  refine ⟨by omega, ?_⟩
  by_contra hgt
  have hq : (Int.tdiv x y).natAbs = 2147483648 := by omega
  have hxeq : x.natAbs = 2147483648 := by omega
  have hxm : x = -2147483648 := by omega
  have hya : y.natAbs = 1 := by
    have h0 : 0 < y.natAbs := Int.natAbs_pos.mpr hy
    by_contra h1
    have h2 : 2 ≤ y.natAbs := by omega
    have h3 : x.natAbs / y.natAbs ≤ x.natAbs / 2 := Nat.div_le_div_left h2 (by decide)
    omega
  have hprod := hpos (by omega)
  have hyneg : y < 0 := by
    by_contra hge
    have hy0 : 0 ≤ y := by omega
    have : x * y ≤ 0 := Int.mul_nonpos_of_nonpos_of_nonneg (by omega) hy0
    omega
  exact hxy ⟨hxm, by omega⟩

/-! ## The driver's input -/

/-- C2: on the driver's input `3 + 5 * (2 - 8)` the parse succeeds (leaving the
lexer at the end of the text with `END` as lookahead), the tree prints as
`(3 + (5 * (2 - 8)))` without an exception, and it evaluates to `-27`. -/
theorem driver_input_pipeline :
    parse "3 + 5 * (2 - 8)".toList
        = .ok (driverTree, ⟨⟨.END, []⟩, ⟨"3 + 5 * (2 - 8)".toList, 15⟩⟩) ∧
      render driverTree = "(3 + (5 * (2 - 8)))".toList ∧
      driverTree.print [] = ("(3 + (5 * (2 - 8)))".toList, none) ∧
      driverTree.evaluate = .ok (-27) := by
  decide!

/-! ## Division -/

/-- C6: when the operands of a division evaluate to the `int`s `x` and `y`
with `y ≠ 0` and `(x, y) ≠ (INT_MIN, -1)`, the node evaluates to the quotient
rounded toward zero: its magnitude is `|x| / |y|` rounded down and its sign is
that of `x * y`.  So `7 / 2` gives `3` and `(0 - 7) / 2` gives `-3`. -/
theorem evaluate_div_truncates :
    (∀ (l r : ASTNode) (x y : Int), l.evaluate = .ok x → r.evaluate = .ok y →
      INT_MIN ≤ x ∧ x ≤ INT_MAX → y ≠ 0 → (x, y) ≠ (INT_MIN, -1) →
      (ASTNode.OperatorNode .DIV l r).evaluate = .ok (Int.tdiv x y) ∧
        (Int.tdiv x y).natAbs = x.natAbs / y.natAbs ∧
        (0 < Int.tdiv x y → 0 < x * y) ∧ (Int.tdiv x y < 0 → x * y < 0)) ∧
      (parse "7 / 2".toList).map (fun r => r.1.evaluate) = .ok (.ok 3) ∧
      (parse "(0 - 7) / 2".toList).map (fun r => r.1.evaluate) = .ok (.ok (-3)) := by
  refine ⟨?_, by decide!, by decide!⟩
  intro l r x y hl hr hx hy hxy
  have hne : ¬ (x = INT_MIN ∧ y = -1) := fun h => hxy (by rw [h.1, h.2])
  have hrange := tdiv_in_range x y hx hne hy
  refine ⟨?_, tdiv_sign_facts x y⟩
  simp only [ASTNode.evaluate, hl, hr, hy, if_false, divResult, hrange, and_self, if_true]

/-- A use of `evaluate_div_truncates`: `-7 / 2` is `-3`. -/
theorem evaluate_div_truncates_witness :
    (ASTNode.OperatorNode .DIV (.NumberNode (-7)) (.NumberNode 2)).evaluate
        = .ok (Int.tdiv (-7) 2) ∧
      (Int.tdiv (-7) 2).natAbs = (-7 : Int).natAbs / (2 : Int).natAbs ∧
      (0 < Int.tdiv (-7) 2 → 0 < (-7 : Int) * 2) ∧ (Int.tdiv (-7) 2 < 0 → (-7 : Int) * 2 < 0) :=
  evaluate_div_truncates.1 (.NumberNode (-7)) (.NumberNode 2) (-7) 2 rfl rfl
    (by decide) (by decide) (by decide)

/-! ## Lexer claims -/

/-- C9: when the first non-whitespace character at or after the cursor is
neither a digit nor one of `+ - * / ( )`, `getNextToken` throws "Invalid
character" and returns no token.  On `1 & 2` the first call returns
`NUMBER "1"`, the second call throws on `&`, and `parse` fails with that very
exception. -/
theorem getNextToken_invalid_character :
    (∀ (input : List Char) (pos : Nat) (ws : List Char) (c : Char) (rest : List Char),
      input.drop pos = ws ++ c :: rest → (∀ w ∈ ws, isspace w = true) →
      isspace c = false → isdigit c = false → c ∉ ['+', '-', '*', '/', '(', ')'] →
      Lexer.getNextToken ⟨input, pos⟩ = .error .invalidCharacter) ∧
      Error.invalidCharacter.what = "Invalid character" ∧
      (Lexer.new "1 & 2".toList).getNextToken
        = .ok (⟨.NUMBER, ['1']⟩, ⟨"1 & 2".toList, 1⟩) ∧
      Lexer.getNextToken ⟨"1 & 2".toList, 1⟩ = .error .invalidCharacter ∧
      parse "1 & 2".toList = .error .invalidCharacter := by
  refine ⟨?_, rfl, by decide!, by decide!, by decide!⟩
  intro input pos ws c rest h hws hs hd hc
  rw [Lexer.getNextToken_spaces ws h hws,
    Lexer.getNextToken_at (drop_append_facts ws (c :: rest) h) hs]
  have hct : charToken c = none := by
    simp only [List.mem_cons, List.mem_singleton, List.not_mem_nil, or_false, not_or] at hc
    simp [charToken, hc]
  simp [hd, hct]

/-- A use of `getNextToken_invalid_character`: `&` after two blanks. -/
theorem getNextToken_invalid_character_witness :
    Lexer.getNextToken ⟨['7', ' ', ' ', '&', '1'], 1⟩ = .error .invalidCharacter :=
  getNextToken_invalid_character.1 ['7', ' ', ' ', '&', '1'] 1 [' ', ' '] '&' ['1'] (by decide)
    (by decide) (by decide) (by decide) (by decide)

/-- C10: once `getNextToken` has returned `END`, the cursor equals the input
length, and every further call returns `END` again and leaves the lexer (its
input and its cursor) as it is. -/
theorem getNextToken_end_idempotent (L L1 : Lexer) (tok : Token)
    (h : L.getNextToken = .ok (tok, L1)) (hend : tok.type = .END) :
    L1.input = L.input ∧ L1.pos = L1.input.length ∧
      L1.getNextToken = .ok (⟨.END, []⟩, L1) ∧
      ∀ n, L1.nthToken n = .ok (⟨.END, []⟩, L1) := by
  have hL1 : L1 = ⟨L.input, L.input.length⟩ := by
    simp only [Lexer.getNextToken, Lexer.advanceAndReturn] at h
    split_ifs at h with h1 h2 h3 h4 h5 h6 h7 h8
    all_goals simp only [Except.ok.injEq, Prod.mk.injEq] at h
    all_goals obtain ⟨ht, hl⟩ := h
    all_goals subst ht
    all_goals first
      | (rw [← hl, h1])
      | (simp at hend)
  subst hL1
  have hstep := Lexer.getNextToken_end L.input
  refine ⟨rfl, rfl, hstep, ?_⟩
  intro n
  induction n with
  | zero => exact hstep
  | succ n ih => simp only [Lexer.nthToken, hstep]; exact ih

/-- A use of `getNextToken_end_idempotent`: the lexer of `7` after its two
first calls. -/
theorem getNextToken_end_idempotent_witness :
    (⟨['7'], 1⟩ : Lexer).input = ['7'] ∧ (⟨['7'], 1⟩ : Lexer).pos = 1 ∧
      Lexer.getNextToken ⟨['7'], 1⟩ = .ok (⟨.END, []⟩, ⟨['7'], 1⟩) ∧
      ∀ n, Lexer.nthToken n ⟨['7'], 1⟩ = .ok (⟨.END, []⟩, ⟨['7'], 1⟩) :=
  getNextToken_end_idempotent ⟨['7'], 1⟩ ⟨['7'], 1⟩ ⟨.END, []⟩ (by decide) rfl

/-! ## Fuel -/

namespace Parser

theorem consume_eq (P : Parser) (type : TokenType) :
    P.consume type = if P.currentToken.type = type then Parser.new P.lexer
      else .error .unexpectedToken := by
  simp only [consume, Parser.new]

theorem parseExpression_succ (f : Nat) (P : Parser) :
    parseExpression (f + 1) P =
      match parseTerm f P with
      | .error e => .error e
      | .ok (node, P1) => parseExpressionLoop f node P1 := by
  rw [parseExpression]

theorem parseExpressionLoop_succ (f : Nat) (node : ASTNode) (P : Parser) :
    parseExpressionLoop (f + 1) node P =
      if P.currentToken.type = .PLUS ∨ P.currentToken.type = .MINUS then
        match P.consume P.currentToken.type with
        | .error e => .error e
        | .ok P1 =>
          match parseTerm f P1 with
          | .error e => .error e
          | .ok (right, P2) =>
            parseExpressionLoop f (.OperatorNode P.currentToken.type node right) P2
      else .ok (node, P) := by
  rw [parseExpressionLoop]

theorem parseTerm_succ (f : Nat) (P : Parser) :
    parseTerm (f + 1) P =
      match parseFactor f P with
      | .error e => .error e
      | .ok (node, P1) => parseTermLoop f node P1 := by
  rw [parseTerm]

theorem parseTermLoop_succ (f : Nat) (node : ASTNode) (P : Parser) :
    parseTermLoop (f + 1) node P =
      if P.currentToken.type = .MUL ∨ P.currentToken.type = .DIV then
        match P.consume P.currentToken.type with
        | .error e => .error e
        | .ok P1 =>
          match parseFactor f P1 with
          | .error e => .error e
          | .ok (right, P2) =>
            parseTermLoop f (.OperatorNode P.currentToken.type node right) P2
      else .ok (node, P) := by
  rw [parseTermLoop]

theorem parseFactor_succ (f : Nat) (P : Parser) :
    parseFactor (f + 1) P =
      if P.currentToken.type = .NUMBER then
        match stoi P.currentToken.value with
        | .error e => .error e
        | .ok v =>
          match P.consume .NUMBER with
          | .error e => .error e
          | .ok P1 => .ok (.NumberNode v, P1)
      else if P.currentToken.type = .LPAREN then
        match P.consume .LPAREN with
        | .error e => .error e
        | .ok P1 =>
          match parseExpression f P1 with
          | .error e => .error e
          | .ok (node, P2) =>
            match P2.consume .RPAREN with
            | .error e => .error e
            | .ok P3 => .ok (node, P3)
      else .error .unexpectedTokenInFactor := by
  rw [parseFactor]

/-- One more unit of fuel does not change a result that is not `outOfFuel`. -/
theorem fuel_succ : ∀ f : Nat,
    (∀ P, parseExpression f P ≠ .error .outOfFuel →
      parseExpression (f + 1) P = parseExpression f P) ∧
    (∀ n P, parseExpressionLoop f n P ≠ .error .outOfFuel →
      parseExpressionLoop (f + 1) n P = parseExpressionLoop f n P) ∧
    (∀ P, parseTerm f P ≠ .error .outOfFuel → parseTerm (f + 1) P = parseTerm f P) ∧
    (∀ n P, parseTermLoop f n P ≠ .error .outOfFuel →
      parseTermLoop (f + 1) n P = parseTermLoop f n P) ∧
    (∀ P, parseFactor f P ≠ .error .outOfFuel → parseFactor (f + 1) P = parseFactor f P) := by
  intro f
  induction f with
  | zero =>
    refine ⟨?_, ?_, ?_, ?_, ?_⟩ <;> intros <;> simp_all [parseExpression, parseExpressionLoop,
      parseTerm, parseTermLoop, parseFactor]
  | succ f ih =>
    obtain ⟨ihE, ihEL, ihT, ihTL, ihF⟩ := ih
    refine ⟨?_, ?_, ?_, ?_, ?_⟩
    · intro P h
      simp only [parseExpression_succ] at h ⊢
      have hT : parseTerm f P ≠ .error .outOfFuel := by
        intro hc; rw [hc] at h; exact h rfl
      rw [ihT P hT]
      cases hc : parseTerm f P with
      | error e => rfl
      | ok r =>
        obtain ⟨n, P1⟩ := r
        simp only [hc] at h ⊢
        exact ihEL n P1 h
    · intro n P h
      simp only [parseExpressionLoop_succ] at h ⊢
      split_ifs at h ⊢ with hop
      · cases hc : P.consume P.currentToken.type with
        | error e => rfl
        | ok P1 =>
          simp only [hc] at h ⊢
          have hT : parseTerm f P1 ≠ .error .outOfFuel := by
            intro hc; rw [hc] at h; exact h rfl
          rw [ihT P1 hT]
          cases hc2 : parseTerm f P1 with
          | error e => rfl
          | ok r =>
            obtain ⟨n2, P2⟩ := r
            simp only [hc2] at h ⊢
            exact ihEL _ P2 h
      · rfl
    · intro P h
      simp only [parseTerm_succ] at h ⊢
      have hT : parseFactor f P ≠ .error .outOfFuel := by
        intro hc; rw [hc] at h; exact h rfl
      rw [ihF P hT]
      cases hc : parseFactor f P with
      | error e => rfl
      | ok r =>
        obtain ⟨n, P1⟩ := r
        simp only [hc] at h ⊢
        exact ihTL n P1 h
    · intro n P h
      simp only [parseTermLoop_succ] at h ⊢
      split_ifs at h ⊢ with hop
      · cases hc : P.consume P.currentToken.type with
        | error e => rfl
        | ok P1 =>
          simp only [hc] at h ⊢
          have hT : parseFactor f P1 ≠ .error .outOfFuel := by
            intro hc; rw [hc] at h; exact h rfl
          rw [ihF P1 hT]
          cases hc2 : parseFactor f P1 with
          | error e => rfl
          | ok r =>
            obtain ⟨n2, P2⟩ := r
            simp only [hc2] at h ⊢
            exact ihTL _ P2 h
      · rfl
    · intro P h
      simp only [parseFactor_succ] at h ⊢
      split_ifs at h ⊢ with hnum hlp
      · rfl
      · cases hc : P.consume .LPAREN with
        | error e => rfl
        | ok P1 =>
          simp only [hc] at h ⊢
          have hT : parseExpression f P1 ≠ .error .outOfFuel := by
            intro hc; rw [hc] at h; exact h rfl
          rw [ihE P1 hT]
      · rfl

/-- More fuel does not change a result that is not `outOfFuel`. -/
theorem parseExpression_fuel_le {f g : Nat} {P : Parser} {r : Except Error (ASTNode × Parser)}
    (h : parseExpression f P = r) (hr : r ≠ .error .outOfFuel) (hfg : f ≤ g) :
    parseExpression g P = r := by
  induction g with
  | zero => have : f = 0 := by omega
            subst this; exact h
  | succ g ih =>
    by_cases hfg1 : f ≤ g
    · have h1 := ih hfg1
      rw [(fuel_succ g).1 P (by rw [h1]; exact hr), h1]
    · have : f = g + 1 := by omega
      subst this; exact h

theorem parseTerm_fuel_le {f g : Nat} {P : Parser} {r : Except Error (ASTNode × Parser)}
    (h : parseTerm f P = r) (hr : r ≠ .error .outOfFuel) (hfg : f ≤ g) :
    parseTerm g P = r := by
  induction g with
  | zero => have : f = 0 := by omega
            subst this; exact h
  | succ g ih =>
    by_cases hfg1 : f ≤ g
    · have h1 := ih hfg1
      rw [(fuel_succ g).2.2.1 P (by rw [h1]; exact hr), h1]
    · have : f = g + 1 := by omega
      subst this; exact h

theorem parseFactor_fuel_le {f g : Nat} {P : Parser} {r : Except Error (ASTNode × Parser)}
    (h : parseFactor f P = r) (hr : r ≠ .error .outOfFuel) (hfg : f ≤ g) :
    parseFactor g P = r := by
  induction g with
  | zero => have : f = 0 := by omega
            subst this; exact h
  | succ g ih =>
    by_cases hfg1 : f ≤ g
    · have h1 := ih hfg1
      rw [(fuel_succ g).2.2.2.2 P (by rw [h1]; exact hr), h1]
    · have : f = g + 1 := by omega
      subst this; exact h

theorem parseExpressionLoop_fuel_le {f g : Nat} {n : ASTNode} {P : Parser}
    {r : Except Error (ASTNode × Parser)}
    (h : parseExpressionLoop f n P = r) (hr : r ≠ .error .outOfFuel) (hfg : f ≤ g) :
    parseExpressionLoop g n P = r := by
  induction g with
  | zero => have : f = 0 := by omega
            subst this; exact h
  | succ g ih =>
    by_cases hfg1 : f ≤ g
    · have h1 := ih hfg1
      rw [(fuel_succ g).2.1 n P (by rw [h1]; exact hr), h1]
    · have : f = g + 1 := by omega
      subst this; exact h

theorem parseTermLoop_fuel_le {f g : Nat} {n : ASTNode} {P : Parser}
    {r : Except Error (ASTNode × Parser)}
    (h : parseTermLoop f n P = r) (hr : r ≠ .error .outOfFuel) (hfg : f ≤ g) :
    parseTermLoop g n P = r := by
  induction g with
  | zero => have : f = 0 := by omega
            subst this; exact h
  | succ g ih =>
    by_cases hfg1 : f ≤ g
    · have h1 := ih hfg1
      rw [(fuel_succ g).2.2.2.1 n P (by rw [h1]; exact hr), h1]
    · have : f = g + 1 := by omega
      subst this; exact h

end Parser

/-! ## The lexer as a function of the remaining text -/

theorem Lexer.getNextToken_eq_lexText (L : Lexer) (h : L.pos ≤ L.input.length) :
    L.getNextToken =
      match lexText (L.input.drop L.pos) with
      | .error e => .error e
      | .ok (tok, k) => .ok (tok, ⟨L.input, L.pos + k⟩) := by
  obtain ⟨input, pos⟩ := L
  simp only at h ⊢
  have hsplit := (List.takeWhile_append_dropWhile isspace (input.drop pos)).symm
  have hws : ∀ c ∈ (input.drop pos).takeWhile isspace, isspace c = true :=
    fun c hc => List.mem_takeWhile_imp hc
  have hlen : (input.drop pos).length = input.length - pos := List.length_drop _ _
  rw [Lexer.getNextToken_spaces _ hsplit hws]
  have hd := drop_append_facts _ _ hsplit
  cases hdw : (input.drop pos).dropWhile isspace with
  | nil =>
    rw [hdw, List.append_nil] at hsplit
    have hl : pos + ((input.drop pos).takeWhile isspace).length = input.length := by
      rw [← hsplit]; omega
    rw [hl, Lexer.getNextToken_end]
    simp only [lexText, hdw]
    congr 3
    omega
  | cons c cs =>
    rw [hdw] at hd
    have hc : isspace c = false := by
      have := List.head_dropWhile_not isspace (input.drop pos) (by rw [hdw]; simp)
      simpa [hdw] using this
    rw [Lexer.getNextToken_at hd hc]
    simp only [lexText, hdw]
    by_cases hdg : isdigit c = true
    · simp only [hdg, if_true]
      congr 3
      omega
    · have hdg1 : isdigit c = false := by simpa using hdg
      simp only [hdg1, Bool.false_eq_true, if_false]
      cases charToken c with
      | none => rfl
      | some tok => rfl

theorem charToken_type {c : Char} {tok : Token} (h : charToken c = some tok) :
    tok.type ≠ .NUMBER ∧ tok.type ≠ .END := by
  simp only [charToken] at h
  split_ifs at h <;> simp only [Option.some.injEq] at h <;> subst h <;> simp

/-- What `lexText` returns: the cursor stays inside the text and the token is
well formed. -/
theorem lexText_ok {rest : List Char} {tok : Token} {k : Nat}
    (h : lexText rest = .ok (tok, k)) : k ≤ rest.length ∧ tok.WF := by
  have hsplit := List.takeWhile_append_dropWhile isspace rest
  have hl : rest.length = (rest.takeWhile isspace).length + (rest.dropWhile isspace).length := by
    rw [← List.length_append, hsplit]
  simp only [lexText] at h
  cases hdw : rest.dropWhile isspace with
  | nil =>
    simp only [hdw, Except.ok.injEq, Prod.mk.injEq] at h
    obtain ⟨rfl, rfl⟩ := h
    exact ⟨le_refl _, fun hh => by simp at hh⟩
  | cons c cs =>
    rw [hdw] at hl
    simp only [hdw] at h
    by_cases hdg : isdigit c = true
    · simp only [hdg, if_true, Except.ok.injEq, Prod.mk.injEq] at h
      obtain ⟨rfl, rfl⟩ := h
      refine ⟨?_, fun _ => ⟨?_, fun x hx => List.mem_takeWhile_imp hx⟩⟩
      · have := (List.takeWhile_sublist isdigit (l := c :: cs)).length_le
        omega
      · simp [List.takeWhile_cons, hdg]
    · have hdg1 : isdigit c = false := by simpa using hdg
      simp only [hdg1, Bool.false_eq_true, if_false] at h
      cases hct : charToken c with
      | none => simp [hct] at h
      | some t =>
        simp only [hct, Except.ok.injEq, Prod.mk.injEq] at h
        obtain ⟨rfl, rfl⟩ := h
        refine ⟨?_, fun hh => absurd hh (charToken_type hct).1⟩
        simp only [List.length_cons] at hl
        omega

/-- The constructor of `Parser` in terms of `lexText`. -/
theorem Parser.new_eq_lexText (L : Lexer) (h : L.pos ≤ L.input.length) :
    Parser.new L =
      match lexText (L.input.drop L.pos) with
      | .error e => .error e
      | .ok (tok, k) => .ok ⟨tok, ⟨L.input, L.pos + k⟩⟩ := by
  rw [Parser.new, L.getNextToken_eq_lexText h]
  cases lexText (L.input.drop L.pos) with
  | error e => rfl
  | ok r => rfl

/-- A lexer whose cursor is past the end of the input fails. -/
theorem Lexer.getNextToken_past (L : Lexer) (h : L.input.length < L.pos) :
    L.getNextToken = .error .invalidCharacter := by
  have hskip : skipWhitespace L.input (L.input.length - L.pos) L.pos = L.pos := by
    have : L.input.length - L.pos = 0 := by omega
    rw [this]; rfl
  have hch : charAt L.input L.pos = '\x00' := by
    simp only [charAt]
    exact List.getD_eq_default _ _ (by omega)
  have hne : L.pos ≠ L.input.length := by omega
  have hd : isdigit '\x00' = false := by decide
  simp only [Lexer.getNextToken, hskip, hne, if_false, hch, hd, Bool.false_eq_true]
  simp

/-- What the constructor of `Parser` returns: same input, cursor inside the
input, well-formed lookahead. -/
theorem Parser.new_ok {L : Lexer} {P : Parser} (h : Parser.new L = .ok P) :
    P.lexer.input = L.input ∧ L.pos ≤ P.lexer.pos ∧ P.lexer.pos ≤ L.input.length ∧
      P.currentToken.WF := by
  by_cases hpos : L.pos ≤ L.input.length
  · rw [Parser.new_eq_lexText L hpos] at h
    cases hl : lexText (L.input.drop L.pos) with
    | error e => simp [hl] at h
    | ok r =>
      obtain ⟨tok, k⟩ := r
      simp only [hl, Except.ok.injEq] at h
      subst h
      obtain ⟨hk, hwf⟩ := lexText_ok hl
      rw [List.length_drop] at hk
      exact ⟨rfl, by simp, by simp only; omega, hwf⟩
  · rw [Parser.new, L.getNextToken_past (by omega)] at h
    cases h

/-! ## Decimal text: `printInt` and `stoi` -/

theorem digitChar_facts (k : Nat) (hk : k < 10) :
    isdigit (Nat.digitChar k) = true ∧ (Nat.digitChar k).toNat - 48 = k := by
  interval_cases k <;> decide

theorem digitsValue_append (a : List Char) (c : Char) :
    digitsValue (a ++ [c]) = 10 * digitsValue a + (c.toNat - 48) := by
  simp [digitsValue, List.foldl_append]

theorem toDigitsCore_facts : ∀ (fuel n : Nat) (acc : List Char), n < fuel →
    ∃ ds, Nat.toDigitsCore 10 fuel n acc = ds ++ acc ∧ ds ≠ [] ∧
      (∀ c ∈ ds, isdigit c = true) ∧ digitsValue ds = n := by
  intro fuel
  induction fuel with
  | zero => intro n acc h; omega
  | succ fuel ih =>
    intro n acc h
    obtain ⟨hd, hv⟩ := digitChar_facts (n % 10) (Nat.mod_lt _ (by decide))
    simp only [Nat.toDigitsCore]
    by_cases h0 : n / 10 = 0
    · refine ⟨[Nat.digitChar (n % 10)], by simp [h0], by simp, by simpa using hd, ?_⟩
      simp only [digitsValue, List.foldl_cons, List.foldl_nil, hv]
      omega
    · obtain ⟨ds, heq, hne, hds, hval⟩ := ih (n / 10) (Nat.digitChar (n % 10) :: acc) (by omega)
      refine ⟨ds ++ [Nat.digitChar (n % 10)], by simp [h0, heq], by simp, ?_, ?_⟩
      · intro c hc
        rcases List.mem_append.mp hc with hc | hc
        · exact hds c hc
        · simp only [List.mem_singleton] at hc; subst hc; exact hd
      · rw [digitsValue_append, hval, hv]
        omega

/-- The decimal text of a natural number is a non-empty run of digits whose
value is the number. -/
theorem toDigits_facts (n : Nat) :
    Nat.toDigits 10 n ≠ [] ∧ (∀ c ∈ Nat.toDigits 10 n, isdigit c = true) ∧
      digitsValue (Nat.toDigits 10 n) = n := by
  obtain ⟨ds, heq, hne, hds, hval⟩ := toDigitsCore_facts (n + 1) n [] (by omega)
  simp only [List.append_nil] at heq
  simp only [Nat.toDigits, heq]
  exact ⟨hne, hds, hval⟩

theorem isdigit_not_sign {c : Char} (h : isdigit c = true) : c ≠ '-' ∧ c ≠ '+' := by
  constructor <;> rintro rfl <;> simp [isdigit] at h

/-- On a non-empty run of digits `stoi` returns its value, or throws
`out_of_range` when the value exceeds `INT_MAX`. -/
theorem stoi_digits (ds : List Char) (hne : ds ≠ []) (hds : ∀ c ∈ ds, isdigit c = true) :
    stoi ds = if (digitsValue ds : Int) ≤ INT_MAX then .ok (digitsValue ds : Int)
      else .error .stoiOutOfRange := by
  cases ds with
  | nil => exact absurd rfl hne
  | cons d t =>
    have hd := hds d (List.mem_cons_self _ _)
    have hsp := isspace_of_isdigit hd
    obtain ⟨hm, hp⟩ := isdigit_not_sign hd
    have htw : (d :: t).takeWhile isdigit = d :: t := by
      rw [List.takeWhile_eq_self_iff]
      exact fun c hc => hds c hc
    have hmin : INT_MIN ≤ (digitsValue (d :: t) : Int) := by
      simp only [INT_MIN]; omega
    simp only [stoi, List.dropWhile_cons, hsp, Bool.false_eq_true, if_false, List.head?_cons,
      Option.some.injEq, hm, hp, or_self, htw, decide_False, hmin, true_and]
    simp

theorem printInt_nonneg (v : Int) (h : 0 ≤ v) : printInt v = Nat.toDigits 10 v.toNat := by
  simp only [printInt]
  rw [if_neg (by omega)]

/-- The text printed for a non-negative `int` reads back as that `int`. -/
theorem stoi_printInt (v : Int) (h0 : 0 ≤ v) (h1 : v ≤ INT_MAX) :
    stoi (printInt v) = .ok v := by
  rw [printInt_nonneg v h0]
  obtain ⟨hne, hds, hval⟩ := toDigits_facts v.toNat
  rw [stoi_digits _ hne hds, hval]
  have : ((v.toNat : Nat) : Int) = v := Int.toNat_of_nonneg h0
  rw [this, if_pos h1]

/-- The value `stoi` returns for a well-formed `NUMBER` token is a
non-negative `int`. -/
theorem stoi_of_WF {tok : Token} (hwf : tok.WF) (hnum : tok.type = .NUMBER) {v : Int}
    (h : stoi tok.value = .ok v) : 0 ≤ v ∧ v ≤ INT_MAX := by
  obtain ⟨hne, hds⟩ := hwf hnum
  rw [stoi_digits _ hne hds] at h
  split_ifs at h with hle
  simp only [Except.ok.injEq] at h
  subst h
  exact ⟨by omega, hle⟩

/-! ## Printing valid trees -/

theorem getOpChar_of_valid {op : TokenType}
    (h : op = .PLUS ∨ op = .MINUS ∨ op = .MUL ∨ op = .DIV) :
    ∃ c, getOpChar op = .ok c ∧ charToken c = some ⟨op, [c]⟩ := by
  rcases h with rfl | rfl | rfl | rfl
  · exact ⟨'+', rfl, by decide⟩
  · exact ⟨'-', rfl, by decide⟩
  · exact ⟨'*', rfl, by decide⟩
  · exact ⟨'/', rfl, by decide⟩

theorem print_operator_aux {op : TokenType} {l r : ASTNode} {c : Char}
    (hl : ∀ out, l.print out = (out ++ render l, none))
    (hr : ∀ out, r.print out = (out ++ render r, none)) (hc : getOpChar op = .ok c) (out : List Char) :
    (ASTNode.OperatorNode op l r).print out =
      (out ++ '(' :: (render l ++ ' ' :: c :: ' ' :: (render r ++ [')'])), none) := by
  simp only [ASTNode.print, hl, hr, hc, List.append_assoc, List.singleton_append,
    List.cons_append, List.nil_append]

/-- Printing a valid tree throws nothing and appends its rendering to the
stream. -/
theorem print_of_valid : ∀ (t : ASTNode), t.Valid →
    ∀ out, t.print out = (out ++ render t, none) := by
  intro t
  induction t with
  | NumberNode v => intro _ out; simp [ASTNode.print, render]
  | OperatorNode op l r ihl ihr =>
    intro hv out
    obtain ⟨hop, hl, hr⟩ := hv
    obtain ⟨c, hc, _⟩ := getOpChar_of_valid hop
    have h1 := print_operator_aux (ihl hl) (ihr hr) hc
    have h2 : render (.OperatorNode op l r) =
        '(' :: (render l ++ ' ' :: c :: ' ' :: (render r ++ [')'])) := by
      show ((ASTNode.OperatorNode op l r).print []).1 = _
      rw [h1 []]; rfl
    rw [h1 out, h2]

/-- The rendering of a valid operator node. -/
theorem render_operator {op : TokenType} {l r : ASTNode} {c : Char}
    (hl : l.Valid) (hr : r.Valid) (hc : getOpChar op = .ok c) :
    render (.OperatorNode op l r) =
      '(' :: (render l ++ ' ' :: c :: ' ' :: (render r ++ [')'])) := by
  show ((ASTNode.OperatorNode op l r).print []).1 = _
  rw [print_operator_aux (print_of_valid l hl) (print_of_valid r hr) hc []]; rfl

theorem render_number (v : Int) : render (.NumberNode v) = printInt v := by
  simp [render, ASTNode.print]

/-! ## The parser's constructor on the remaining text -/

namespace Parser

theorem new_space {input : List Char} {pos : Nat} {c : Char} {rest : List Char}
    (h : input.drop pos = c :: rest) (hc : isspace c = true) :
    Parser.new ⟨input, pos⟩ = Parser.new ⟨input, pos + 1⟩ := by
  simp only [Parser.new, Lexer.getNextToken_space h hc]

theorem new_char {input : List Char} {pos : Nat} {c : Char} {rest : List Char} {tok : Token}
    (h : input.drop pos = c :: rest) (hc : charToken c = some tok) :
    Parser.new ⟨input, pos⟩ = .ok ⟨tok, ⟨input, pos + 1⟩⟩ := by
  simp only [Parser.new, Lexer.getNextToken_char h hc]

theorem new_digits {input : List Char} {pos : Nat} (ds rest : List Char)
    (h : input.drop pos = ds ++ rest) (hne : ds ≠ []) (hds : ∀ c ∈ ds, isdigit c = true)
    (hrest : startsWith isdigit rest = false) :
    Parser.new ⟨input, pos⟩ = .ok ⟨⟨.NUMBER, ds⟩, ⟨input, pos + ds.length⟩⟩ := by
  simp only [Parser.new, Lexer.getNextToken_digits ds rest h hne hds hrest]

theorem new_end (input : List Char) :
    Parser.new ⟨input, input.length⟩ = .ok ⟨⟨.END, []⟩, ⟨input, input.length⟩⟩ := by
  simp only [Parser.new, Lexer.getNextToken_end]

end Parser

/-! ## Reading back a rendering -/

theorem need_pos (t : ASTNode) : 1 ≤ t.need := by
  cases t <;> simp [ASTNode.need]

/-- Reading back a rendering: when the text after the cursor is the rendering
of a valid tree `t`, followed by something that does not start with a digit,
`parseFactor` returns `t` and leaves the parser as if it had been constructed
right after the rendering. -/
theorem parseFactor_render : ∀ (t : ASTNode), t.Valid →
    ∀ (input : List Char) (pos : Nat) (rest : List Char) (fuel : Nat),
      input.drop pos = render t ++ rest → startsWith isdigit rest = false → t.need ≤ fuel →
      ∃ P, Parser.new ⟨input, pos⟩ = .ok P ∧
        Parser.parseFactor fuel P =
          match Parser.new ⟨input, pos + (render t).length⟩ with
          | .error e => .error e
          | .ok P1 => .ok (t, P1) := by
  intro t
  induction t with
  | NumberNode v =>
    intro hv input pos rest fuel hdrop hrest hfuel
    obtain ⟨h0, h1⟩ := hv
    rw [render_number] at hdrop ⊢
    have hst := stoi_printInt v h0 h1
    rw [printInt_nonneg v h0] at hdrop hst ⊢
    obtain ⟨hne, hds, _⟩ := toDigits_facts v.toNat
    refine ⟨_, Parser.new_digits _ rest hdrop hne hds hrest, ?_⟩
    obtain ⟨f, rfl⟩ : ∃ f, fuel = f + 1 := ⟨fuel - 1, by simp only [ASTNode.need] at hfuel; omega⟩
    simp only [Parser.parseFactor_succ, Parser.consume_eq, if_true, hst]
  | OperatorNode op l r ihl ihr =>
    intro hv input pos rest fuel hdrop hrest hfuel
    obtain ⟨hop, hl, hr⟩ := hv
    obtain ⟨c, hc, hct⟩ := getOpChar_of_valid hop
    rw [render_operator hl hr hc] at hdrop ⊢
    simp only [ASTNode.need] at hfuel
    have hnl := need_pos l
    obtain ⟨k, rfl⟩ : ∃ k, fuel = k + 1 + 1 + 1 + 1 + 1 := ⟨fuel - 5, by omega⟩
    -- the positions of the pieces of the rendering
    simp only [List.cons_append, List.append_assoc, List.nil_append] at hdrop
    have hd1 := (drop_cons_facts hdrop).2.2
    have hd2 := drop_append_facts _ _ hd1
    have hd3 := (drop_cons_facts hd2).2.2
    have hd4 := (drop_cons_facts hd3).2.2
    have hd5 := (drop_cons_facts hd4).2.2
    have hd6 := drop_append_facts _ _ hd5
    -- the tokens at these positions
    have hn0 : Parser.new ⟨input, pos⟩ = .ok ⟨⟨.LPAREN, ['(']⟩, ⟨input, pos + 1⟩⟩ :=
      Parser.new_char hdrop (by decide)
    have hn2 : Parser.new ⟨input, pos + 1 + (render l).length⟩
        = .ok ⟨⟨op, [c]⟩, ⟨input, pos + 1 + (render l).length + 1 + 1⟩⟩ := by
      rw [Parser.new_space hd2 (by decide), Parser.new_char hd3 hct]
    have hn4 : Parser.new ⟨input, pos + 1 + (render l).length + 1 + 1⟩
        = Parser.new ⟨input, pos + 1 + (render l).length + 1 + 1 + 1⟩ :=
      Parser.new_space hd4 (by decide)
    have hn6 : Parser.new ⟨input, pos + 1 + (render l).length + 1 + 1 + 1 + (render r).length⟩
        = .ok ⟨⟨.RPAREN, [')']⟩,
            ⟨input, pos + 1 + (render l).length + 1 + 1 + 1 + (render r).length + 1⟩⟩ :=
      Parser.new_char hd6 (by decide)
    have hlen : pos + ('(' :: (render l ++ ' ' :: c :: ' ' :: (render r ++ [')']))).length
        = pos + 1 + (render l).length + 1 + 1 + 1 + (render r).length + 1 := by
      simp only [List.length_cons, List.length_append, List.length_nil]
      omega
    rw [hlen]
    obtain ⟨Pl, hPl, hfl⟩ := ihl hl input (pos + 1) _ (k + 1 + 1) hd1 rfl (by omega)
    obtain ⟨Pr, hPr, hfr⟩ := ihr hr input _ _ (k + 1) hd5 rfl (by omega)
    simp only [hn2] at hfl
    simp only [hn6] at hfr
    refine ⟨_, hn0, ?_⟩
    have hclass : ((op = .PLUS ∨ op = .MINUS) ∧ ¬ (op = .MUL ∨ op = .DIV)) ∨
        ((op = .MUL ∨ op = .DIV) ∧ ¬ (op = .PLUS ∨ op = .MINUS)) := by
      rcases hop with rfl | rfl | rfl | rfl <;> simp
    rw [Parser.parseFactor_succ]
    simp only [Parser.consume_eq, reduceCtorEq, if_true, if_false, hPl]
    rw [Parser.parseExpression_succ, Parser.parseTerm_succ, hfl]
    simp only []
    rw [Parser.parseTermLoop_succ]
    rcases hclass with ⟨hE, hT⟩ | ⟨hT, hE⟩
    · simp only [hT, if_false]
      rw [Parser.parseExpressionLoop_succ]
      simp only [hE, if_true, Parser.consume_eq, hn4, hPr]
      rw [Parser.parseTerm_succ, hfr]
      simp only []
      rw [Parser.parseTermLoop_succ]
      simp only [reduceCtorEq, or_self, if_false]
      rw [Parser.parseExpressionLoop_succ]
      simp only [reduceCtorEq, or_self, if_false, if_true, Parser.consume_eq]
    · simp only [hT, if_true, Parser.consume_eq, hn4, hPr, hfr]
      rw [Parser.parseTermLoop_succ]
      simp only [reduceCtorEq, or_self, if_false]
      rw [Parser.parseExpressionLoop_succ]
      simp only [reduceCtorEq, or_self, if_false, if_true, Parser.consume_eq]

theorem need_le_render : ∀ (t : ASTNode), t.Valid → t.need ≤ 3 * (render t).length + 1 := by
  intro t
  induction t with
  | NumberNode v => intro _; simp only [ASTNode.need]; omega
  | OperatorNode op l r ihl ihr =>
    intro hv
    obtain ⟨hop, hl, hr⟩ := hv
    obtain ⟨c, hc, _⟩ := getOpChar_of_valid hop
    have h1 := ihl hl
    have h2 := ihr hr
    rw [render_operator hl hr hc]
    simp only [ASTNode.need, List.length_cons, List.length_append, List.length_nil]
    omega

/-- Parsing the rendering of a valid tree gives the tree back, with the whole
text consumed. -/
theorem parse_render (t : ASTNode) (hv : t.Valid) :
    parse (render t) = .ok (t, ⟨⟨.END, []⟩, ⟨render t, (render t).length⟩⟩) := by
  obtain ⟨P, hP, hf⟩ := parseFactor_render t hv (render t) 0 [] (3 * (render t).length + 1)
    (by simp) rfl (need_le_render t hv)
  simp only [Nat.zero_add, Parser.new_end] at hf
  simp only [parse, Lexer.new, hP, Parser.parse, parseFuel]
  rw [Parser.parseExpression_succ, Parser.parseTerm_succ, hf]
  simp only []
  rw [Parser.parseTermLoop_succ]
  simp only [reduceCtorEq, or_self, if_false]
  rw [Parser.parseExpressionLoop_succ]
  simp only [reduceCtorEq, or_self, if_false]

/-! ## The trees a parse returns -/

theorem Parser.consume_ok {P P1 : Parser} {type : TokenType} (h : P.consume type = .ok P1) :
    P.currentToken.type = type ∧ Parser.new P.lexer = .ok P1 ∧ P1.currentToken.WF := by
  rw [Parser.consume_eq] at h
  split_ifs at h with ht
  exact ⟨ht, h, (Parser.new_ok h).2.2.2⟩

/-- Every tree the parser returns is valid, and the lookahead it leaves behind
is well formed. -/
theorem Parser.valid_of_ok : ∀ f : Nat,
    (∀ P t P1, P.currentToken.WF → parseExpression f P = .ok (t, P1) →
      t.Valid ∧ P1.currentToken.WF) ∧
    (∀ n P t P1, n.Valid → P.currentToken.WF → parseExpressionLoop f n P = .ok (t, P1) →
      t.Valid ∧ P1.currentToken.WF) ∧
    (∀ P t P1, P.currentToken.WF → parseTerm f P = .ok (t, P1) →
      t.Valid ∧ P1.currentToken.WF) ∧
    (∀ n P t P1, n.Valid → P.currentToken.WF → parseTermLoop f n P = .ok (t, P1) →
      t.Valid ∧ P1.currentToken.WF) ∧
    (∀ P t P1, P.currentToken.WF → parseFactor f P = .ok (t, P1) →
      t.Valid ∧ P1.currentToken.WF) := by
  intro f
  induction f with
  | zero =>
    refine ⟨?_, ?_, ?_, ?_, ?_⟩ <;> intros <;> simp_all [parseExpression, parseExpressionLoop,
      parseTerm, parseTermLoop, parseFactor]
  | succ f ih =>
    obtain ⟨ihE, ihEL, ihT, ihTL, ihF⟩ := ih
    refine ⟨?_, ?_, ?_, ?_, ?_⟩
    · intro P t P1 hwf h
      rw [parseExpression_succ] at h
      cases hc : parseTerm f P with
      | error e => simp [hc] at h
      | ok r =>
        obtain ⟨n, P2⟩ := r
        simp only [hc] at h
        obtain ⟨hn, hwf2⟩ := ihT P n P2 hwf hc
        exact ihEL n P2 t P1 hn hwf2 h
    · intro n P t P1 hn hwf h
      rw [parseExpressionLoop_succ] at h
      split_ifs at h with hop
      · cases hc : P.consume P.currentToken.type with
        | error e => simp [hc] at h
        | ok P2 =>
          simp only [hc] at h
          cases hc2 : parseTerm f P2 with
          | error e => simp [hc2] at h
          | ok r =>
            obtain ⟨n3, P3⟩ := r
            simp only [hc2] at h
            obtain ⟨hn3, hwf3⟩ := ihT P2 n3 P3 (consume_ok hc).2.2 hc2
            have hv : (ASTNode.OperatorNode P.currentToken.type n n3).Valid :=
              ⟨by rcases hop with hop | hop <;> simp [hop], hn, hn3⟩
            exact ihEL _ P3 t P1 hv hwf3 h
      · simp only [Except.ok.injEq, Prod.mk.injEq] at h
        obtain ⟨rfl, rfl⟩ := h
        exact ⟨hn, hwf⟩
    · intro P t P1 hwf h
      rw [parseTerm_succ] at h
      cases hc : parseFactor f P with
      | error e => simp [hc] at h
      | ok r =>
        obtain ⟨n, P2⟩ := r
        simp only [hc] at h
        obtain ⟨hn, hwf2⟩ := ihF P n P2 hwf hc
        exact ihTL n P2 t P1 hn hwf2 h
    · intro n P t P1 hn hwf h
      rw [parseTermLoop_succ] at h
      split_ifs at h with hop
      · cases hc : P.consume P.currentToken.type with
        | error e => simp [hc] at h
        | ok P2 =>
          simp only [hc] at h
          cases hc2 : parseFactor f P2 with
          | error e => simp [hc2] at h
          | ok r =>
            obtain ⟨n3, P3⟩ := r
            simp only [hc2] at h
            obtain ⟨hn3, hwf3⟩ := ihF P2 n3 P3 (consume_ok hc).2.2 hc2
            have hv : (ASTNode.OperatorNode P.currentToken.type n n3).Valid :=
              ⟨by rcases hop with hop | hop <;> simp [hop], hn, hn3⟩
            exact ihTL _ P3 t P1 hv hwf3 h
      · simp only [Except.ok.injEq, Prod.mk.injEq] at h
        obtain ⟨rfl, rfl⟩ := h
        exact ⟨hn, hwf⟩
    · intro P t P1 hwf h
      rw [parseFactor_succ] at h
      split_ifs at h with hnum hlp
      · cases hs : stoi P.currentToken.value with
        | error e => simp [hs] at h
        | ok v =>
          simp only [hs] at h
          cases hc : P.consume .NUMBER with
          | error e => simp [hc] at h
          | ok P2 =>
            simp only [hc, Except.ok.injEq, Prod.mk.injEq] at h
            obtain ⟨rfl, rfl⟩ := h
            exact ⟨stoi_of_WF hwf hnum hs, (consume_ok hc).2.2⟩
      · cases hc : P.consume .LPAREN with
        | error e => simp [hc] at h
        | ok P2 =>
          simp only [hc] at h
          cases hc2 : parseExpression f P2 with
          | error e => simp [hc2] at h
          | ok r =>
            obtain ⟨n3, P3⟩ := r
            simp only [hc2] at h
            cases hc3 : P3.consume .RPAREN with
            | error e => simp [hc3] at h
            | ok P4 =>
              simp only [hc3, Except.ok.injEq, Prod.mk.injEq] at h
              obtain ⟨rfl, rfl⟩ := h
              exact ⟨(ihE P2 n3 P3 (consume_ok hc).2.2 hc2).1, (consume_ok hc3).2.2⟩

/-- Every tree `parse` returns is valid. -/
theorem parse_valid {input : List Char} {t : ASTNode} {P : Parser}
    (h : parse input = .ok (t, P)) : t.Valid := by
  simp only [parse, Parser.parse] at h
  cases hn : Parser.new (Lexer.new input) with
  | error e => simp [hn] at h
  | ok P0 =>
    simp only [hn] at h
    exact ((Parser.valid_of_ok _).1 P0 t P (Parser.new_ok hn).2.2.2 h).1

/-! ## Rendering and evaluation agree -/

/-- C1: whenever `parse` succeeds on an input with tree `t`, the rendering of
`t` is again an input on which `parse` succeeds, and the tree obtained from it
(which is `t` itself) evaluates to the same outcome as `t`. -/
theorem parse_render_of_parse (input : List Char) (t : ASTNode) (P : Parser)
    (h : parse input = .ok (t, P)) :
    ∃ t1 P1, parse (render t) = .ok (t1, P1) ∧ t1.evaluate = t.evaluate ∧ t1 = t :=
  ⟨t, _, parse_render t (parse_valid h), rfl, rfl⟩

/-- A use of `parse_render_of_parse`: the input `007 - (1)`. -/
theorem parse_render_of_parse_witness :
    ∃ t1 P1, parse (render (.OperatorNode .MINUS (.NumberNode 7) (.NumberNode 1)))
        = .ok (t1, P1) ∧
      t1.evaluate = (ASTNode.OperatorNode .MINUS (.NumberNode 7) (.NumberNode 1)).evaluate ∧
      t1 = .OperatorNode .MINUS (.NumberNode 7) (.NumberNode 1) :=
  parse_render_of_parse "007 - (1)".toList _ ⟨⟨.END, []⟩, ⟨"007 - (1)".toList, 9⟩⟩ (by decide!)

/-! ## Chains of literals -/

theorem startThen_bind {β : Type} {input : List Char} {pos pos1 : Nat}
    {k : Parser → Except Error (ASTNode × Parser)} {a : ASTNode}
    (g : ASTNode → Parser → Except Error β)
    (h : startThen input pos k = startThen input pos1 (fun P1 => .ok (a, P1))) :
    startThen input pos (fun P => match k P with
      | .error e => .error e
      | .ok (x, P2) => g x P2) = startThen input pos1 (g a) := by
  simp only [startThen] at h ⊢
  cases h0 : Parser.new ⟨input, pos⟩ with
  | error e =>
    simp only [h0] at h ⊢
    cases h1 : Parser.new ⟨input, pos1⟩ with
    | error e1 => simp only [h1, Except.error.injEq] at h ⊢; rw [h]
    | ok P1 => simp [h1] at h
  | ok P =>
    simp only [h0] at h ⊢
    cases h1 : Parser.new ⟨input, pos1⟩ with
    | error e1 => simp only [h1] at h ⊢; rw [h]
    | ok P1 => simp only [h1] at h ⊢; rw [h]

theorem startThen_space {α : Type} {input : List Char} {pos : Nat} {c : Char} {rest : List Char}
    (k : Parser → Except Error α) (h : input.drop pos = c :: rest) (hc : isspace c = true) :
    startThen input pos k = startThen input (pos + 1) k := by
  simp only [startThen, Parser.new_space h hc]

theorem startThen_char {α : Type} {input : List Char} {pos : Nat} {c : Char} {rest : List Char}
    {tok : Token} (k : Parser → Except Error α) (h : input.drop pos = c :: rest)
    (hc : charToken c = some tok) :
    startThen input pos k = k ⟨tok, ⟨input, pos + 1⟩⟩ := by
  simp only [startThen, Parser.new_char h hc]

theorem consume_startThen {α : Type} (P : Parser) (type : TokenType)
    (k : Parser → Except Error α) (h : P.currentToken.type = type) :
    (match P.consume type with
      | .error e => .error e
      | .ok P1 => k P1) = startThen P.lexer.input P.lexer.pos k := by
  simp only [Parser.consume_eq, h, if_true, startThen]

/-- A literal under the cursor is read by `parseFactor` as a `NumberNode`. -/
theorem parseFactor_literal {input : List Char} {pos : Nat} {d rest : List Char} {fuel : Nat}
    (hd : LiteralOK d) (h : input.drop pos = d ++ rest) (hrest : startsWith isdigit rest = false)
    (hfuel : 1 ≤ fuel) :
    startThen input pos (Parser.parseFactor fuel) =
      startThen input (pos + d.length) (fun P1 => .ok (.NumberNode (digitsValue d), P1)) := by
  obtain ⟨hne, hds, hmax⟩ := hd
  obtain ⟨f, rfl⟩ : ∃ f, fuel = f + 1 := ⟨fuel - 1, by omega⟩
  have hst : stoi d = .ok (digitsValue d : Int) := by rw [stoi_digits d hne hds, if_pos hmax]
  rw [startThen, Parser.new_digits d rest h hne hds hrest]
  simp only [Parser.parseFactor_succ, if_true, hst]
  exact consume_startThen _ _ _ rfl

theorem opText_of_valid {op : TokenType}
    (h : op = .PLUS ∨ op = .MINUS ∨ op = .MUL ∨ op = .DIV) :
    ∃ c, opText op = [' ', c, ' '] ∧ charToken c = some ⟨op, [c]⟩ := by
  obtain ⟨c, hc, hct⟩ := getOpChar_of_valid h
  exact ⟨c, by simp [opText, hc], hct⟩

theorem startsWith_tailText (ms : List (TokenType × List Char)) (rest : List Char)
    (hms : ∀ m ∈ ms, m.1 = .PLUS ∨ m.1 = .MINUS ∨ m.1 = .MUL ∨ m.1 = .DIV)
    (hrest : startsWith isdigit rest = false) :
    startsWith isdigit (tailText ms ++ rest) = false := by
  cases ms with
  | nil => simpa [tailText] using hrest
  | cons m ms =>
    obtain ⟨op, d⟩ := m
    obtain ⟨c, hc, _⟩ := opText_of_valid (hms (op, d) (List.mem_cons_self _ _))
    simp only [tailText, hc, List.cons_append, startsWith]
    decide

/-- The loop of `parseTerm` on a chain of `*` and `/` followed by literals
folds the chain to the left. -/
theorem parseTermLoop_chain : ∀ (ms : List (TokenType × List Char)) (input : List Char)
    (pos : Nat) (rest : List Char) (acc : ASTNode) (fuel : Nat),
    (∀ m ∈ ms, (m.1 = .MUL ∨ m.1 = .DIV) ∧ LiteralOK m.2) →
    input.drop pos = tailText ms ++ rest → startsWith isdigit rest = false →
    (∀ P1, Parser.new ⟨input, pos + (tailText ms).length⟩ = .ok P1 →
      ¬ (P1.currentToken.type = .MUL ∨ P1.currentToken.type = .DIV)) →
    ms.length + 1 ≤ fuel →
    startThen input pos (Parser.parseTermLoop fuel acc) =
      startThen input (pos + (tailText ms).length) (fun P1 => .ok (leftNest acc ms, P1)) := by
  intro ms
  induction ms with
  | nil =>
    intro input pos rest acc fuel _ _ _ hstop hfuel
    obtain ⟨f, rfl⟩ : ∃ f, fuel = f + 1 := ⟨fuel - 1, by simp at hfuel; omega⟩
    simp only [tailText, List.length_nil, Nat.add_zero, leftNest] at hstop ⊢
    simp only [startThen]
    cases hn : Parser.new ⟨input, pos⟩ with
    | error e => rfl
    | ok P =>
      simp only [Parser.parseTermLoop_succ, if_neg (hstop P hn)]
  | cons m ms ih =>
    intro input pos rest acc fuel hms hdrop hrest hstop hfuel
    obtain ⟨op, d⟩ := m
    obtain ⟨hop, hd⟩ := hms (op, d) (List.mem_cons_self _ _)
    have hms1 : ∀ m ∈ ms, (m.1 = .MUL ∨ m.1 = .DIV) ∧ LiteralOK m.2 :=
      fun m hm => hms m (List.mem_cons_of_mem _ hm)
    obtain ⟨c, hc, hct⟩ := opText_of_valid (by tauto : op = .PLUS ∨ op = .MINUS ∨ op = .MUL ∨ op = .DIV)
    obtain ⟨f, rfl⟩ : ∃ f, fuel = f + 1 := ⟨fuel - 1, by simp at hfuel; omega⟩
    simp only [List.length_cons] at hfuel
    simp only [tailText, hc, List.cons_append, List.nil_append, List.append_assoc] at hdrop
    have hd1 := (drop_cons_facts hdrop).2.2
    have hd2 := (drop_cons_facts hd1).2.2
    have hd3 := (drop_cons_facts hd2).2.2
    have hd4 := drop_append_facts _ _ hd3
    have hlen : pos + (tailText ((op, d) :: ms)).length
        = pos + 1 + 1 + 1 + d.length + (tailText ms).length := by
      simp only [tailText, hc, List.length_append, List.length_cons, List.length_nil]
      omega
    rw [hlen] at hstop ⊢
    rw [startThen_space _ hdrop (by decide), startThen_char _ hd1 hct,
      Parser.parseTermLoop_succ]
    simp only [hop, if_true]
    rw [consume_startThen _ _ _ rfl]
    simp only []
    rw [startThen_space _ hd2 (by decide)]
    have hF := @parseFactor_literal _ _ _ _ f hd hd3
      (startsWith_tailText ms rest (fun m hm => by have := (hms1 m hm).1; tauto) hrest)
      (by omega)
    refine (startThen_bind
      (fun right P2 => Parser.parseTermLoop f (.OperatorNode op acc right) P2) hF).trans ?_
    exact ih input _ rest _ f hms1 hd4 hrest hstop (by omega)

/-- A term under the cursor, a literal followed by a chain of `*` and `/`, is
read by `parseTerm` as the left-nested tree of the chain. -/
theorem parseTerm_chain (d : List Char) (ms : List (TokenType × List Char)) (input : List Char)
    (pos : Nat) (rest : List Char) (fuel : Nat) (hd : LiteralOK d)
    (hms : ∀ m ∈ ms, (m.1 = .MUL ∨ m.1 = .DIV) ∧ LiteralOK m.2)
    (hdrop : input.drop pos = d ++ (tailText ms ++ rest))
    (hrest : startsWith isdigit rest = false)
    (hstop : ∀ P1, Parser.new ⟨input, pos + d.length + (tailText ms).length⟩ = .ok P1 →
      ¬ (P1.currentToken.type = .MUL ∨ P1.currentToken.type = .DIV))
    (hfuel : ms.length + 2 ≤ fuel) :
    startThen input pos (Parser.parseTerm fuel) =
      startThen input (pos + d.length + (tailText ms).length)
        (fun P1 => .ok (leftNest (.NumberNode (digitsValue d)) ms, P1)) := by
  obtain ⟨f, rfl⟩ : ∃ f, fuel = f + 1 := ⟨fuel - 1, by omega⟩
  have hunf : Parser.parseTerm (f + 1) = fun P =>
      match Parser.parseFactor f P with
      | .error e => .error e
      | .ok (node, P1) => Parser.parseTermLoop f node P1 := funext (Parser.parseTerm_succ f)
  rw [hunf]
  have hF := @parseFactor_literal _ _ _ _ f hd hdrop
    (startsWith_tailText ms rest (fun m hm => by have := (hms m hm).1; tauto) hrest) (by omega)
  refine (startThen_bind (fun node P1 => Parser.parseTermLoop f node P1) hF).trans ?_
  exact parseTermLoop_chain ms input _ rest _ f hms (drop_append_facts _ _ hdrop) hrest hstop
    (by omega)

theorem startsWith_sumTailText (ss : List (TokenType × List Char × List (TokenType × List Char)))
    (rest : List Char)
    (hss : ∀ s ∈ ss, s.1 = .PLUS ∨ s.1 = .MINUS)
    (hrest : startsWith isdigit rest = false) :
    startsWith isdigit (sumTailText ss ++ rest) = false := by
  cases ss with
  | nil => simpa [sumTailText] using hrest
  | cons s ss =>
    obtain ⟨op, d, ms⟩ := s
    obtain ⟨c, hc, _⟩ := opText_of_valid
      (by have := hss (op, d, ms) (List.mem_cons_self _ _); simp only at this; tauto :
        op = .PLUS ∨ op = .MINUS ∨ op = .MUL ∨ op = .DIV)
    simp only [sumTailText, hc, List.cons_append, startsWith]
    decide

/-- The token at the start of the continuation of a sum does not continue a
term. -/
theorem new_sumTailText_stop (ss : List (TokenType × List Char × List (TokenType × List Char)))
    (input : List Char) (pos : Nat) (rest : List Char)
    (hss : ∀ s ∈ ss, s.1 = .PLUS ∨ s.1 = .MINUS)
    (hdrop : input.drop pos = sumTailText ss ++ rest)
    (hstop : ∀ P1, Parser.new ⟨input, pos + (sumTailText ss).length⟩ = .ok P1 →
      ¬ (P1.currentToken.type = .MUL ∨ P1.currentToken.type = .DIV)) :
    ∀ P1, Parser.new ⟨input, pos⟩ = .ok P1 →
      ¬ (P1.currentToken.type = .MUL ∨ P1.currentToken.type = .DIV) := by
  cases ss with
  | nil => simpa [sumTailText] using hstop
  | cons s ss =>
    obtain ⟨op, d, ms⟩ := s
    have hop := hss (op, d, ms) (List.mem_cons_self _ _)
    simp only at hop
    obtain ⟨c, hc, hct⟩ := opText_of_valid
      (by tauto : op = .PLUS ∨ op = .MINUS ∨ op = .MUL ∨ op = .DIV)
    simp only [sumTailText, hc, List.cons_append, List.nil_append, List.append_assoc] at hdrop
    intro P1 hP1
    rw [Parser.new_space hdrop (by decide),
      Parser.new_char (drop_cons_facts hdrop).2.2 hct] at hP1
    simp only [Except.ok.injEq] at hP1
    subst hP1
    rcases hop with rfl | rfl <;> simp

/-- The loop of `parseExpression` on a chain of `+` and `-` followed by terms
folds the chain to the left. -/
theorem parseExpressionLoop_chain :
    ∀ (ss : List (TokenType × List Char × List (TokenType × List Char))) (input : List Char)
      (pos : Nat) (rest : List Char) (acc : ASTNode) (fuel : Nat),
    (∀ s ∈ ss, (s.1 = .PLUS ∨ s.1 = .MINUS) ∧ LiteralOK s.2.1 ∧
      ∀ m ∈ s.2.2, (m.1 = .MUL ∨ m.1 = .DIV) ∧ LiteralOK m.2) →
    input.drop pos = sumTailText ss ++ rest → startsWith isdigit rest = false →
    (∀ P1, Parser.new ⟨input, pos + (sumTailText ss).length⟩ = .ok P1 →
      ¬ (P1.currentToken.type = .PLUS ∨ P1.currentToken.type = .MINUS) ∧
      ¬ (P1.currentToken.type = .MUL ∨ P1.currentToken.type = .DIV)) →
    sumOps ss + 2 ≤ fuel →
    startThen input pos (Parser.parseExpressionLoop fuel acc) =
      startThen input (pos + (sumTailText ss).length)
        (fun P1 => .ok (sumLeftNest acc ss, P1)) := by
  intro ss
  induction ss with
  | nil =>
    intro input pos rest acc fuel _ _ _ hstop hfuel
    obtain ⟨f, rfl⟩ : ∃ f, fuel = f + 1 := ⟨fuel - 1, by omega⟩
    simp only [sumTailText, List.length_nil, Nat.add_zero, sumLeftNest] at hstop ⊢
    simp only [startThen]
    cases hn : Parser.new ⟨input, pos⟩ with
    | error e => rfl
    | ok P =>
      simp only [Parser.parseExpressionLoop_succ, if_neg (hstop P hn).1]
  | cons s ss ih =>
    intro input pos rest acc fuel hss hdrop hrest hstop hfuel
    obtain ⟨op, d, ms⟩ := s
    obtain ⟨hop, hd, hms⟩ := hss (op, d, ms) (List.mem_cons_self _ _)
    simp only at hop hd hms
    have hss1 : ∀ s ∈ ss, (s.1 = .PLUS ∨ s.1 = .MINUS) ∧ LiteralOK s.2.1 ∧
        ∀ m ∈ s.2.2, (m.1 = .MUL ∨ m.1 = .DIV) ∧ LiteralOK m.2 :=
      fun s hs => hss s (List.mem_cons_of_mem _ hs)
    obtain ⟨c, hc, hct⟩ := opText_of_valid
      (by tauto : op = .PLUS ∨ op = .MINUS ∨ op = .MUL ∨ op = .DIV)
    obtain ⟨f, rfl⟩ : ∃ f, fuel = f + 1 := ⟨fuel - 1, by omega⟩
    simp only [sumOps] at hfuel
    simp only [sumTailText, hc, List.cons_append, List.nil_append, List.append_assoc] at hdrop
    have hd1 := (drop_cons_facts hdrop).2.2
    have hd2 := (drop_cons_facts hd1).2.2
    have hd3 := (drop_cons_facts hd2).2.2
    have hd4 := drop_append_facts _ _ hd3
    have hd5 := drop_append_facts _ _ hd4
    have hlen : pos + (sumTailText ((op, d, ms) :: ss)).length
        = pos + 1 + 1 + 1 + d.length + (tailText ms).length + (sumTailText ss).length := by
      simp only [sumTailText, hc, List.length_append, List.length_cons, List.length_nil]
      omega
    rw [hlen] at hstop ⊢
    rw [startThen_space _ hdrop (by decide), startThen_char _ hd1 hct,
      Parser.parseExpressionLoop_succ]
    simp only [hop, if_true]
    rw [consume_startThen _ _ _ rfl]
    simp only []
    rw [startThen_space _ hd2 (by decide)]
    have hT := parseTerm_chain d ms input _ (sumTailText ss ++ rest) f hd hms hd3
      (startsWith_sumTailText ss rest (fun s hs => (hss1 s hs).1) hrest)
      (new_sumTailText_stop ss input _ rest (fun s hs => (hss1 s hs).1) hd5
        (fun P1 hP1 => (hstop P1 hP1).2))
      (by omega)
    refine (startThen_bind
      (fun right P2 => Parser.parseExpressionLoop f (.OperatorNode op acc right) P2) hT).trans ?_
    exact ih input _ rest _ f hss1 hd5 hrest hstop (by omega)

theorem length_le_tailText (ms : List (TokenType × List Char)) :
    ∀ (_ : ∀ m ∈ ms, m.1 = .PLUS ∨ m.1 = .MINUS ∨ m.1 = .MUL ∨ m.1 = .DIV),
      ms.length ≤ (tailText ms).length := by
  induction ms with
  | nil => intro _; simp
  | cons m ms ih =>
    intro hms
    obtain ⟨op, d⟩ := m
    obtain ⟨c, hc, _⟩ := opText_of_valid (hms (op, d) (List.mem_cons_self _ _))
    have := ih (fun m hm => hms m (List.mem_cons_of_mem _ hm))
    simp only [tailText, hc, List.length_append, List.length_cons, List.length_nil]
    omega

theorem sumOps_le_sumTailText
    (ss : List (TokenType × List Char × List (TokenType × List Char))) :
    ∀ (_ : ∀ s ∈ ss, (s.1 = .PLUS ∨ s.1 = .MINUS) ∧ LiteralOK s.2.1 ∧
      ∀ m ∈ s.2.2, (m.1 = .MUL ∨ m.1 = .DIV) ∧ LiteralOK m.2),
      sumOps ss ≤ (sumTailText ss).length := by
  induction ss with
  | nil => intro _; simp [sumOps]
  | cons s ss ih =>
    intro hss
    obtain ⟨op, d, ms⟩ := s
    obtain ⟨hop, _, hms⟩ := hss (op, d, ms) (List.mem_cons_self _ _)
    simp only at hop hms
    obtain ⟨c, hc, _⟩ := opText_of_valid
      (by tauto : op = .PLUS ∨ op = .MINUS ∨ op = .MUL ∨ op = .DIV)
    have h1 := ih (fun s hs => hss s (List.mem_cons_of_mem _ hs))
    have h2 := length_le_tailText ms (fun m hm => by have := (hms m hm).1; tauto)
    simp only [sumOps, sumTailText, hc, List.length_append, List.length_cons, List.length_nil]
    omega

/-- Parsing a sum of terms of literals: `parse` returns the tree that nests
every chain to the left, with `*` and `/` below `+` and `-`, and consumes the
whole text. -/
theorem parse_sum (d : List Char) (ms : List (TokenType × List Char))
    (ss : List (TokenType × List Char × List (TokenType × List Char)))
    (hd : LiteralOK d) (hms : ∀ m ∈ ms, (m.1 = .MUL ∨ m.1 = .DIV) ∧ LiteralOK m.2)
    (hss : ∀ s ∈ ss, (s.1 = .PLUS ∨ s.1 = .MINUS) ∧ LiteralOK s.2.1 ∧
      ∀ m ∈ s.2.2, (m.1 = .MUL ∨ m.1 = .DIV) ∧ LiteralOK m.2) :
    parse (d ++ (tailText ms ++ sumTailText ss)) =
      .ok (sumLeftNest (leftNest (.NumberNode (digitsValue d)) ms) ss,
        ⟨⟨.END, []⟩, ⟨d ++ (tailText ms ++ sumTailText ss),
          (d ++ (tailText ms ++ sumTailText ss)).length⟩⟩) := by
  have h1 := length_le_tailText ms (fun m hm => by have := (hms m hm).1; tauto)
  have h2 := sumOps_le_sumTailText ss hss
  have hlen : (d ++ (tailText ms ++ sumTailText ss)).length
      = 0 + d.length + (tailText ms).length + (sumTailText ss).length := by
    simp only [List.length_append]; omega
  generalize hin : d ++ (tailText ms ++ sumTailText ss) = input at hlen ⊢
  have hend := Parser.new_end input
  have hparse : parse input = startThen input 0 (Parser.parseExpression (parseFuel input)) := rfl
  obtain ⟨f, hf⟩ : ∃ f, parseFuel input = f + 1 := ⟨3 * input.length + 2, rfl⟩
  have hfge : ms.length + sumOps ss + 2 ≤ f := by
    simp only [parseFuel] at hf; omega
  have hunf : Parser.parseExpression (f + 1) = fun P =>
      match Parser.parseTerm f P with
      | .error e => .error e
      | .ok (node, P1) => Parser.parseExpressionLoop f node P1 :=
    funext (Parser.parseExpression_succ f)
  rw [hparse, hf, hunf]
  have hdrop0 : input.drop 0 = d ++ (tailText ms ++ (sumTailText ss ++ [])) := by
    simp [← hin]
  have hdrop1 := drop_append_facts _ _ (drop_append_facts _ _ hdrop0)
  have hstopE : ∀ P1,
      Parser.new ⟨input, 0 + d.length + (tailText ms).length + (sumTailText ss).length⟩
        = .ok P1 →
      ¬ (P1.currentToken.type = .PLUS ∨ P1.currentToken.type = .MINUS) ∧
      ¬ (P1.currentToken.type = .MUL ∨ P1.currentToken.type = .DIV) := by
    intro P1 hP1
    rw [← hlen, hend] at hP1
    simp only [Except.ok.injEq] at hP1
    subst hP1
    simp
  have hT := parseTerm_chain d ms input 0 (sumTailText ss ++ []) f hd hms hdrop0
    (startsWith_sumTailText ss [] (fun s hs => (hss s hs).1) rfl)
    (new_sumTailText_stop ss input _ [] (fun s hs => (hss s hs).1) hdrop1
      (fun P1 hP1 => (hstopE P1 hP1).2))
    (by omega)
  refine (startThen_bind (fun node P1 => Parser.parseExpressionLoop f node P1) hT).trans ?_
  rw [parseExpressionLoop_chain ss input _ [] _ f hss hdrop1 rfl hstopE (by omega), ← hlen,
    startThen, hend]

theorem sumTailText_map (ms : List (TokenType × List Char)) :
    sumTailText (ms.map (fun m => (m.1, m.2, []))) = tailText ms := by
  induction ms with
  | nil => rfl
  | cons m ms ih => simp [sumTailText, tailText, ih]

theorem sumLeftNest_map (ms : List (TokenType × List Char)) :
    ∀ acc, sumLeftNest acc (ms.map (fun m => (m.1, m.2, []))) = leftNest acc ms := by
  induction ms with
  | nil => intro acc; rfl
  | cons m ms ih => intro acc; simp [sumLeftNest, leftNest, ih]

/-! ## Precedence and associativity -/

/-- C3: for literals `a`, `b`, `c` (digit strings within `int` range), a
low-precedence operator `lo` (`+` or `-`) and a high-precedence operator `hi`
(`*` or `/`), `a lo b hi c` parses to `lo(a, hi(b, c))` and `a hi b lo c`
parses to `lo(hi(a, b), c)`, each time consuming the whole text; and
`1 + 2 * 3` evaluates to `7`. -/
theorem parse_precedence :
    (∀ (da db dc : List Char) (lo hi : TokenType) (cl ch : Char),
      LiteralOK da → LiteralOK db → LiteralOK dc →
      (lo, cl) = (.PLUS, '+') ∨ (lo, cl) = (.MINUS, '-') →
      (hi, ch) = (.MUL, '*') ∨ (hi, ch) = (.DIV, '/') →
      (∃ P, parse (da ++ [' ', cl, ' '] ++ db ++ [' ', ch, ' '] ++ dc) =
          .ok (.OperatorNode lo (.NumberNode (digitsValue da))
            (.OperatorNode hi (.NumberNode (digitsValue db)) (.NumberNode (digitsValue dc))), P) ∧
          P.currentToken.type = .END) ∧
      (∃ P, parse (da ++ [' ', ch, ' '] ++ db ++ [' ', cl, ' '] ++ dc) =
          .ok (.OperatorNode lo
            (.OperatorNode hi (.NumberNode (digitsValue da)) (.NumberNode (digitsValue db)))
            (.NumberNode (digitsValue dc)), P) ∧
          P.currentToken.type = .END)) ∧
      (parse "1 + 2 * 3".toList).map (fun r => r.1.evaluate) = .ok (.ok 7) := by
  refine ⟨?_, by decide!⟩
  intro da db dc lo hi cl ch ha hb hc hlo hhi
  have hlo1 : (lo = .PLUS ∨ lo = .MINUS) ∧ opText lo = [' ', cl, ' '] := by
    rcases hlo with h | h <;> simp only [Prod.mk.injEq] at h <;> obtain ⟨rfl, rfl⟩ := h <;>
      exact ⟨by simp, rfl⟩
  have hhi1 : (hi = .MUL ∨ hi = .DIV) ∧ opText hi = [' ', ch, ' '] := by
    rcases hhi with h | h <;> simp only [Prod.mk.injEq] at h <;> obtain ⟨rfl, rfl⟩ := h <;>
      exact ⟨by simp, rfl⟩
  constructor
  · have h := parse_sum da [] [(lo, db, [(hi, dc)])] ha (by simp)
      (by simp [hlo1.1, hhi1.1, hb, hc])
    simp only [tailText, sumTailText, hlo1.2, hhi1.2, List.nil_append, List.append_nil,
      sumLeftNest, leftNest] at h
    simp only [List.append_assoc]
    exact ⟨_, h, rfl⟩
  · have h := parse_sum da [(hi, db)] [(lo, dc, [])] ha (by simp [hhi1.1, hb])
      (by simp [hlo1.1, hc])
    simp only [tailText, sumTailText, hlo1.2, hhi1.2, List.nil_append, List.append_nil,
      sumLeftNest, leftNest] at h
    simp only [List.append_assoc]
    exact ⟨_, h, rfl⟩

/-- A use of `parse_precedence`: `12 - 3 / 4` and `12 / 3 - 4`. -/
theorem parse_precedence_witness :
    (∃ P, parse (['1', '2'] ++ [' ', '-', ' '] ++ ['3'] ++ [' ', '/', ' '] ++ ['4']) =
        .ok (.OperatorNode .MINUS (.NumberNode (digitsValue ['1', '2']))
          (.OperatorNode .DIV (.NumberNode (digitsValue ['3'])) (.NumberNode (digitsValue ['4']))),
          P) ∧
        P.currentToken.type = .END) ∧
      (∃ P, parse (['1', '2'] ++ [' ', '/', ' '] ++ ['3'] ++ [' ', '-', ' '] ++ ['4']) =
        .ok (.OperatorNode .MINUS
          (.OperatorNode .DIV (.NumberNode (digitsValue ['1', '2'])) (.NumberNode (digitsValue ['3'])))
          (.NumberNode (digitsValue ['4'])), P) ∧
        P.currentToken.type = .END) :=
  parse_precedence.1 ['1', '2'] ['3'] ['4'] .MINUS .DIV '-' '/'
    ⟨by decide, by decide, by decide⟩ ⟨by decide, by decide, by decide⟩
    ⟨by decide, by decide, by decide⟩ (Or.inr rfl) (Or.inr rfl)

/-- C4: a chain of literals joined by operators of one precedence level (all
`+`/`-`, or all `*`/`/`) parses to the left-nested tree
`((x1 o1 x2) o2 x3) ...`, consuming the whole text; so `a - b - c` parses to
`Sub(Sub(a, b), c)`, and `8 - 3 - 2` evaluates to `3`. -/
theorem parse_left_assoc :
    (∀ (d : List Char) (ms : List (TokenType × List Char)),
      LiteralOK d → (∀ m ∈ ms, LiteralOK m.2) →
      (∀ m ∈ ms, m.1 = .PLUS ∨ m.1 = .MINUS) ∨ (∀ m ∈ ms, m.1 = .MUL ∨ m.1 = .DIV) →
      parse (d ++ tailText ms) =
        .ok (leftNest (.NumberNode (digitsValue d)) ms,
          ⟨⟨.END, []⟩, ⟨d ++ tailText ms, (d ++ tailText ms).length⟩⟩)) ∧
      (∀ (da db dc : List Char), LiteralOK da → LiteralOK db → LiteralOK dc →
        ∃ P, parse (da ++ [' ', '-', ' '] ++ db ++ [' ', '-', ' '] ++ dc) =
          .ok (.OperatorNode .MINUS
            (.OperatorNode .MINUS (.NumberNode (digitsValue da)) (.NumberNode (digitsValue db)))
            (.NumberNode (digitsValue dc)), P)) ∧
      (parse "8 - 3 - 2".toList).map (fun r => r.1.evaluate) = .ok (.ok 3) := by
  have hgen : ∀ (d : List Char) (ms : List (TokenType × List Char)),
      LiteralOK d → (∀ m ∈ ms, LiteralOK m.2) →
      (∀ m ∈ ms, m.1 = .PLUS ∨ m.1 = .MINUS) ∨ (∀ m ∈ ms, m.1 = .MUL ∨ m.1 = .DIV) →
      parse (d ++ tailText ms) =
        .ok (leftNest (.NumberNode (digitsValue d)) ms,
          ⟨⟨.END, []⟩, ⟨d ++ tailText ms, (d ++ tailText ms).length⟩⟩) := by
    intro d ms hd hlit hops
    rcases hops with hops | hops
    · have h := parse_sum d [] (ms.map (fun m => (m.1, m.2, []))) hd (by simp) (by
        intro s hs
        obtain ⟨m, hm, rfl⟩ := List.mem_map.mp hs
        exact ⟨hops m hm, hlit m hm, by simp⟩)
      simpa only [sumTailText_map, sumLeftNest_map, tailText, leftNest, List.nil_append] using h
    · have h := parse_sum d ms [] hd (fun m hm => ⟨hops m hm, hlit m hm⟩) (by simp)
      simpa only [sumTailText, sumLeftNest, List.append_nil] using h
  refine ⟨hgen, ?_, by decide!⟩
  intro da db dc ha hb hc
  have h := hgen da [(.MINUS, db), (.MINUS, dc)] ha (by simp [hb, hc]) (Or.inl (by simp))
  simp only [tailText, opText, getOpChar, leftNest, List.append_nil] at h
  simp only [List.append_assoc]
  exact ⟨_, h⟩

/-- A use of `parse_left_assoc`: the chain `20 / 5 * 3 / 2`. -/
theorem parse_left_assoc_witness :
    parse (['2', '0'] ++ tailText [(.DIV, ['5']), (.MUL, ['3']), (.DIV, ['2'])]) =
      .ok (leftNest (.NumberNode (digitsValue ['2', '0']))
          [(.DIV, ['5']), (.MUL, ['3']), (.DIV, ['2'])],
        ⟨⟨.END, []⟩, ⟨['2', '0'] ++ tailText [(.DIV, ['5']), (.MUL, ['3']), (.DIV, ['2'])],
          (['2', '0'] ++ tailText [(.DIV, ['5']), (.MUL, ['3']), (.DIV, ['2'])]).length⟩⟩) :=
  parse_left_assoc.1 ['2', '0'] [(.DIV, ['5']), (.MUL, ['3']), (.DIV, ['2'])]
    ⟨by decide, by decide, by decide⟩
    (by
      intro m hm
      simp only [List.mem_cons, List.mem_singleton, List.not_mem_nil, or_false] at hm
      rcases hm with rfl | rfl | rfl <;> exact ⟨by decide, by decide, by decide⟩)
    (Or.inr (by
      intro m hm
      simp only [List.mem_cons, List.mem_singleton, List.not_mem_nil, or_false] at hm
      rcases hm with rfl | rfl | rfl <;> simp))

/-! ## Lexing a text that is followed by more text -/

theorem dropWhile_run {p : Char → Bool} (a b : List Char) (ha : ∀ c ∈ a, p c = true) :
    (a ++ b).dropWhile p = b.dropWhile p := by
  induction a with
  | nil => rfl
  | cons x a ih =>
    have hx := ha x (List.mem_cons_self _ _)
    simp only [List.cons_append, List.dropWhile_cons, hx, if_true]
    exact ih (fun c hc => ha c (List.mem_cons_of_mem _ hc))

theorem TokenBoundary.drop {e rest : List Char} (h : TokenBoundary e rest) (p : Nat) :
    TokenBoundary (e.drop p) rest := by
  intro a c ha hc
  refine h (e.take p ++ a) c ?_ hc
  rw [List.append_assoc, ← ha, List.take_append_drop]

/-- The first token of `s ++ rest` is the first token of `s`, unless `s` holds
nothing but whitespace, in which case it is the first token of `rest`. -/
theorem lexText_append {s rest : List Char} (hB : TokenBoundary s rest) {tok : Token} {k : Nat}
    (h : lexText s = .ok (tok, k)) :
    (tok.type ≠ .END → lexText (s ++ rest) = .ok (tok, k)) ∧
    (tok.type = .END → lexText (s ++ rest) =
      match lexText rest with
      | .error e => .error e
      | .ok (t, k1) => .ok (t, s.length + k1)) := by
  have hsplit := List.takeWhile_append_dropWhile isspace s
  have hws : ∀ c ∈ s.takeWhile isspace, isspace c = true := fun c hc => List.mem_takeWhile_imp hc
  cases hdw : s.dropWhile isspace with
  | nil =>
    rw [hdw, List.append_nil] at hsplit
    have hall : ∀ c ∈ s, isspace c = true := by rw [← hsplit]; exact hws
    simp only [lexText, hdw, Except.ok.injEq, Prod.mk.injEq] at h
    obtain ⟨rfl, rfl⟩ := h
    refine ⟨fun hne => absurd rfl hne, fun _ => ?_⟩
    simp only [lexText, dropWhile_run s rest hall, List.takeWhile_append_of_pos hall,
      List.length_append]
    cases rest.dropWhile isspace with
    | nil => simp
    | cons c cs =>
      by_cases hd : isdigit c = true
      · simp only [hd, if_true, Except.ok.injEq, Prod.mk.injEq, true_and]
        omega
      · have hd1 : isdigit c = false := by simpa using hd
        simp only [hd1, Bool.false_eq_true, if_false]
        cases charToken c with
        | none => rfl
        | some t => simp only [Except.ok.injEq, Prod.mk.injEq, true_and]; omega
  | cons c cs =>
    have hc : isspace c = false := by
      have := List.head_dropWhile_not isspace s (by rw [hdw]; simp)
      simpa [hdw] using this
    rw [hdw] at hsplit
    have hdw2 : (s ++ rest).dropWhile isspace = c :: (cs ++ rest) := by
      rw [← hsplit, List.append_assoc, dropWhile_run _ _ hws, List.cons_append,
        List.dropWhile_cons, hc]
      simp
    have htw2 : (s ++ rest).takeWhile isspace = s.takeWhile isspace := by
      conv_lhs => rw [← hsplit, List.append_assoc]
      exact takeWhile_run _ _ hws (by simp [startsWith, hc])
    simp only [lexText, hdw] at h
    simp only [lexText, hdw2, htw2]
    by_cases hd : isdigit c = true
    · simp only [hd, if_true, Except.ok.injEq, Prod.mk.injEq] at h ⊢
      obtain ⟨rfl, rfl⟩ := h
      refine ⟨fun _ => ?_, fun hh => by simp at hh⟩
      have hrun : (c :: (cs ++ rest)).takeWhile isdigit = (c :: cs).takeWhile isdigit := by
        have hsplit2 := List.takeWhile_append_dropWhile isdigit (c :: cs)
        have hds : ∀ x ∈ (c :: cs).takeWhile isdigit, isdigit x = true :=
          fun x hx => List.mem_takeWhile_imp hx
        cases hdd : (c :: cs).dropWhile isdigit with
        | nil =>
          rw [hdd, List.append_nil] at hsplit2
          have hne : (c :: cs).takeWhile isdigit ≠ [] := by rw [hsplit2]; simp
          obtain ⟨a, z, haz⟩ : ∃ a z, (c :: cs).takeWhile isdigit = a ++ [z] :=
            ⟨_, _, (List.dropLast_append_getLast hne).symm⟩
          have hz : isdigit z = true := hds z (by rw [haz]; simp)
          have hrest := hB (s.takeWhile isspace ++ a) z
            (by rw [List.append_assoc, ← haz, hsplit2, hsplit]) hz
          rw [← List.cons_append]
          conv_lhs => rw [← hsplit2]
          rw [takeWhile_run _ _ hds hrest, hsplit2]
        | cons y ys =>
          have hy : isdigit y = false := by
            have := List.head_dropWhile_not isdigit (c :: cs) (by rw [hdd]; simp)
            simpa [hdd] using this
          rw [hdd] at hsplit2
          rw [← List.cons_append]
          conv_lhs => rw [← hsplit2, List.append_assoc]
          exact takeWhile_run _ _ hds (by simp [startsWith, hy])
      rw [hrun]
      exact ⟨rfl, rfl⟩
    · have hd1 : isdigit c = false := by simpa using hd
      simp only [hd1, Bool.false_eq_true, if_false] at h ⊢
      cases hct : charToken c with
      | none => simp [hct] at h
      | some t =>
        simp only [hct, Except.ok.injEq, Prod.mk.injEq] at h ⊢
        obtain ⟨rfl, rfl⟩ := h
        exact ⟨fun _ => ⟨rfl, rfl⟩, fun hh => absurd hh (charToken_type hct).2⟩

/-! ## Parsing a text that is followed by more text -/

theorem drop_frame (pre e rest : List Char) (p : Nat) (hp : p ≤ e.length) :
    (pre ++ (e ++ rest)).drop (pre.length + p) = e.drop p ++ rest := by
  rw [List.drop_append, List.drop_append_of_le_length hp]

/-- Constructing a parser inside `e` and at the corresponding place of
`pre ++ e ++ rest` gives parsers in step. -/
theorem new_sim {pre e rest : List Char} {QR : Parser} (hB : TokenBoundary e rest)
    (hQR : Parser.new ⟨pre ++ (e ++ rest), pre.length + e.length⟩ = .ok QR)
    {p : Nat} (hp : p ≤ e.length) {P : Parser} (h : Parser.new ⟨e, p⟩ = .ok P) :
    ∃ Q, Parser.new ⟨pre ++ (e ++ rest), pre.length + p⟩ = .ok Q ∧ Sim pre e rest QR P Q := by
  have hlenfull : (pre ++ (e ++ rest)).length = pre.length + e.length + rest.length := by
    simp only [List.length_append]; omega
  rw [Parser.new_eq_lexText _ (by simp only; exact hp)] at h
  rw [Parser.new_eq_lexText _ (by simp only; omega)] at hQR ⊢
  simp only [drop_frame pre e rest p hp]
  have hdr : (pre ++ (e ++ rest)).drop (pre.length + e.length) = rest := by
    rw [drop_frame pre e rest e.length (le_refl _)]; simp
  simp only [hdr] at hQR
  simp only at h
  cases hl : lexText (e.drop p) with
  | error err => simp [hl] at h
  | ok r =>
    obtain ⟨tok, k⟩ := r
    simp only [hl, Except.ok.injEq] at h
    subst h
    obtain ⟨hk, _⟩ := lexText_ok hl
    rw [List.length_drop] at hk
    obtain ⟨h1, h2⟩ := lexText_append (hB.drop p) hl
    by_cases hend : tok.type = .END
    · rw [h2 hend]
      cases hr : lexText rest with
      | error err => simp [hr] at hQR
      | ok r =>
        obtain ⟨t, k1⟩ := r
        simp only [hr, Except.ok.injEq] at hQR ⊢
        have hk2 : k = e.length - p := by
          simp only [lexText] at hl
          cases hdw : (e.drop p).dropWhile isspace with
          | nil =>
            simp only [hdw, Except.ok.injEq, Prod.mk.injEq] at hl
            rw [← hl.2, List.length_drop]
          | cons c cs =>
            simp only [hdw] at hl
            split_ifs at hl with hd
            · simp only [Except.ok.injEq, Prod.mk.injEq] at hl
              rw [← hl.1] at hend; simp at hend
            · cases hct : charToken c with
              | none => simp [hct] at hl
              | some t2 =>
                simp only [hct, Except.ok.injEq, Prod.mk.injEq] at hl
                rw [← hl.1] at hend
                exact absurd hend (charToken_type hct).2
        refine ⟨_, rfl, Or.inr ⟨hend, ?_⟩⟩
        rw [← hQR, List.length_drop]
        congr 2
        omega
    · rw [h1 hend]
      exact ⟨_, rfl, Or.inl ⟨hend, rfl, rfl, rfl, by simp only; omega, by simp only; omega⟩⟩

/-- A successful `consume` on parsers in step (before the end of `e`) leaves
parsers in step. -/
theorem consume_sim {pre e rest : List Char} {QR : Parser} (hB : TokenBoundary e rest)
    (hQR : Parser.new ⟨pre ++ (e ++ rest), pre.length + e.length⟩ = .ok QR)
    {P Q P1 : Parser} {type : TokenType} (hsim : Sim pre e rest QR P Q)
    (hne : P.currentToken.type ≠ .END) (h : P.consume type = .ok P1) :
    ∃ Q1, Q.consume type = .ok Q1 ∧ Sim pre e rest QR P1 Q1 := by
  rcases hsim with ⟨_, htok, hPin, hQin, hQpos, hPpos⟩ | ⟨hend, _⟩
  · obtain ⟨ht, hnew, _⟩ := Parser.consume_ok h
    obtain ⟨Ptok, ⟨Pin, Ppos⟩⟩ := P
    obtain ⟨Qtok, ⟨Qin, Qpos⟩⟩ := Q
    simp only at htok hPin hQin hQpos hPpos ht hnew
    subst htok hPin hQin hQpos
    obtain ⟨Q1, hQ1, hs⟩ := new_sim hB hQR hPpos hnew
    exact ⟨Q1, by simp only [Parser.consume_eq, ht, if_true, hQ1], hs⟩
  · exact absurd hend hne

theorem Sim.tok_eq {pre e rest : List Char} {QR P Q : Parser} (h : Sim pre e rest QR P Q)
    (hne : P.currentToken.type ≠ .END) : Q.currentToken = P.currentToken := by
  rcases h with ⟨_, htok, _⟩ | ⟨hend, _⟩
  · exact htok
  · exact absurd hend hne

theorem Parser.parseExpressionLoop_end {f : Nat} {n t : ASTNode} {P P1 : Parser}
    (hend : P.currentToken.type = .END) (h : parseExpressionLoop f n P = .ok (t, P1)) :
    t = n ∧ P1 = P := by
  cases f with
  | zero => simp [parseExpressionLoop] at h
  | succ f =>
    rw [parseExpressionLoop_succ] at h
    simp only [hend, reduceCtorEq, or_self, if_false, Except.ok.injEq, Prod.mk.injEq] at h
    exact ⟨h.1.symm, h.2.symm⟩

/-- A successful run on `e` and the run on `pre ++ e ++ rest` from a parser in
step: the second run returns the same tree and stays in step, unless the
first run has met the end of `e` and the first token of `rest` is an operator
that the running loop would pick up. -/
theorem sim_parse {pre e rest : List Char} {QR : Parser} (hB : TokenBoundary e rest)
    (hQR : Parser.new ⟨pre ++ (e ++ rest), pre.length + e.length⟩ = .ok QR) : ∀ f : Nat,
    (∀ P Q t P1, Sim pre e rest QR P Q → Parser.parseExpression f P = .ok (t, P1) →
      (∃ Q1, Parser.parseExpression f Q = .ok (t, Q1) ∧ Sim pre e rest QR P1 Q1) ∨
      (P1.currentToken.type = .END ∧
        ((QR.currentToken.type = .PLUS ∨ QR.currentToken.type = .MINUS) ∨
          (QR.currentToken.type = .MUL ∨ QR.currentToken.type = .DIV)))) ∧
    (∀ n P Q t P1, Sim pre e rest QR P Q → Parser.parseExpressionLoop f n P = .ok (t, P1) →
      (∃ Q1, Parser.parseExpressionLoop f n Q = .ok (t, Q1) ∧ Sim pre e rest QR P1 Q1) ∨
      (P1.currentToken.type = .END ∧
        ((QR.currentToken.type = .PLUS ∨ QR.currentToken.type = .MINUS) ∨
          (QR.currentToken.type = .MUL ∨ QR.currentToken.type = .DIV)))) ∧
    (∀ P Q t P1, Sim pre e rest QR P Q → Parser.parseTerm f P = .ok (t, P1) →
      (∃ Q1, Parser.parseTerm f Q = .ok (t, Q1) ∧ Sim pre e rest QR P1 Q1) ∨
      (P1.currentToken.type = .END ∧
        (QR.currentToken.type = .MUL ∨ QR.currentToken.type = .DIV))) ∧
    (∀ n P Q t P1, Sim pre e rest QR P Q → Parser.parseTermLoop f n P = .ok (t, P1) →
      (∃ Q1, Parser.parseTermLoop f n Q = .ok (t, Q1) ∧ Sim pre e rest QR P1 Q1) ∨
      (P1.currentToken.type = .END ∧
        (QR.currentToken.type = .MUL ∨ QR.currentToken.type = .DIV))) ∧
    (∀ P Q t P1, Sim pre e rest QR P Q → Parser.parseFactor f P = .ok (t, P1) →
      ∃ Q1, Parser.parseFactor f Q = .ok (t, Q1) ∧ Sim pre e rest QR P1 Q1) := by
  intro f
  induction f with
  | zero =>
    refine ⟨?_, ?_, ?_, ?_, ?_⟩ <;> intros <;> simp_all [Parser.parseExpression,
      Parser.parseExpressionLoop, Parser.parseTerm, Parser.parseTermLoop, Parser.parseFactor]
  | succ f ih =>
    obtain ⟨ihE, ihEL, ihT, ihTL, ihF⟩ := ih
    refine ⟨?_, ?_, ?_, ?_, ?_⟩
    · intro P Q t P1 hsim h
      rw [Parser.parseExpression_succ] at h
      cases hc : Parser.parseTerm f P with
      | error err => simp [hc] at h
      | ok r =>
        obtain ⟨n, P2⟩ := r
        simp only [hc] at h
        rcases ihT P Q n P2 hsim hc with ⟨Q2, hQ2, hs2⟩ | ⟨hend, hmd⟩
        · rcases ihEL n P2 Q2 t P1 hs2 h with ⟨Q1, hQ1, hs1⟩ | hr
          · left
            refine ⟨Q1, ?_, hs1⟩
            rw [Parser.parseExpression_succ, hQ2]
            exact hQ1
          · exact Or.inr hr
        · obtain ⟨_, rfl⟩ := Parser.parseExpressionLoop_end hend h
          exact Or.inr ⟨hend, Or.inr hmd⟩
    · intro n P Q t P1 hsim h
      rw [Parser.parseExpressionLoop_succ] at h
      split_ifs at h with hop
      · have hne : P.currentToken.type ≠ .END := by
          rcases hop with h1 | h1 <;> rw [h1] <;> simp
        have htok := hsim.tok_eq hne
        cases hc : P.consume P.currentToken.type with
        | error err => simp [hc] at h
        | ok P2 =>
          simp only [hc] at h
          obtain ⟨Q2, hQ2, hs2⟩ := consume_sim hB hQR hsim hne hc
          cases hc2 : Parser.parseTerm f P2 with
          | error err => simp [hc2] at h
          | ok r =>
            obtain ⟨r1, P3⟩ := r
            simp only [hc2] at h
            rcases ihT P2 Q2 r1 P3 hs2 hc2 with ⟨Q3, hQ3, hs3⟩ | ⟨hend, hmd⟩
            · rcases ihEL _ P3 Q3 t P1 hs3 h with ⟨Q1, hQ1, hs1⟩ | hr
              · left
                refine ⟨Q1, ?_, hs1⟩
                rw [Parser.parseExpressionLoop_succ]
                simp only [htok, hop, if_true, hQ2, hQ3]
                exact hQ1
              · exact Or.inr hr
            · obtain ⟨_, rfl⟩ := Parser.parseExpressionLoop_end hend h
              exact Or.inr ⟨hend, Or.inr hmd⟩
      · simp only [Except.ok.injEq, Prod.mk.injEq] at h
        obtain ⟨rfl, rfl⟩ := h
        by_cases hend : P.currentToken.type = .END
        · rcases hsim with ⟨hne, _⟩ | ⟨_, rfl⟩
          · exact absurd hend hne
          · by_cases hq : Q.currentToken.type = .PLUS ∨ Q.currentToken.type = .MINUS
            · exact Or.inr ⟨hend, Or.inl hq⟩
            · left
              refine ⟨Q, ?_, Or.inr ⟨hend, rfl⟩⟩
              rw [Parser.parseExpressionLoop_succ, if_neg hq]
        · left
          have htok := hsim.tok_eq hend
          refine ⟨Q, ?_, hsim⟩
          rw [Parser.parseExpressionLoop_succ]
          simp only [htok, hop, if_false]
    · intro P Q t P1 hsim h
      rw [Parser.parseTerm_succ] at h
      cases hc : Parser.parseFactor f P with
      | error err => simp [hc] at h
      | ok r =>
        obtain ⟨n, P2⟩ := r
        simp only [hc] at h
        obtain ⟨Q2, hQ2, hs2⟩ := ihF P Q n P2 hsim hc
        rcases ihTL n P2 Q2 t P1 hs2 h with ⟨Q1, hQ1, hs1⟩ | hr
        · left
          refine ⟨Q1, ?_, hs1⟩
          rw [Parser.parseTerm_succ, hQ2]
          exact hQ1
        · exact Or.inr hr
    · intro n P Q t P1 hsim h
      rw [Parser.parseTermLoop_succ] at h
      split_ifs at h with hop
      · have hne : P.currentToken.type ≠ .END := by
          rcases hop with h1 | h1 <;> rw [h1] <;> simp
        have htok := hsim.tok_eq hne
        cases hc : P.consume P.currentToken.type with
        | error err => simp [hc] at h
        | ok P2 =>
          simp only [hc] at h
          obtain ⟨Q2, hQ2, hs2⟩ := consume_sim hB hQR hsim hne hc
          cases hc2 : Parser.parseFactor f P2 with
          | error err => simp [hc2] at h
          | ok r =>
            obtain ⟨r1, P3⟩ := r
            simp only [hc2] at h
            obtain ⟨Q3, hQ3, hs3⟩ := ihF P2 Q2 r1 P3 hs2 hc2
            rcases ihTL _ P3 Q3 t P1 hs3 h with ⟨Q1, hQ1, hs1⟩ | hr
            · left
              refine ⟨Q1, ?_, hs1⟩
              rw [Parser.parseTermLoop_succ]
              simp only [htok, hop, if_true, hQ2, hQ3]
              exact hQ1
            · exact Or.inr hr
      · simp only [Except.ok.injEq, Prod.mk.injEq] at h
        obtain ⟨rfl, rfl⟩ := h
        by_cases hend : P.currentToken.type = .END
        · rcases hsim with ⟨hne, _⟩ | ⟨_, rfl⟩
          · exact absurd hend hne
          · by_cases hq : Q.currentToken.type = .MUL ∨ Q.currentToken.type = .DIV
            · exact Or.inr ⟨hend, hq⟩
            · left
              refine ⟨Q, ?_, Or.inr ⟨hend, rfl⟩⟩
              rw [Parser.parseTermLoop_succ, if_neg hq]
        · left
          have htok := hsim.tok_eq hend
          refine ⟨Q, ?_, hsim⟩
          rw [Parser.parseTermLoop_succ]
          simp only [htok, hop, if_false]
    · intro P Q t P1 hsim h
      rw [Parser.parseFactor_succ] at h
      split_ifs at h with hnum hlp
      · have hne : P.currentToken.type ≠ .END := by rw [hnum]; simp
        have htok := hsim.tok_eq hne
        cases hs : stoi P.currentToken.value with
        | error err => simp [hs] at h
        | ok v =>
          simp only [hs] at h
          cases hc : P.consume .NUMBER with
          | error err => simp [hc] at h
          | ok P2 =>
            simp only [hc, Except.ok.injEq, Prod.mk.injEq] at h
            obtain ⟨rfl, rfl⟩ := h
            obtain ⟨Q2, hQ2, hs2⟩ := consume_sim hB hQR hsim hne hc
            refine ⟨Q2, ?_, hs2⟩
            rw [Parser.parseFactor_succ]
            simp only [htok, hnum, if_true, hs, hQ2]
      · have hne : P.currentToken.type ≠ .END := by rw [hlp]; simp
        have htok := hsim.tok_eq hne
        cases hc : P.consume .LPAREN with
        | error err => simp [hc] at h
        | ok P2 =>
          simp only [hc] at h
          obtain ⟨Q2, hQ2, hs2⟩ := consume_sim hB hQR hsim hne hc
          cases hc2 : Parser.parseExpression f P2 with
          | error err => simp [hc2] at h
          | ok r =>
            obtain ⟨n3, P3⟩ := r
            simp only [hc2] at h
            cases hc3 : P3.consume .RPAREN with
            | error err => simp [hc3] at h
            | ok P4 =>
              simp only [hc3, Except.ok.injEq, Prod.mk.injEq] at h
              obtain ⟨rfl, rfl⟩ := h
              have hrp := (Parser.consume_ok hc3).1
              have hne3 : P3.currentToken.type ≠ .END := by rw [hrp]; simp
              rcases ihE P2 Q2 _ P3 hs2 hc2 with ⟨Q3, hQ3, hs3⟩ | ⟨hend, _⟩
              · obtain ⟨Q4, hQ4, hs4⟩ := consume_sim hB hQR hs3 hne3 hc3
                refine ⟨Q4, ?_, hs4⟩
                rw [Parser.parseFactor_succ]
                simp only [htok, hlp, reduceCtorEq, if_true, if_false, hQ2, hQ3, hQ4]
              · exact absurd hend hne3

/-! ## Malformed input -/

/-- C7: take a text `e` that parses completely (the parse succeeds and ends
with `END` as lookahead) and put `(` before it and a text `rest` after it
whose first token is `END`, a `NUMBER` or `(`, i.e. not the `)` that is due.
Then `parse` fails with "Unexpected token" and returns no tree; so does
`parse "(1 + 2"`. -/
theorem parse_missing_rparen :
    (∀ (e rest : List Char) (t : ASTNode) (Pe : Parser) (tok : Token) (L : Lexer),
      parse e = .ok (t, Pe) → Pe.currentToken.type = .END → TokenBoundary e rest →
      Lexer.getNextToken ⟨'(' :: (e ++ rest), 1 + e.length⟩ = .ok (tok, L) →
      tok.type = .END ∨ tok.type = .NUMBER ∨ tok.type = .LPAREN →
      parse ('(' :: (e ++ rest)) = .error .unexpectedToken) ∧
      Error.unexpectedToken.what = "Unexpected token" ∧
      parse "(1 + 2".toList = .error .unexpectedToken := by
  refine ⟨?_, rfl, by decide!⟩
  intro e rest t Pe tok L hparse hend hB hlex htok
  have hQR : Parser.new ⟨['('] ++ (e ++ rest), ['('].length + e.length⟩ = .ok ⟨tok, L⟩ := by
    simp only [Parser.new, List.singleton_append, List.length_singleton, hlex]
  simp only [parse, Parser.parse, Lexer.new] at hparse
  cases hn : Parser.new ⟨e, 0⟩ with
  | error err => simp [hn] at hparse
  | ok P0 =>
    simp only [hn] at hparse
    obtain ⟨Q0, hQ0, hs0⟩ := new_sim hB hQR (Nat.zero_le _) hn
    simp only [List.singleton_append, List.length_singleton, Nat.add_zero] at hQ0
    rcases (sim_parse hB hQR _).1 P0 Q0 t Pe hs0 hparse with ⟨Q1, hQ1, hs1⟩ | ⟨_, hop⟩
    · have hQ1eq : Q1 = ⟨tok, L⟩ := by
        rcases hs1 with ⟨hne, _⟩ | ⟨_, h⟩
        · exact absurd hend hne
        · exact h
      subst hQ1eq
      have hn0 : Parser.new ⟨'(' :: (e ++ rest), 0⟩
          = .ok ⟨⟨.LPAREN, ['(']⟩, ⟨'(' :: (e ++ rest), 0 + 1⟩⟩ :=
        @Parser.new_char ('(' :: (e ++ rest)) 0 '(' (e ++ rest) _ rfl (by decide)
      obtain ⟨g, hg, hge⟩ : ∃ g, parseFuel ('(' :: (e ++ rest)) = g + 1 + 1 + 1 ∧
          parseFuel e ≤ g := by
        refine ⟨3 * (e.length + rest.length) + 3, ?_, ?_⟩
        · simp only [parseFuel, List.length_cons, List.length_append]; omega
        · simp only [parseFuel]; omega
      have hQ1g := Parser.parseExpression_fuel_le hQ1 (by simp) hge
      have hnrp : ¬ tok.type = .RPAREN := by
        rcases htok with h | h | h <;> rw [h] <;> simp
      simp only [parse, Parser.parse, Lexer.new, hn0, hg]
      rw [Parser.parseExpression_succ, Parser.parseTerm_succ, Parser.parseFactor_succ]
      simp only [reduceCtorEq, if_true, if_false, Parser.consume_eq, Nat.zero_add, hQ0, hQ1g,
        hnrp]
    · exfalso
      simp only at hop
      rcases htok with h | h | h <;> rw [h] at hop <;> simp at hop

/-- A use of `parse_missing_rparen`: `(` before `1 + 2`, then ` 3`. -/
theorem parse_missing_rparen_witness :
    parse ('(' :: ("1 + 2".toList ++ " 3".toList)) = .error .unexpectedToken :=
  parse_missing_rparen.1 "1 + 2".toList " 3".toList
    (.OperatorNode .PLUS (.NumberNode 1) (.NumberNode 2))
    ⟨⟨.END, []⟩, ⟨"1 + 2".toList, 5⟩⟩ ⟨.NUMBER, ['3']⟩ ⟨"(1 + 2 3".toList, 8⟩
    (by decide!) rfl (fun _ _ _ _ => rfl) (by decide!) (Or.inr (Or.inl rfl))

/-! ## A dangling operator -/

theorem Parser.parseFactor_end {f : Nat} {P : Parser} (hend : P.currentToken.type = .END) :
    parseFactor (f + 1) P = .error .unexpectedTokenInFactor := by
  rw [parseFactor_succ]
  simp only [hend, reduceCtorEq, if_false]

/-- When the run on `e` ends a `*`/`/` loop at the end of `e` and the first
token of `rest` is `*` or `/` with nothing but `END` behind it, the loop of the
run on `pre ++ e ++ rest` goes on and fails in `parseFactor`. -/
theorem parseTermLoop_dangling {pre e rest : List Char} {QR QE : Parser}
    (hB : TokenBoundary e rest)
    (hQR : Parser.new ⟨pre ++ (e ++ rest), pre.length + e.length⟩ = .ok QR)
    (hQE : Parser.new QR.lexer = .ok QE) (hQEend : QE.currentToken.type = .END)
    (hmd : QR.currentToken.type = .MUL ∨ QR.currentToken.type = .DIV) :
    ∀ (f : Nat) (n : ASTNode) (P Q : Parser) (t : ASTNode) (P1 : Parser),
      Sim pre e rest QR P Q → Parser.parseTermLoop f n P = .ok (t, P1) →
      P1.currentToken.type = .END →
      Parser.parseTermLoop (f + 1 + 1) n Q = .error .unexpectedTokenInFactor := by
  intro f
  induction f with
  | zero => intro n P Q t P1 _ h; simp [Parser.parseTermLoop] at h
  | succ f ih =>
    intro n P Q t P1 hsim h hend
    rw [Parser.parseTermLoop_succ] at h
    split_ifs at h with hop
    · have hne : P.currentToken.type ≠ .END := by
        rcases hop with h1 | h1 <;> rw [h1] <;> simp
      have htok := hsim.tok_eq hne
      cases hc : P.consume P.currentToken.type with
      | error err => simp [hc] at h
      | ok P2 =>
        simp only [hc] at h
        obtain ⟨Q2, hQ2, hs2⟩ := consume_sim hB hQR hsim hne hc
        cases hc2 : Parser.parseFactor f P2 with
        | error err => simp [hc2] at h
        | ok r =>
          obtain ⟨r1, P3⟩ := r
          simp only [hc2] at h
          obtain ⟨Q3, hQ3, hs3⟩ := (sim_parse hB hQR f).2.2.2.2 P2 Q2 r1 P3 hs2 hc2
          have hQ3g := Parser.parseFactor_fuel_le hQ3 (by simp) (by omega : f ≤ f + 1 + 1)
          have hrec := ih _ P3 Q3 t P1 hs3 h hend
          rw [Parser.parseTermLoop_succ]
          simp only [htok, hop, if_true, hQ2, hQ3g]
          exact hrec
    · simp only [Except.ok.injEq, Prod.mk.injEq] at h
      obtain ⟨rfl, rfl⟩ := h
      rcases hsim with ⟨hne, _⟩ | ⟨_, rfl⟩
      · exact absurd hend hne
      · rw [Parser.parseTermLoop_succ]
        simp only [hmd, if_true, Parser.consume_eq, hQE, Parser.parseFactor_end hQEend]

theorem parseTerm_dangling {pre e rest : List Char} {QR QE : Parser}
    (hB : TokenBoundary e rest)
    (hQR : Parser.new ⟨pre ++ (e ++ rest), pre.length + e.length⟩ = .ok QR)
    (hQE : Parser.new QR.lexer = .ok QE) (hQEend : QE.currentToken.type = .END)
    (hmd : QR.currentToken.type = .MUL ∨ QR.currentToken.type = .DIV)
    (f : Nat) (P Q : Parser) (t : ASTNode) (P1 : Parser)
    (hsim : Sim pre e rest QR P Q) (h : Parser.parseTerm f P = .ok (t, P1))
    (hend : P1.currentToken.type = .END) :
    Parser.parseTerm (f + 1 + 1) Q = .error .unexpectedTokenInFactor := by
  cases f with
  | zero => simp [Parser.parseTerm] at h
  | succ f =>
    rw [Parser.parseTerm_succ] at h
    cases hc : Parser.parseFactor f P with
    | error err => simp [hc] at h
    | ok r =>
      obtain ⟨n, P2⟩ := r
      simp only [hc] at h
      obtain ⟨Q2, hQ2, hs2⟩ := (sim_parse hB hQR f).2.2.2.2 P Q n P2 hsim hc
      have hQ2g := Parser.parseFactor_fuel_le hQ2 (by simp) (by omega : f ≤ f + 1 + 1)
      rw [Parser.parseTerm_succ, hQ2g]
      exact parseTermLoop_dangling hB hQR hQE hQEend hmd f n P2 Q2 t P1 hs2 h hend

/-- When the run on `e` ends a `+`/`-` loop at the end of `e` and the first
token of `rest` is an operator with nothing but `END` behind it, the loop of
the run on `pre ++ e ++ rest` fails in `parseFactor`. -/
theorem parseExpressionLoop_dangling {pre e rest : List Char} {QR QE : Parser}
    (hB : TokenBoundary e rest)
    (hQR : Parser.new ⟨pre ++ (e ++ rest), pre.length + e.length⟩ = .ok QR)
    (hQE : Parser.new QR.lexer = .ok QE) (hQEend : QE.currentToken.type = .END)
    (hop4 : (QR.currentToken.type = .PLUS ∨ QR.currentToken.type = .MINUS) ∨
      (QR.currentToken.type = .MUL ∨ QR.currentToken.type = .DIV)) :
    ∀ (f : Nat) (n : ASTNode) (P Q : Parser) (t : ASTNode) (P1 : Parser),
      Sim pre e rest QR P Q →
      ¬ (P.currentToken.type = .END ∧
        (QR.currentToken.type = .MUL ∨ QR.currentToken.type = .DIV)) →
      Parser.parseExpressionLoop f n P = .ok (t, P1) → P1.currentToken.type = .END →
      Parser.parseExpressionLoop (f + 1 + 1 + 1) n Q = .error .unexpectedTokenInFactor := by
  intro f
  induction f with
  | zero => intro n P Q t P1 _ _ h; simp [Parser.parseExpressionLoop] at h
  | succ f ih =>
    intro n P Q t P1 hsim hpre h hend
    rw [Parser.parseExpressionLoop_succ] at h
    split_ifs at h with hop
    · have hne : P.currentToken.type ≠ .END := by
        rcases hop with h1 | h1 <;> rw [h1] <;> simp
      have htok := hsim.tok_eq hne
      cases hc : P.consume P.currentToken.type with
      | error err => simp [hc] at h
      | ok P2 =>
        simp only [hc] at h
        obtain ⟨Q2, hQ2, hs2⟩ := consume_sim hB hQR hsim hne hc
        cases hc2 : Parser.parseTerm f P2 with
        | error err => simp [hc2] at h
        | ok r =>
          obtain ⟨r1, P3⟩ := r
          simp only [hc2] at h
          rw [Parser.parseExpressionLoop_succ]
          simp only [htok, hop, if_true, hQ2]
          by_cases hcase : P3.currentToken.type = .END ∧
              (QR.currentToken.type = .MUL ∨ QR.currentToken.type = .DIV)
          · have herr := parseTerm_dangling hB hQR hQE hQEend hcase.2 f P2 Q2 r1 P3 hs2 hc2
              hcase.1
            rw [Parser.parseTerm_fuel_le herr (by simp) (by omega : f + 1 + 1 ≤ f + 1 + 1 + 1)]
          · rcases (sim_parse hB hQR f).2.2.1 P2 Q2 r1 P3 hs2 hc2 with ⟨Q3, hQ3, hs3⟩ | hr
            · rw [Parser.parseTerm_fuel_le hQ3 (by simp) (by omega : f ≤ f + 1 + 1 + 1)]
              exact ih _ P3 Q3 t P1 hs3 hcase h hend
            · exact absurd hr hcase
    · simp only [Except.ok.injEq, Prod.mk.injEq] at h
      obtain ⟨rfl, rfl⟩ := h
      rcases hsim with ⟨hne, _⟩ | ⟨_, rfl⟩
      · exact absurd hend hne
      · have hpm : Q.currentToken.type = .PLUS ∨ Q.currentToken.type = .MINUS := by
          rcases hop4 with h1 | h1
          · exact h1
          · exact absurd ⟨hend, h1⟩ hpre
        rw [Parser.parseExpressionLoop_succ]
        simp only [hpm, if_true, Parser.consume_eq, hQE]
        rw [Parser.parseTerm_succ, Parser.parseFactor_end hQEend]

theorem parseExpression_dangling {pre e rest : List Char} {QR QE : Parser}
    (hB : TokenBoundary e rest)
    (hQR : Parser.new ⟨pre ++ (e ++ rest), pre.length + e.length⟩ = .ok QR)
    (hQE : Parser.new QR.lexer = .ok QE) (hQEend : QE.currentToken.type = .END)
    (hop4 : (QR.currentToken.type = .PLUS ∨ QR.currentToken.type = .MINUS) ∨
      (QR.currentToken.type = .MUL ∨ QR.currentToken.type = .DIV))
    (f : Nat) (P Q : Parser) (t : ASTNode) (P1 : Parser)
    (hsim : Sim pre e rest QR P Q) (h : Parser.parseExpression f P = .ok (t, P1))
    (hend : P1.currentToken.type = .END) :
    Parser.parseExpression (f + 1 + 1 + 1) Q = .error .unexpectedTokenInFactor := by
  cases f with
  | zero => simp [Parser.parseExpression] at h
  | succ f =>
    rw [Parser.parseExpression_succ] at h
    cases hc : Parser.parseTerm f P with
    | error err => simp [hc] at h
    | ok r =>
      obtain ⟨n, P2⟩ := r
      simp only [hc] at h
      rw [Parser.parseExpression_succ]
      by_cases hcase : P2.currentToken.type = .END ∧
          (QR.currentToken.type = .MUL ∨ QR.currentToken.type = .DIV)
      · have herr := parseTerm_dangling hB hQR hQE hQEend hcase.2 f P Q n P2 hsim hc hcase.1
        rw [Parser.parseTerm_fuel_le herr (by simp) (by omega : f + 1 + 1 ≤ f + 1 + 1 + 1)]
      · rcases (sim_parse hB hQR f).2.2.1 P Q n P2 hsim hc with ⟨Q2, hQ2, hs2⟩ | hr
        · rw [Parser.parseTerm_fuel_le hQ2 (by simp) (by omega : f ≤ f + 1 + 1 + 1)]
          exact parseExpressionLoop_dangling hB hQR hQE hQEend hop4 f n P2 Q2 t P1 hs2 hcase h
            hend
        · exact absurd hr hcase

theorem Parser.new_spaces_end (ws : List Char) (input : List Char) (pos : Nat)
    (hdrop : input.drop pos = ws) (hpos : pos ≤ input.length)
    (hws : ∀ w ∈ ws, isspace w = true) :
    Parser.new ⟨input, pos⟩ = .ok ⟨⟨.END, []⟩, ⟨input, input.length⟩⟩ := by
  have hlen : pos + ws.length = input.length := by
    rw [← hdrop, List.length_drop]; omega
  rw [Parser.new, @Lexer.getNextToken_spaces input ws pos [] (by simpa using hdrop) hws, hlen,
    Lexer.getNextToken_end]

theorem Parser.new_spaces (ws : List Char) {input : List Char} {pos : Nat} {rest : List Char}
    (hdrop : input.drop pos = ws ++ rest) (hws : ∀ w ∈ ws, isspace w = true) :
    Parser.new ⟨input, pos⟩ = Parser.new ⟨input, pos + ws.length⟩ := by
  simp only [Parser.new, Lexer.getNextToken_spaces ws hdrop hws]

/-- C8: when `parse` succeeds on `s` with the whole text consumed, `s`
followed by an operator and optional whitespace fails with "Unexpected token
in factor"; so do the empty and the whitespace-only input, and every input
whose first token is an operator or `)`; in particular `1 + `. -/
theorem parse_missing_operand :
    (∀ (s ws : List Char) (c : Char) (t : ASTNode) (Ps : Parser),
      parse s = .ok (t, Ps) → Ps.currentToken.type = .END → c ∈ ['+', '-', '*', '/'] →
      (∀ w ∈ ws, isspace w = true) →
      parse (s ++ c :: ws) = .error .unexpectedTokenInFactor) ∧
    (∀ ws : List Char, (∀ w ∈ ws, isspace w = true) →
      parse ws = .error .unexpectedTokenInFactor) ∧
    (∀ (ws : List Char) (c : Char) (rest : List Char), (∀ w ∈ ws, isspace w = true) →
      c ∈ ['+', '-', '*', '/', ')'] →
      parse (ws ++ c :: rest) = .error .unexpectedTokenInFactor) ∧
    Error.unexpectedTokenInFactor.what = "Unexpected token in factor" ∧
    parse "1 + ".toList = .error .unexpectedTokenInFactor := by
  refine ⟨?_, ?_, ?_, rfl, by decide!⟩
  · intro s ws c t Ps hparse hend hc hws
    obtain ⟨op, hct, hop4⟩ : ∃ op, charToken c = some ⟨op, [c]⟩ ∧
        ((op = .PLUS ∨ op = .MINUS) ∨ (op = .MUL ∨ op = .DIV)) := by
      simp only [List.mem_cons, List.mem_singleton, List.not_mem_nil, or_false] at hc
      rcases hc with rfl | rfl | rfl | rfl
      · exact ⟨.PLUS, by decide, by simp⟩
      · exact ⟨.MINUS, by decide, by simp⟩
      · exact ⟨.MUL, by decide, by simp⟩
      · exact ⟨.DIV, by decide, by simp⟩
    have hcd : isdigit c = false := by
      simp only [List.mem_cons, List.mem_singleton, List.not_mem_nil, or_false] at hc
      rcases hc with rfl | rfl | rfl | rfl <;> decide
    have hB : TokenBoundary s (c :: ws) := fun _ _ _ _ => hcd
    have hd0 : ([] ++ (s ++ c :: ws)).drop (([] : List Char).length + s.length) = c :: ws := by
      simp
    have hQR := Parser.new_char hd0 hct
    have hlenfull : ([] ++ (s ++ c :: ws)).length = s.length + 1 + ws.length := by
      simp only [List.nil_append, List.length_append, List.length_cons]; omega
    have hQE := Parser.new_spaces_end ws ([] ++ (s ++ c :: ws))
      (([] : List Char).length + s.length + 1) (drop_cons_facts hd0).2.2
      (by rw [hlenfull, List.length_nil]; omega) hws
    simp only [parse, Parser.parse, Lexer.new] at hparse
    cases hn : Parser.new ⟨s, 0⟩ with
    | error err => simp [hn] at hparse
    | ok P0 =>
      simp only [hn] at hparse
      obtain ⟨Q0, hQ0, hs0⟩ := new_sim hB hQR (Nat.zero_le _) hn
      have herr := parseExpression_dangling hB hQR hQE rfl hop4 _ P0 Q0 t Ps hs0 hparse hend
      simp only [List.nil_append, List.length_nil, Nat.add_zero] at hQ0 herr
      simp only [parse, Parser.parse, Lexer.new, hQ0]
      exact Parser.parseExpression_fuel_le herr (by simp)
        (by simp only [parseFuel, List.length_append, List.length_cons]; omega)
  · intro ws hws
    have hn := Parser.new_spaces_end ws ws 0 rfl (Nat.zero_le _) hws
    obtain ⟨g, hg⟩ : ∃ g, parseFuel ws = g + 1 + 1 + 1 := ⟨3 * ws.length, rfl⟩
    simp only [parse, Parser.parse, Lexer.new, hn, hg]
    rw [Parser.parseExpression_succ, Parser.parseTerm_succ, Parser.parseFactor_end rfl]
  · intro ws c rest hws hc
    obtain ⟨tok, hct, hnn, hnl⟩ : ∃ tok, charToken c = some tok ∧ tok.type ≠ .NUMBER ∧
        tok.type ≠ .LPAREN := by
      simp only [List.mem_cons, List.mem_singleton, List.not_mem_nil, or_false] at hc
      rcases hc with rfl | rfl | rfl | rfl | rfl
      · exact ⟨⟨.PLUS, ['+']⟩, by decide, by simp, by simp⟩
      · exact ⟨⟨.MINUS, ['-']⟩, by decide, by simp, by simp⟩
      · exact ⟨⟨.MUL, ['*']⟩, by decide, by simp, by simp⟩
      · exact ⟨⟨.DIV, ['/']⟩, by decide, by simp, by simp⟩
      · exact ⟨⟨.RPAREN, [')']⟩, by decide, by simp, by simp⟩
    have hd0 : (ws ++ c :: rest).drop 0 = ws ++ c :: rest := rfl
    have hn : Parser.new ⟨ws ++ c :: rest, 0⟩ = .ok ⟨tok, ⟨ws ++ c :: rest, 0 + ws.length + 1⟩⟩ := by
      rw [Parser.new_spaces ws hd0 hws, Parser.new_char (drop_append_facts _ _ hd0) hct]
    obtain ⟨g, hg⟩ : ∃ g, parseFuel (ws ++ c :: rest) = g + 1 + 1 + 1 :=
      ⟨3 * (ws ++ c :: rest).length, rfl⟩
    simp only [parse, Parser.parse, Lexer.new, hn, hg]
    rw [Parser.parseExpression_succ, Parser.parseTerm_succ, Parser.parseFactor_succ]
    simp only [hnn, hnl, if_false]

/-- A use of `parse_missing_operand`: `2 * (3)` followed by `/` and a blank. -/
theorem parse_missing_operand_witness :
    parse ("2 * (3)".toList ++ '/' :: [' ']) = .error .unexpectedTokenInFactor :=
  parse_missing_operand.1 "2 * (3)".toList [' '] '/'
    (.OperatorNode .MUL (.NumberNode 2) (.NumberNode 3))
    ⟨⟨.END, []⟩, ⟨"2 * (3)".toList, 7⟩⟩ (by decide!) rfl (by decide) (by decide)

/-! ## Division by zero -/

/-- Evaluating a valid tree never throws: the only `throw` of `evaluate` is
its `default` branch. -/
theorem evaluate_no_exception : ∀ (t : ASTNode), t.Valid →
    ∀ e, t.evaluate ≠ .error (.exception e) := by
  intro t
  induction t with
  | NumberNode v => intro _ e h; simp [ASTNode.evaluate] at h
  | OperatorNode op l r ihl ihr =>
    intro hv e h
    obtain ⟨hop, hl, hr⟩ := hv
    simp only [ASTNode.evaluate] at h
    cases hle : l.evaluate with
    | error f =>
      simp only [hle, Except.error.injEq] at h
      exact ihl hl e (by rw [hle, h])
    | ok x =>
      cases hre : r.evaluate with
      | error f =>
        simp only [hle, hre, Except.error.injEq] at h
        exact ihr hr e (by rw [hre, h])
      | ok y =>
        simp only [hle, hre] at h
        rcases hop with rfl | rfl | rfl | rfl
        · simp at h
        · simp at h
        · simp at h
        · simp only [divResult] at h
          split_ifs at h <;> simp at h

/-- C5 as stated fails: `1 / 0` parses, and evaluating its tree throws no
exception at all; the division has no defined result. -/
theorem div_by_zero_throws_nothing :
    parse "1 / 0".toList
        = .ok (.OperatorNode .DIV (.NumberNode 1) (.NumberNode 0),
            ⟨⟨.END, []⟩, ⟨"1 / 0".toList, 5⟩⟩) ∧
      (ASTNode.OperatorNode .DIV (.NumberNode 1) (.NumberNode 0)).evaluate = .error .undefined ∧
      ∀ e, (ASTNode.OperatorNode .DIV (.NumberNode 1) (.NumberNode 0)).evaluate
        ≠ .error (.exception e) := by
  refine ⟨by decide!, by decide!, ?_⟩
  intro e h
  simp [ASTNode.evaluate] at h

/-- C5, amended: for a division whose operands are valid trees and whose right
operand evaluates to `0` (composite or not), parsing the rendered text
succeeds and gives that division back; evaluating it throws no exception,
and when the left operand evaluates to a value the outcome is the unchecked
division, which has no defined result. -/
theorem evaluate_div_by_zero (l r : ASTNode) (hl : l.Valid) (hr : r.Valid)
    (h0 : r.evaluate = .ok 0) :
    parse (render (.OperatorNode .DIV l r))
        = .ok (.OperatorNode .DIV l r,
            ⟨⟨.END, []⟩, ⟨render (.OperatorNode .DIV l r),
              (render (.OperatorNode .DIV l r)).length⟩⟩) ∧
      (∀ e, (ASTNode.OperatorNode .DIV l r).evaluate ≠ .error (.exception e)) ∧
      (∀ x, l.evaluate = .ok x → (ASTNode.OperatorNode .DIV l r).evaluate = .error .undefined) := by
  have hv : (ASTNode.OperatorNode .DIV l r).Valid := ⟨by simp, hl, hr⟩
  refine ⟨parse_render _ hv, evaluate_no_exception _ hv, ?_⟩
  intro x hx
  simp only [ASTNode.evaluate, hx, h0, if_true]

/-- A use of `evaluate_div_by_zero`: the tree of `1 / (2 - 2)`. -/
theorem evaluate_div_by_zero_witness :
    parse (render (.OperatorNode .DIV (.NumberNode 1)
        (.OperatorNode .MINUS (.NumberNode 2) (.NumberNode 2))))
        = .ok (.OperatorNode .DIV (.NumberNode 1)
            (.OperatorNode .MINUS (.NumberNode 2) (.NumberNode 2)),
            ⟨⟨.END, []⟩, ⟨render (.OperatorNode .DIV (.NumberNode 1)
              (.OperatorNode .MINUS (.NumberNode 2) (.NumberNode 2))),
              (render (.OperatorNode .DIV (.NumberNode 1)
                (.OperatorNode .MINUS (.NumberNode 2) (.NumberNode 2)))).length⟩⟩) ∧
      (∀ e, (ASTNode.OperatorNode .DIV (.NumberNode 1)
        (.OperatorNode .MINUS (.NumberNode 2) (.NumberNode 2))).evaluate
          ≠ .error (.exception e)) ∧
      (∀ x, (ASTNode.NumberNode 1).evaluate = .ok x →
        (ASTNode.OperatorNode .DIV (.NumberNode 1)
          (.OperatorNode .MINUS (.NumberNode 2) (.NumberNode 2))).evaluate = .error .undefined) :=
  evaluate_div_by_zero (.NumberNode 1) (.OperatorNode .MINUS (.NumberNode 2) (.NumberNode 2))
    ⟨by decide, by decide⟩ ⟨by simp, ⟨by decide, by decide⟩, ⟨by decide, by decide⟩⟩
    (by decide!)

/-! ## The fuel of `parse` is never used up -/

theorem lexText_pos {rest : List Char} {tok : Token} {k : Nat}
    (h : lexText rest = .ok (tok, k)) (hne : tok.type ≠ .END) : 1 ≤ k := by
  simp only [lexText] at h
  cases hdw : rest.dropWhile isspace with
  | nil =>
    simp only [hdw, Except.ok.injEq, Prod.mk.injEq] at h
    rw [← h.1] at hne; simp at hne
  | cons c cs =>
    simp only [hdw] at h
    by_cases hd : isdigit c = true
    · simp only [hd, if_true, Except.ok.injEq, Prod.mk.injEq] at h
      rw [← h.2]
      simp only [List.takeWhile_cons, hd, if_true, List.length_cons]
      omega
    · have hd1 : isdigit c = false := by simpa using hd
      simp only [hd1, Bool.false_eq_true, if_false] at h
      cases hct : charToken c with
      | none => simp [hct] at h
      | some t =>
        simp only [hct, Except.ok.injEq, Prod.mk.injEq] at h
        omega

/-- A lookahead other than `END` has moved the cursor. -/
theorem Parser.new_ok_pos {L : Lexer} {P : Parser} (h : Parser.new L = .ok P)
    (hne : P.currentToken.type ≠ .END) : L.pos < P.lexer.pos := by
  by_cases hpos : L.pos ≤ L.input.length
  · rw [Parser.new_eq_lexText L hpos] at h
    cases hl : lexText (L.input.drop L.pos) with
    | error e => simp [hl] at h
    | ok r =>
      obtain ⟨tok, k⟩ := r
      simp only [hl, Except.ok.injEq] at h
      subst h
      have := lexText_pos hl hne
      simp only
      omega
  · rw [Parser.new, L.getNextToken_past (by omega)] at h
    cases h

/-- A successful `consume` of a token other than `END` leaves fewer tokens. -/
theorem Parser.consume_remaining {P P1 : Parser} {type : TokenType}
    (hinv : P.lexer.pos ≤ P.lexer.input.length) (hne : P.currentToken.type ≠ .END)
    (h : P.consume type = .ok P1) :
    P1.lexer.input = P.lexer.input ∧ P1.lexer.pos ≤ P1.lexer.input.length ∧
      P1.remaining < P.remaining := by
  obtain ⟨_, hnew, _⟩ := Parser.consume_ok h
  obtain ⟨hin, hle, hlen, _⟩ := Parser.new_ok hnew
  refine ⟨hin, by rw [hin]; exact hlen, ?_⟩
  simp only [Parser.remaining, hin, if_neg hne]
  by_cases hend : P1.currentToken.type = .END
  · simp only [hend, if_true]; omega
  · have := Parser.new_ok_pos hnew hend
    simp only [hend, if_false]; omega

/-- Every successful parsing function consumes at least one token; the loops
consume none or more. -/
theorem Parser.progress : ∀ f : Nat,
    (∀ P t P1, P.lexer.pos ≤ P.lexer.input.length → parseExpression f P = .ok (t, P1) →
      P1.lexer.input = P.lexer.input ∧ P1.lexer.pos ≤ P1.lexer.input.length ∧
      P1.remaining < P.remaining) ∧
    (∀ n P t P1, P.lexer.pos ≤ P.lexer.input.length → parseExpressionLoop f n P = .ok (t, P1) →
      P1.lexer.input = P.lexer.input ∧ P1.lexer.pos ≤ P1.lexer.input.length ∧
      P1.remaining ≤ P.remaining) ∧
    (∀ P t P1, P.lexer.pos ≤ P.lexer.input.length → parseTerm f P = .ok (t, P1) →
      P1.lexer.input = P.lexer.input ∧ P1.lexer.pos ≤ P1.lexer.input.length ∧
      P1.remaining < P.remaining) ∧
    (∀ n P t P1, P.lexer.pos ≤ P.lexer.input.length → parseTermLoop f n P = .ok (t, P1) →
      P1.lexer.input = P.lexer.input ∧ P1.lexer.pos ≤ P1.lexer.input.length ∧
      P1.remaining ≤ P.remaining) ∧
    (∀ P t P1, P.lexer.pos ≤ P.lexer.input.length → parseFactor f P = .ok (t, P1) →
      P1.lexer.input = P.lexer.input ∧ P1.lexer.pos ≤ P1.lexer.input.length ∧
      P1.remaining < P.remaining) := by
  intro f
  induction f with
  | zero =>
    refine ⟨?_, ?_, ?_, ?_, ?_⟩ <;> intros <;> simp_all [parseExpression, parseExpressionLoop,
      parseTerm, parseTermLoop, parseFactor]
  | succ f ih =>
    obtain ⟨ihE, ihEL, ihT, ihTL, ihF⟩ := ih
    refine ⟨?_, ?_, ?_, ?_, ?_⟩
    · intro P t P1 hinv h
      rw [parseExpression_succ] at h
      cases hc : parseTerm f P with
      | error e => simp [hc] at h
      | ok r =>
        obtain ⟨n, P2⟩ := r
        simp only [hc] at h
        obtain ⟨hi2, hv2, hr2⟩ := ihT P n P2 hinv hc
        obtain ⟨hi1, hv1, hr1⟩ := ihEL n P2 t P1 hv2 h
        exact ⟨hi1.trans hi2, hv1, by omega⟩
    · intro n P t P1 hinv h
      rw [parseExpressionLoop_succ] at h
      split_ifs at h with hop
      · have hne : P.currentToken.type ≠ .END := by
          rcases hop with h1 | h1 <;> rw [h1] <;> simp
        cases hc : P.consume P.currentToken.type with
        | error e => simp [hc] at h
        | ok P2 =>
          simp only [hc] at h
          obtain ⟨hi2, hv2, hr2⟩ := consume_remaining hinv hne hc
          cases hc2 : parseTerm f P2 with
          | error e => simp [hc2] at h
          | ok r =>
            obtain ⟨r1, P3⟩ := r
            simp only [hc2] at h
            obtain ⟨hi3, hv3, hr3⟩ := ihT P2 r1 P3 hv2 hc2
            obtain ⟨hi1, hv1, hr1⟩ := ihEL _ P3 t P1 hv3 h
            exact ⟨hi1.trans (hi3.trans hi2), hv1, by omega⟩
      · simp only [Except.ok.injEq, Prod.mk.injEq] at h
        obtain ⟨rfl, rfl⟩ := h
        exact ⟨rfl, hinv, le_refl _⟩
    · intro P t P1 hinv h
      rw [parseTerm_succ] at h
      cases hc : parseFactor f P with
      | error e => simp [hc] at h
      | ok r =>
        obtain ⟨n, P2⟩ := r
        simp only [hc] at h
        obtain ⟨hi2, hv2, hr2⟩ := ihF P n P2 hinv hc
        obtain ⟨hi1, hv1, hr1⟩ := ihTL n P2 t P1 hv2 h
        exact ⟨hi1.trans hi2, hv1, by omega⟩
    · intro n P t P1 hinv h
      rw [parseTermLoop_succ] at h
      split_ifs at h with hop
      · have hne : P.currentToken.type ≠ .END := by
          rcases hop with h1 | h1 <;> rw [h1] <;> simp
        cases hc : P.consume P.currentToken.type with
        | error e => simp [hc] at h
        | ok P2 =>
          simp only [hc] at h
          obtain ⟨hi2, hv2, hr2⟩ := consume_remaining hinv hne hc
          cases hc2 : parseFactor f P2 with
          | error e => simp [hc2] at h
          | ok r =>
            obtain ⟨r1, P3⟩ := r
            simp only [hc2] at h
            obtain ⟨hi3, hv3, hr3⟩ := ihF P2 r1 P3 hv2 hc2
            obtain ⟨hi1, hv1, hr1⟩ := ihTL _ P3 t P1 hv3 h
            exact ⟨hi1.trans (hi3.trans hi2), hv1, by omega⟩
      · simp only [Except.ok.injEq, Prod.mk.injEq] at h
        obtain ⟨rfl, rfl⟩ := h
        exact ⟨rfl, hinv, le_refl _⟩
    · intro P t P1 hinv h
      rw [parseFactor_succ] at h
      split_ifs at h with hnum hlp
      · have hne : P.currentToken.type ≠ .END := by rw [hnum]; simp
        cases hs : stoi P.currentToken.value with
        | error e => simp [hs] at h
        | ok v =>
          simp only [hs] at h
          cases hc : P.consume .NUMBER with
          | error e => simp [hc] at h
          | ok P2 =>
            simp only [hc, Except.ok.injEq, Prod.mk.injEq] at h
            obtain ⟨rfl, rfl⟩ := h
            exact consume_remaining hinv hne hc
      · have hne : P.currentToken.type ≠ .END := by rw [hlp]; simp
        cases hc : P.consume .LPAREN with
        | error e => simp [hc] at h
        | ok P2 =>
          simp only [hc] at h
          obtain ⟨hi2, hv2, hr2⟩ := consume_remaining hinv hne hc
          cases hc2 : parseExpression f P2 with
          | error e => simp [hc2] at h
          | ok r =>
            obtain ⟨n3, P3⟩ := r
            simp only [hc2] at h
            obtain ⟨hi3, hv3, hr3⟩ := ihE P2 n3 P3 hv2 hc2
            cases hc3 : P3.consume .RPAREN with
            | error e => simp [hc3] at h
            | ok P4 =>
              simp only [hc3, Except.ok.injEq, Prod.mk.injEq] at h
              obtain ⟨rfl, rfl⟩ := h
              have hne3 : P3.currentToken.type ≠ .END := by
                rw [(consume_ok hc3).1]; simp
              obtain ⟨hi4, hv4, hr4⟩ := consume_remaining hv3 hne3 hc3
              exact ⟨hi4.trans (hi3.trans hi2), hv4, by omega⟩

theorem Lexer.getNextToken_error {L : Lexer} {e : Error} (h : L.getNextToken = .error e) :
    e = .invalidCharacter := by
  simp only [Lexer.getNextToken, Lexer.advanceAndReturn] at h
  split_ifs at h
  simp only [Except.error.injEq] at h
  exact h.symm

theorem Parser.consume_ne_outOfFuel (P : Parser) (type : TokenType) :
    P.consume type ≠ .error .outOfFuel := by
  intro h
  simp only [consume] at h
  split_ifs at h
  · cases hg : P.lexer.getNextToken with
    | error e =>
      have := Lexer.getNextToken_error hg
      subst this
      simp [hg] at h
    | ok r => simp [hg] at h
  · simp at h

theorem stoi_ne_outOfFuel (str : List Char) : stoi str ≠ .error .outOfFuel := by
  intro h
  simp only [stoi] at h
  split_ifs at h <;> simp at h

/-- With three units of fuel per remaining token (and up to three more) no
parsing function runs out of fuel. -/
theorem Parser.enough_fuel : ∀ f : Nat,
    (∀ P, P.lexer.pos ≤ P.lexer.input.length → 3 * P.remaining + 3 ≤ f →
      parseExpression f P ≠ .error .outOfFuel) ∧
    (∀ n P, P.lexer.pos ≤ P.lexer.input.length → 3 * P.remaining + 2 ≤ f →
      parseExpressionLoop f n P ≠ .error .outOfFuel) ∧
    (∀ P, P.lexer.pos ≤ P.lexer.input.length → 3 * P.remaining + 2 ≤ f →
      parseTerm f P ≠ .error .outOfFuel) ∧
    (∀ n P, P.lexer.pos ≤ P.lexer.input.length → 3 * P.remaining + 1 ≤ f →
      parseTermLoop f n P ≠ .error .outOfFuel) ∧
    (∀ P, P.lexer.pos ≤ P.lexer.input.length → 3 * P.remaining + 1 ≤ f →
      parseFactor f P ≠ .error .outOfFuel) := by
  intro f
  induction f with
  | zero =>
    refine ⟨?_, ?_, ?_, ?_, ?_⟩ <;> intros <;> omega
  | succ f ih =>
    obtain ⟨ihE, ihEL, ihT, ihTL, ihF⟩ := ih
    refine ⟨?_, ?_, ?_, ?_, ?_⟩
    · intro P hinv hf h
      rw [parseExpression_succ] at h
      cases hc : parseTerm f P with
      | error e =>
        simp only [hc, Except.error.injEq] at h
        subst h
        exact ihT P hinv (by omega) hc
      | ok r =>
        obtain ⟨n, P2⟩ := r
        simp only [hc] at h
        obtain ⟨_, hv2, hr2⟩ := (progress f).2.2.1 P n P2 hinv hc
        exact ihEL n P2 hv2 (by omega) h
    · intro n P hinv hf h
      rw [parseExpressionLoop_succ] at h
      split_ifs at h with hop
      · have hne : P.currentToken.type ≠ .END := by
          rcases hop with h1 | h1 <;> rw [h1] <;> simp
        cases hc : P.consume P.currentToken.type with
        | error e =>
          simp only [hc, Except.error.injEq] at h
          subst h
          exact consume_ne_outOfFuel _ _ hc
        | ok P2 =>
          simp only [hc] at h
          obtain ⟨_, hv2, hr2⟩ := consume_remaining hinv hne hc
          cases hc2 : parseTerm f P2 with
          | error e =>
            simp only [hc2, Except.error.injEq] at h
            subst h
            exact ihT P2 hv2 (by omega) hc2
          | ok r =>
            obtain ⟨r1, P3⟩ := r
            simp only [hc2] at h
            obtain ⟨_, hv3, hr3⟩ := (progress f).2.2.1 P2 r1 P3 hv2 hc2
            exact ihEL _ P3 hv3 (by omega) h
    · intro P hinv hf h
      rw [parseTerm_succ] at h
      cases hc : parseFactor f P with
      | error e =>
        simp only [hc, Except.error.injEq] at h
        subst h
        exact ihF P hinv (by omega) hc
      | ok r =>
        obtain ⟨n, P2⟩ := r
        simp only [hc] at h
        obtain ⟨_, hv2, hr2⟩ := (progress f).2.2.2.2 P n P2 hinv hc
        exact ihTL n P2 hv2 (by omega) h
    · intro n P hinv hf h
      rw [parseTermLoop_succ] at h
      split_ifs at h with hop
      · have hne : P.currentToken.type ≠ .END := by
          rcases hop with h1 | h1 <;> rw [h1] <;> simp
        cases hc : P.consume P.currentToken.type with
        | error e =>
          simp only [hc, Except.error.injEq] at h
          subst h
          exact consume_ne_outOfFuel _ _ hc
        | ok P2 =>
          simp only [hc] at h
          obtain ⟨_, hv2, hr2⟩ := consume_remaining hinv hne hc
          cases hc2 : parseFactor f P2 with
          | error e =>
            simp only [hc2, Except.error.injEq] at h
            subst h
            exact ihF P2 hv2 (by omega) hc2
          | ok r =>
            obtain ⟨r1, P3⟩ := r
            simp only [hc2] at h
            obtain ⟨_, hv3, hr3⟩ := (progress f).2.2.2.2 P2 r1 P3 hv2 hc2
            exact ihTL _ P3 hv3 (by omega) h
    · intro P hinv hf h
      rw [parseFactor_succ] at h
      split_ifs at h with hnum hlp
      · cases hs : stoi P.currentToken.value with
        | error e =>
          simp only [hs, Except.error.injEq] at h
          subst h
          exact stoi_ne_outOfFuel _ hs
        | ok v =>
          simp only [hs] at h
          cases hc : P.consume .NUMBER with
          | error e =>
            simp only [hc, Except.error.injEq] at h
            subst h
            exact consume_ne_outOfFuel _ _ hc
          | ok P2 => simp [hc] at h
      · have hne : P.currentToken.type ≠ .END := by rw [hlp]; simp
        cases hc : P.consume .LPAREN with
        | error e =>
          simp only [hc, Except.error.injEq] at h
          subst h
          exact consume_ne_outOfFuel _ _ hc
        | ok P2 =>
          simp only [hc] at h
          obtain ⟨_, hv2, hr2⟩ := consume_remaining hinv hne hc
          cases hc2 : parseExpression f P2 with
          | error e =>
            simp only [hc2, Except.error.injEq] at h
            subst h
            exact ihE P2 hv2 (by omega) hc2
          | ok r =>
            obtain ⟨n3, P3⟩ := r
            simp only [hc2] at h
            cases hc3 : P3.consume .RPAREN with
            | error e =>
              simp only [hc3, Except.error.injEq] at h
              subst h
              exact consume_ne_outOfFuel _ _ hc3
            | ok P4 => simp [hc3] at h
      · simp at h

/-- The fuel `parse` hands to the parser is never used up: `parse` always
returns a tree or one of the program's own exceptions. -/
theorem parse_ne_outOfFuel (input : List Char) : parse input ≠ .error .outOfFuel := by
  intro h
  simp only [parse, Parser.parse, Lexer.new] at h
  cases hn : Parser.new ⟨input, 0⟩ with
  | error e =>
    simp only [hn, Except.error.injEq] at h
    subst h
    simp only [Parser.new] at hn
    cases hg : Lexer.getNextToken ⟨input, 0⟩ with
    | error e =>
      have := Lexer.getNextToken_error hg
      subst this
      simp [hg] at hn
    | ok r => simp [hg] at hn
  | ok P0 =>
    simp only [hn] at h
    obtain ⟨hin, _, hlen, _⟩ := Parser.new_ok hn
    simp only at hin hlen
    have hrem : P0.remaining ≤ input.length := by
      simp only [Parser.remaining, hin]
      by_cases hend : P0.currentToken.type = .END
      · simp only [hend, if_true]; omega
      · have := Parser.new_ok_pos hn hend
        simp only [hend, if_false] at this ⊢; omega
    exact (Parser.enough_fuel _).1 P0 (by rw [hin]; exact hlen)
      (by simp only [parseFuel]; omega) h

/-! ## The driver -/

/-- A failure of the `Parser` constructor leaves `main` as an exception. -/
theorem main_of_new_error {input : List Char} {e : Error}
    (h : Parser.new (Lexer.new input) = .error e) : main input = ⟨[], [], .terminated e⟩ := by
  simp only [main, h]

/-- A failure of `parse()` is caught and its message is written to `std::cerr`. -/
theorem main_of_parse_error {input : List Char} {P : Parser} {e : Error}
    (h : Parser.new (Lexer.new input) = .ok P) (hp : P.parse (parseFuel input) = .error e) :
    main input = ⟨[], e.what.toList ++ ['\n'], .returned 0⟩ := by
  simp only [main, h, hp]

/-- C11: the claim fails on the input `&`: the `Parser` constructor reads the
first token before the `try` block is entered, so the "Invalid character"
exception leaves `main` uncaught and nothing is reported, whereas on `1 & 2`
the same exception is thrown inside `parse()` and is caught and reported. -/
theorem main_first_token_uncaught :
    main "&".toList = ⟨[], [], .terminated .invalidCharacter⟩ ∧
      main "1 & 2".toList = ⟨[], "Invalid character\n".toList, .returned 0⟩ := by
  decide!

/-- An addition that overflows wraps around: `main` prints the wrapped result
and returns. -/
theorem main_overflow_wraps :
    main "2147483647 + 1".toList
      = ⟨"(2147483647 + 1)\nResult: -2147483648\n".toList, [], .returned 0⟩ := by
  decide!

/-- C12 as stated fails: on `1 / 0` the parse succeeds and evaluation has no
result, yet the output of `main` starts with the rendered text `(1 / 0)`. -/
theorem main_div_by_zero_output :
    (parse "1 / 0".toList).map (fun r => (render r.1, r.1.evaluate))
        = .ok ("(1 / 0)".toList, .error .undefined) ∧
      ∃ tail, (main "1 / 0".toList).stdout = "(1 / 0)".toList ++ tail := by
  exact ⟨by decide!, ['\n'], by decide!⟩

/-- C12, amended: when parsing succeeds with tree `t` and evaluating `t` has
no result, `main` produces no result (its output stops before any value
follows `Result: `, and it does not return), but the rendering of `t` has
already been written: the output starts with it. -/
theorem main_of_evaluate_error (input : List Char) (t : ASTNode) (P : Parser) (f : Fault)
    (hp : parse input = .ok (t, P)) (he : t.evaluate = .error f) :
    (∃ tail, (main input).stdout = render t ++ tail) ∧
      (∃ rest, render t ++ "\nResult: ".toList = (main input).stdout ++ rest) ∧
      (main input).exit = .undefined := by
  have hv := parse_valid hp
  have hf : f = .undefined := by
    cases f with
    | undefined => rfl
    | exception e => exact absurd he (evaluate_no_exception t hv e)
  subst hf
  simp only [parse] at hp
  cases hn : Parser.new (Lexer.new input) with
  | error e => simp [hn] at hp
  | ok P0 =>
    simp only [hn] at hp
    have hpr := print_of_valid t hv []
    simp only [List.nil_append] at hpr
    have hmain : main input = ⟨render t ++ ['\n'], [], .undefined⟩ := by
      simp only [main, hn, hp, hpr, he]
    rw [hmain]
    exact ⟨⟨['\n'], rfl⟩, ⟨"Result: ".toList, by simp⟩, rfl⟩

/-- A use of `main_of_evaluate_error`: the input `7 / (3 - 3)`. -/
theorem main_of_evaluate_error_witness :
    (∃ tail, (main "7 / (3 - 3)".toList).stdout
        = render (.OperatorNode .DIV (.NumberNode 7)
            (.OperatorNode .MINUS (.NumberNode 3) (.NumberNode 3))) ++ tail) ∧
      (∃ rest, render (.OperatorNode .DIV (.NumberNode 7)
            (.OperatorNode .MINUS (.NumberNode 3) (.NumberNode 3))) ++ "\nResult: ".toList
        = (main "7 / (3 - 3)".toList).stdout ++ rest) ∧
      (main "7 / (3 - 3)".toList).exit = .undefined :=
  main_of_evaluate_error "7 / (3 - 3)".toList _ ⟨⟨.END, []⟩, ⟨"7 / (3 - 3)".toList, 11⟩⟩
    .undefined (by decide!) (by decide!)

/-! ## Literals beyond `INT_MAX` -/

/-- C13 as stated fails: `std::stoi` checks the range, so on the token
`99999999999` `parseFactor` throws `out_of_range` and `parse` fails. -/
theorem parse_overflowing_literal :
    Parser.new (Lexer.new "99999999999".toList)
        = .ok ⟨⟨.NUMBER, "99999999999".toList⟩, ⟨"99999999999".toList, 11⟩⟩ ∧
      Parser.parseFactor 1 ⟨⟨.NUMBER, "99999999999".toList⟩, ⟨"99999999999".toList, 11⟩⟩
        = .error .stoiOutOfRange ∧
      parse "99999999999".toList = .error .stoiOutOfRange := by
  decide!

/-- C13, amended: for a non-empty digit string `d` of any length, `parse d`
succeeds with the literal of its decimal value when that value is at most
`INT_MAX`; when it is larger, `parseFactor` on a `NUMBER` token with text `d`
throws the `out_of_range` of `std::stoi` without consuming the token, and
`parse d` fails with it. -/
theorem parse_literal (d : List Char) (hne : d ≠ []) (hds : ∀ c ∈ d, isdigit c = true) :
    ((digitsValue d : Int) ≤ INT_MAX →
      parse d = .ok (.NumberNode (digitsValue d), ⟨⟨.END, []⟩, ⟨d, d.length⟩⟩)) ∧
    (INT_MAX < (digitsValue d : Int) →
      (∀ (f : Nat) (P : Parser), P.currentToken = ⟨.NUMBER, d⟩ →
        Parser.parseFactor (f + 1) P = .error .stoiOutOfRange) ∧
      parse d = .error .stoiOutOfRange) := by
  constructor
  · intro hle
    have h := parse_sum d [] [] ⟨hne, hds, hle⟩ (by simp) (by simp)
    simpa only [tailText, sumTailText, List.append_nil, leftNest, sumLeftNest] using h
  · intro hgt
    have hst : stoi d = .error .stoiOutOfRange := by
      rw [stoi_digits d hne hds, if_neg (by omega)]
    have hF : ∀ (f : Nat) (P : Parser), P.currentToken = ⟨.NUMBER, d⟩ →
        Parser.parseFactor (f + 1) P = .error .stoiOutOfRange := by
      intro f P hP
      rw [Parser.parseFactor_succ]
      simp only [hP, if_true, hst]
    refine ⟨hF, ?_⟩
    have hn : Parser.new ⟨d, 0⟩ = .ok ⟨⟨.NUMBER, d⟩, ⟨d, 0 + d.length⟩⟩ :=
      Parser.new_digits d [] (by simp) hne hds rfl
    obtain ⟨g, hg⟩ : ∃ g, parseFuel d = g + 1 + 1 + 1 := ⟨3 * d.length, rfl⟩
    simp only [parse, Parser.parse, Lexer.new, hn, hg]
    rw [Parser.parseExpression_succ, Parser.parseTerm_succ, hF g _ rfl]

/-- A use of `parse_literal`: the digit strings `0042` and `2147483648`. -/
theorem parse_literal_witness :
    parse "0042".toList = .ok (.NumberNode (digitsValue "0042".toList),
        ⟨⟨.END, []⟩, ⟨"0042".toList, "0042".toList.length⟩⟩) ∧
      parse "2147483648".toList = .error .stoiOutOfRange :=
  ⟨(parse_literal "0042".toList (by decide) (by decide)).1 (by decide),
    ((parse_literal "2147483648".toList (by decide) (by decide)).2 (by decide)).2⟩

/-! ## Number tokens -/

/-- C14: whenever `getNextToken` returns a `NUMBER` token, its text is
non-empty, consists of digits only, and is exactly the longest run of digits
that starts at the first non-whitespace character at or after the cursor; the
cursor is left right behind that run, at the end of the input or at a
character that is not a digit.  On `123+4` the token is `123`. -/
theorem getNextToken_number_greedy :
    (∀ (L L1 : Lexer) (tok : Token), L.getNextToken = .ok (tok, L1) → tok.type = .NUMBER →
      tok.value ≠ [] ∧ (∀ c ∈ tok.value, isdigit c = true) ∧
      tok.value = ((L.input.drop L.pos).dropWhile isspace).takeWhile isdigit ∧
      L1.input = L.input ∧
      L1.pos = L.pos + ((L.input.drop L.pos).takeWhile isspace).length + tok.value.length ∧
      (L1.pos = L1.input.length ∨
        (L1.pos < L1.input.length ∧ isdigit (charAt L1.input L1.pos) = false))) ∧
    (Lexer.new "123+4".toList).getNextToken
      = .ok (⟨.NUMBER, ['1', '2', '3']⟩, ⟨"123+4".toList, 3⟩) := by
  refine ⟨?_, by decide!⟩
  intro L L1 tok h hnum
  by_cases hpos : L.pos ≤ L.input.length
  · rw [L.getNextToken_eq_lexText hpos] at h
    cases hl : lexText (L.input.drop L.pos) with
    | error e => simp [hl] at h
    | ok r =>
      obtain ⟨tok1, k⟩ := r
      simp only [hl, Except.ok.injEq, Prod.mk.injEq] at h
      obtain ⟨rfl, rfl⟩ := h
      obtain ⟨hk, hwf⟩ := lexText_ok hl
      rw [List.length_drop] at hk
      obtain ⟨hne, hds⟩ := hwf hnum
      have hsplit := List.takeWhile_append_dropWhile isspace (L.input.drop L.pos)
      simp only [lexText] at hl
      cases hdw : (L.input.drop L.pos).dropWhile isspace with
      | nil =>
        simp only [hdw, Except.ok.injEq, Prod.mk.injEq] at hl
        rw [← hl.1] at hnum; simp at hnum
      | cons c cs =>
        simp only [hdw] at hl
        rw [hdw] at hsplit
        by_cases hd : isdigit c = true
        · simp only [hd, if_true, Except.ok.injEq, Prod.mk.injEq] at hl
          obtain ⟨rfl, rfl⟩ := hl
          refine ⟨hne, hds, rfl, rfl, by simp only; omega, ?_⟩
          have hsplit2 := List.takeWhile_append_dropWhile isdigit (c :: cs)
          have hdrop : L.input.drop (L.pos + ((L.input.drop L.pos).takeWhile isspace).length
              + ((c :: cs).takeWhile isdigit).length) = (c :: cs).dropWhile isdigit := by
            apply drop_append_facts
            rw [hsplit2]
            exact drop_append_facts _ _ hsplit.symm
          simp only [← Nat.add_assoc]
          cases hdd : (c :: cs).dropWhile isdigit with
          | nil =>
            left
            rw [hdd] at hdrop
            have hlen := List.length_drop (L.pos + ((L.input.drop L.pos).takeWhile isspace).length
              + ((c :: cs).takeWhile isdigit).length) L.input
            rw [hdrop, List.length_nil] at hlen
            omega
          | cons y ys =>
            right
            rw [hdd] at hdrop
            obtain ⟨hlt, hch, _⟩ := drop_cons_facts hdrop
            refine ⟨hlt, ?_⟩
            rw [hch]
            have := List.head_dropWhile_not isdigit (c :: cs) (by rw [hdd]; simp)
            simpa [hdd] using this
        · have hd1 : isdigit c = false := by simpa using hd
          simp only [hd1, Bool.false_eq_true, if_false] at hl
          cases hct : charToken c with
          | none => simp [hct] at hl
          | some t =>
            simp only [hct, Except.ok.injEq, Prod.mk.injEq] at hl
            rw [← hl.1] at hnum
            exact absurd hnum (charToken_type hct).1
  · rw [L.getNextToken_past (by omega)] at h
    cases h

/-- A use of `getNextToken_number_greedy`: the lexer of ` 42)` at its start. -/
theorem getNextToken_number_greedy_witness :
    (⟨.NUMBER, ['4', '2']⟩ : Token).value ≠ [] ∧
      (∀ c ∈ (⟨.NUMBER, ['4', '2']⟩ : Token).value, isdigit c = true) ∧
      (⟨.NUMBER, ['4', '2']⟩ : Token).value
        = (((Lexer.new " 42)".toList).input.drop (Lexer.new " 42)".toList).pos).dropWhile
            isspace).takeWhile isdigit ∧
      (⟨" 42)".toList, 3⟩ : Lexer).input = (Lexer.new " 42)".toList).input ∧
      (⟨" 42)".toList, 3⟩ : Lexer).pos = (Lexer.new " 42)".toList).pos
        + (((Lexer.new " 42)".toList).input.drop (Lexer.new " 42)".toList).pos).takeWhile
            isspace).length + (⟨.NUMBER, ['4', '2']⟩ : Token).value.length ∧
      ((⟨" 42)".toList, 3⟩ : Lexer).pos = (⟨" 42)".toList, 3⟩ : Lexer).input.length ∨
        ((⟨" 42)".toList, 3⟩ : Lexer).pos < (⟨" 42)".toList, 3⟩ : Lexer).input.length ∧
          isdigit (charAt (⟨" 42)".toList, 3⟩ : Lexer).input (⟨" 42)".toList, 3⟩ : Lexer).pos)
            = false)) :=
  getNextToken_number_greedy.1 (Lexer.new " 42)".toList) ⟨" 42)".toList, 3⟩
    ⟨.NUMBER, ['4', '2']⟩ (by decide!) rfl

/-! ## Text around a complete expression -/

/-- C15: when `parse` succeeds on `s` with tree `t` and the whole text
consumed, then for every non-empty digit string `d` the parse of `s`, a
blank and `d` succeeds with the same tree `t`; the number `d` is left as the
lookahead and is never looked at again.  So `1 2` parses to the literal `1`. -/
theorem parse_trailing_number :
    (∀ (s d : List Char) (t : ASTNode) (Ps : Parser),
      parse s = .ok (t, Ps) → Ps.currentToken.type = .END →
      d ≠ [] → (∀ c ∈ d, isdigit c = true) →
      parse (s ++ ' ' :: d)
        = .ok (t, ⟨⟨.NUMBER, d⟩, ⟨s ++ ' ' :: d, (s ++ ' ' :: d).length⟩⟩)) ∧
      parse "1 2".toList = .ok (.NumberNode 1, ⟨⟨.NUMBER, ['2']⟩, ⟨"1 2".toList, 3⟩⟩) := by
  refine ⟨?_, by decide!⟩
  intro s d t Ps hparse hend hne hds
  have hB : TokenBoundary s (' ' :: d) := fun _ _ _ _ => rfl
  have hd0 : ([] ++ (s ++ ' ' :: d)).drop (([] : List Char).length + s.length) = ' ' :: d := by
    simp
  have hd1 : ([] ++ (s ++ ' ' :: d)).drop (([] : List Char).length + s.length + 1) = d ++ [] := by
    rw [(drop_cons_facts hd0).2.2, List.append_nil]
  have hQR : Parser.new ⟨[] ++ (s ++ ' ' :: d), ([] : List Char).length + s.length⟩
      = .ok ⟨⟨.NUMBER, d⟩,
          ⟨[] ++ (s ++ ' ' :: d), ([] : List Char).length + s.length + 1 + d.length⟩⟩ := by
    rw [Parser.new_space hd0 (by decide), Parser.new_digits d [] hd1 hne hds rfl]
  simp only [parse, Parser.parse, Lexer.new] at hparse
  cases hn : Parser.new ⟨s, 0⟩ with
  | error err => simp [hn] at hparse
  | ok P0 =>
    simp only [hn] at hparse
    obtain ⟨Q0, hQ0, hs0⟩ := new_sim hB hQR (Nat.zero_le _) hn
    rcases (sim_parse hB hQR _).1 P0 Q0 t Ps hs0 hparse with ⟨Q1, hQ1, hs1⟩ | ⟨_, hop⟩
    · have hQ1eq : Q1 = ⟨⟨.NUMBER, d⟩,
          ⟨[] ++ (s ++ ' ' :: d), ([] : List Char).length + s.length + 1 + d.length⟩⟩ := by
        rcases hs1 with ⟨hne1, _⟩ | ⟨_, h⟩
        · exact absurd hend hne1
        · exact h
      subst hQ1eq
      have hlift := Parser.parseExpression_fuel_le hQ1 (by simp)
        (by simp only [parseFuel, List.nil_append, List.length_append, List.length_cons]; omega :
          parseFuel s ≤ parseFuel ([] ++ (s ++ ' ' :: d)))
      simp only [List.nil_append, List.length_nil, Nat.add_zero, Nat.zero_add] at hQ0 hlift
      have hlen : (s ++ ' ' :: d).length = s.length + 1 + d.length := by
        simp only [List.length_append, List.length_cons]; omega
      simp only [parse, Parser.parse, Lexer.new, hQ0, hlift, hlen]
    · simp at hop

/-- A use of `parse_trailing_number`: `(1 + 2)` followed by ` 34`. -/
theorem parse_trailing_number_witness :
    parse ("(1 + 2)".toList ++ ' ' :: ['3', '4'])
      = .ok (.OperatorNode .PLUS (.NumberNode 1) (.NumberNode 2),
          ⟨⟨.NUMBER, ['3', '4']⟩, ⟨"(1 + 2)".toList ++ ' ' :: ['3', '4'],
            ("(1 + 2)".toList ++ ' ' :: ['3', '4']).length⟩⟩) :=
  parse_trailing_number.1 "(1 + 2)".toList ['3', '4'] _ ⟨⟨.END, []⟩, ⟨"(1 + 2)".toList, 7⟩⟩
    (by decide!) rfl (by decide) (by decide)

/-- C19: when `parse` succeeds on `s` with tree `t` and the whole text
consumed, the parse of `(`, `s` and `)` succeeds with the same tree `t`, again
with the whole text consumed; so `(5)` parses to the literal `5` and renders
as `5`. -/
theorem parse_outer_parens :
    (∀ (s : List Char) (t : ASTNode) (Ps : Parser),
      parse s = .ok (t, Ps) → Ps.currentToken.type = .END →
      parse ('(' :: (s ++ [')']))
        = .ok (t, ⟨⟨.END, []⟩, ⟨'(' :: (s ++ [')']), ('(' :: (s ++ [')'])).length⟩⟩)) ∧
      (parse "(5)".toList).map (fun r => (r.1, render r.1))
        = .ok (.NumberNode 5, ['5']) := by
  refine ⟨?_, by decide!⟩
  intro s t Ps hparse hend
  have hB : TokenBoundary s [')'] := fun _ _ _ _ => rfl
  have hd0 : (['('] ++ (s ++ [')'])).drop (['('].length + s.length) = [')'] := by
    rw [drop_frame ['('] s [')'] s.length (le_refl _)]; simp
  have hQR : Parser.new ⟨['('] ++ (s ++ [')']), ['('].length + s.length⟩
      = .ok ⟨⟨.RPAREN, [')']⟩, ⟨['('] ++ (s ++ [')']), ['('].length + s.length + 1⟩⟩ :=
    Parser.new_char hd0 (by decide)
  have hlenfull : (['('] ++ (s ++ [')'])).length = ['('].length + s.length + 1 := by
    simp only [List.length_append, List.length_singleton]; omega
  have hQE : Parser.new ⟨['('] ++ (s ++ [')']), ['('].length + s.length + 1⟩
      = .ok ⟨⟨.END, []⟩, ⟨['('] ++ (s ++ [')']), (['('] ++ (s ++ [')'])).length⟩⟩ := by
    rw [← hlenfull]; exact Parser.new_end _
  simp only [parse, Parser.parse, Lexer.new] at hparse
  cases hn : Parser.new ⟨s, 0⟩ with
  | error err => simp [hn] at hparse
  | ok P0 =>
    simp only [hn] at hparse
    obtain ⟨Q0, hQ0, hs0⟩ := new_sim hB hQR (Nat.zero_le _) hn
    rcases (sim_parse hB hQR _).1 P0 Q0 t Ps hs0 hparse with ⟨Q1, hQ1, hs1⟩ | ⟨_, hop⟩
    · have hQ1eq : Q1 = ⟨⟨.RPAREN, [')']⟩,
          ⟨['('] ++ (s ++ [')']), ['('].length + s.length + 1⟩⟩ := by
        rcases hs1 with ⟨hne1, _⟩ | ⟨_, h⟩
        · exact absurd hend hne1
        · exact h
      subst hQ1eq
      have hn0 : Parser.new ⟨['('] ++ (s ++ [')']), 0⟩
          = .ok ⟨⟨.LPAREN, ['(']⟩, ⟨['('] ++ (s ++ [')']), 0 + 1⟩⟩ :=
        @Parser.new_char (['('] ++ (s ++ [')'])) 0 '(' (s ++ [')']) _ rfl (by decide)
      obtain ⟨g, hg, hge⟩ : ∃ g, parseFuel (['('] ++ (s ++ [')'])) = g + 1 + 1 + 1 ∧
          parseFuel s ≤ g := by
        refine ⟨3 * (s.length + 1) + 3, ?_, ?_⟩
        · simp only [parseFuel, List.length_append, List.length_singleton]; omega
        · simp only [parseFuel]; omega
      have hQ1g := Parser.parseExpression_fuel_le hQ1 (by simp) hge
      simp only [List.length_singleton, Nat.add_zero] at hQ0
      have hmain : parse (['('] ++ (s ++ [')']))
          = .ok (t, ⟨⟨.END, []⟩, ⟨['('] ++ (s ++ [')']), (['('] ++ (s ++ [')'])).length⟩⟩) := by
        simp only [parse, Parser.parse, Lexer.new, hn0, hg]
        rw [Parser.parseExpression_succ, Parser.parseTerm_succ, Parser.parseFactor_succ]
        simp only [reduceCtorEq, if_true, if_false, Parser.consume_eq, Nat.zero_add, hQ0, hQ1g,
          hQE]
        rw [Parser.parseTermLoop_succ]
        simp only [reduceCtorEq, or_self, if_false]
        rw [Parser.parseExpressionLoop_succ]
        simp only [reduceCtorEq, or_self, if_false]
      simpa only [List.singleton_append] using hmain
    · simp at hop

/-- A use of `parse_outer_parens`: the text `1 + 2`. -/
theorem parse_outer_parens_witness :
    parse ('(' :: ("1 + 2".toList ++ [')']))
      = .ok (.OperatorNode .PLUS (.NumberNode 1) (.NumberNode 2),
          ⟨⟨.END, []⟩, ⟨'(' :: ("1 + 2".toList ++ [')']),
            ('(' :: ("1 + 2".toList ++ [')'])).length⟩⟩) :=
  parse_outer_parens.1 "1 + 2".toList _ ⟨⟨.END, []⟩, ⟨"1 + 2".toList, 5⟩⟩ (by decide!) rfl

/-! ## Trees with valid operators and literals -/

theorem valid_iff (t : ASTNode) :
    t.Valid ↔ (∀ op ∈ t.operators, op = .PLUS ∨ op = .MINUS ∨ op = .MUL ∨ op = .DIV) ∧
      (∀ v ∈ t.literals, 0 ≤ v ∧ v ≤ INT_MAX) := by
  induction t with
  | NumberNode v => simp [ASTNode.Valid, ASTNode.operators, ASTNode.literals]
  | OperatorNode op l r ihl ihr =>
    simp only [ASTNode.Valid, ASTNode.operators, ASTNode.literals, ihl, ihr, List.mem_cons,
      List.mem_append]
    constructor
    · rintro ⟨hop, ⟨hl1, hl2⟩, ⟨hr1, hr2⟩⟩
      refine ⟨?_, ?_⟩
      · rintro o (rfl | ho | ho)
        · exact hop
        · exact hl1 o ho
        · exact hr1 o ho
      · rintro v (hv | hv)
        · exact hl2 v hv
        · exact hr2 v hv
    · rintro ⟨h1, h2⟩
      exact ⟨h1 op (Or.inl rfl), ⟨fun o ho => h1 o (Or.inr (Or.inl ho)),
        fun v hv => h2 v (Or.inl hv)⟩, ⟨fun o ho => h1 o (Or.inr (Or.inr ho)),
        fun v hv => h2 v (Or.inr hv)⟩⟩

/-- C17: for every tree, of any shape, whose operator nodes carry `+`, `-`,
`*` or `/` and whose literals lie in `[0, INT_MAX]`, parsing the rendering
succeeds, consumes every token up to `END` and returns the tree itself. -/
theorem parse_render_roundtrip (t : ASTNode)
    (hops : ∀ op ∈ t.operators, op = .PLUS ∨ op = .MINUS ∨ op = .MUL ∨ op = .DIV)
    (hlits : ∀ v ∈ t.literals, 0 ≤ v ∧ v ≤ INT_MAX) :
    parse (render t) = .ok (t, ⟨⟨.END, []⟩, ⟨render t, (render t).length⟩⟩) :=
  parse_render t ((valid_iff t).mpr ⟨hops, hlits⟩)

/-- A use of `parse_render_roundtrip`: the tree of `((8 / 4) - (2 * 3))`. -/
theorem parse_render_roundtrip_witness :
    parse (render (.OperatorNode .MINUS (.OperatorNode .DIV (.NumberNode 8) (.NumberNode 4))
        (.OperatorNode .MUL (.NumberNode 2) (.NumberNode 3))))
      = .ok (.OperatorNode .MINUS (.OperatorNode .DIV (.NumberNode 8) (.NumberNode 4))
          (.OperatorNode .MUL (.NumberNode 2) (.NumberNode 3)),
        ⟨⟨.END, []⟩, ⟨render (.OperatorNode .MINUS
            (.OperatorNode .DIV (.NumberNode 8) (.NumberNode 4))
            (.OperatorNode .MUL (.NumberNode 2) (.NumberNode 3))),
          (render (.OperatorNode .MINUS (.OperatorNode .DIV (.NumberNode 8) (.NumberNode 4))
            (.OperatorNode .MUL (.NumberNode 2) (.NumberNode 3)))).length⟩⟩) :=
  parse_render_roundtrip _ (by decide) (by decide)

/-- C20: on every tree `parse` returns, each operator node carries `PLUS`,
`MINUS`, `MUL` or `DIV`; hence `print` never reaches the `default` branch of
`getOpChar` (it throws nothing) and `evaluate` never reaches its own `default`
branch (it throws nothing either). -/
theorem parse_operators_valid (input : List Char) (t : ASTNode) (P : Parser)
    (h : parse input = .ok (t, P)) :
    (∀ op ∈ t.operators, op = .PLUS ∨ op = .MINUS ∨ op = .MUL ∨ op = .DIV) ∧
      (∀ op ∈ t.operators, getOpChar op ≠ .error .invalidOperator) ∧
      (∀ out, (t.print out).2 = none) ∧
      (∀ e, t.evaluate ≠ .error (.exception e)) := by
  have hv := parse_valid h
  have hops := ((valid_iff t).mp hv).1
  refine ⟨hops, ?_, ?_, evaluate_no_exception t hv⟩
  · intro op hop
    rcases hops op hop with rfl | rfl | rfl | rfl <;> simp [getOpChar]
  · intro out
    rw [print_of_valid t hv out]

/-- A use of `parse_operators_valid`: the input `(1 + 2) * 3 - 4 / 5`. -/
theorem parse_operators_valid_witness :
    (∀ op ∈ (ASTNode.OperatorNode .MINUS
        (.OperatorNode .MUL (.OperatorNode .PLUS (.NumberNode 1) (.NumberNode 2)) (.NumberNode 3))
        (.OperatorNode .DIV (.NumberNode 4) (.NumberNode 5))).operators,
        op = .PLUS ∨ op = .MINUS ∨ op = .MUL ∨ op = .DIV) ∧
      (∀ op ∈ (ASTNode.OperatorNode .MINUS
        (.OperatorNode .MUL (.OperatorNode .PLUS (.NumberNode 1) (.NumberNode 2)) (.NumberNode 3))
        (.OperatorNode .DIV (.NumberNode 4) (.NumberNode 5))).operators,
        getOpChar op ≠ .error .invalidOperator) ∧
      (∀ out, ((ASTNode.OperatorNode .MINUS
        (.OperatorNode .MUL (.OperatorNode .PLUS (.NumberNode 1) (.NumberNode 2)) (.NumberNode 3))
        (.OperatorNode .DIV (.NumberNode 4) (.NumberNode 5))).print out).2 = none) ∧
      (∀ e, (ASTNode.OperatorNode .MINUS
        (.OperatorNode .MUL (.OperatorNode .PLUS (.NumberNode 1) (.NumberNode 2)) (.NumberNode 3))
        (.OperatorNode .DIV (.NumberNode 4) (.NumberNode 5))).evaluate
          ≠ .error (.exception e)) :=
  parse_operators_valid "(1 + 2) * 3 - 4 / 5".toList _
    ⟨⟨.END, []⟩, ⟨"(1 + 2) * 3 - 4 / 5".toList, 19⟩⟩ (by decide!)

/-! ## The cursor of the lexer -/

theorem Lexer.getNextToken_ok_bounds {L L1 : Lexer} {tok : Token}
    (h : L.getNextToken = .ok (tok, L1)) :
    L1.input = L.input ∧ L.pos ≤ L1.pos ∧ L1.pos ≤ L.input.length ∧
      (tok.type ≠ .END → L.pos < L1.pos) := by
  have hn : Parser.new L = .ok ⟨tok, L1⟩ := by simp only [Parser.new, h]
  obtain ⟨h1, h2, h3, _⟩ := Parser.new_ok hn
  exact ⟨h1, h2, h3, fun hne => Parser.new_ok_pos hn hne⟩

theorem Lexer.tokens_length_le : ∀ (n : Nat) (L : Lexer), L.pos ≤ L.input.length →
    (L.tokens n).length ≤ L.input.length - L.pos := by
  intro n
  induction n with
  | zero => intro L _; simp [Lexer.tokens]
  | succ n ih =>
    intro L hL
    simp only [Lexer.tokens]
    cases hg : L.getNextToken with
    | error e => simp
    | ok r =>
      obtain ⟨tok, L1⟩ := r
      simp only
      obtain ⟨hin, _, hle, hlt⟩ := Lexer.getNextToken_ok_bounds hg
      split_ifs with hend
      · simp
      · have h1 := ih L1 (by rw [hin]; exact hle)
        have h2 := hlt hend
        rw [hin] at h1
        simp only [List.length_cons]
        omega

/-- C16: a `getNextToken` call on a lexer whose cursor is inside its input,
whether it returns or throws, leaves the input alone and leaves the cursor
not smaller than before and not larger than the input length; a call that
returns a token other than `END` strictly increases the cursor; hence any
number of calls returns at most `input.length - pos` tokens other than `END`
before `END` or a failure, and at most `input.length` from a new lexer. -/
theorem getNextToken_cursor_monotone :
    (∀ L : Lexer, L.pos ≤ L.input.length →
      L.afterGetNextToken.input = L.input ∧ L.pos ≤ L.afterGetNextToken.pos ∧
        L.afterGetNextToken.pos ≤ L.input.length) ∧
    (∀ (L L1 : Lexer) (tok : Token), L.getNextToken = .ok (tok, L1) →
      L.afterGetNextToken = L1 ∧ (tok.type ≠ .END → L.pos < L1.pos)) ∧
    (∀ (n : Nat) (L : Lexer), L.pos ≤ L.input.length →
      (L.tokens n).length ≤ L.input.length - L.pos) ∧
    (∀ (n : Nat) (input : List Char), ((Lexer.new input).tokens n).length ≤ input.length) := by
  refine ⟨?_, ?_, Lexer.tokens_length_le, ?_⟩
  · intro L hL
    simp only [Lexer.afterGetNextToken]
    cases hg : L.getNextToken with
    | error e =>
      simp only
      have hlen : (L.input.drop L.pos).length = L.input.length - L.pos := List.length_drop _ _
      rw [skipWhitespace_eq L.input _ L.pos _ rfl (by rw [hlen])]
      have := (List.takeWhile_sublist isspace (l := L.input.drop L.pos)).length_le
      exact ⟨trivial, by omega, by omega⟩
    | ok r =>
      obtain ⟨tok, L1⟩ := r
      obtain ⟨h1, h2, h3, _⟩ := Lexer.getNextToken_ok_bounds hg
      exact ⟨h1, h2, h3⟩
  · intro L L1 tok hg
    exact ⟨by simp only [Lexer.afterGetNextToken, hg], (Lexer.getNextToken_ok_bounds hg).2.2.2⟩
  · intro n input
    have := Lexer.tokens_length_le n (Lexer.new input) (Nat.zero_le _)
    simpa [Lexer.new] using this

/-- A use of `getNextToken_cursor_monotone`: the lexer of `12 &` at cursor 2,
whose next call throws, and at cursor 0, whose next call returns `12`. -/
theorem getNextToken_cursor_monotone_witness :
    ((⟨"12 &".toList, 2⟩ : Lexer).afterGetNextToken.input = "12 &".toList ∧
        2 ≤ (⟨"12 &".toList, 2⟩ : Lexer).afterGetNextToken.pos ∧
        (⟨"12 &".toList, 2⟩ : Lexer).afterGetNextToken.pos ≤ "12 &".toList.length) ∧
      ((⟨"12 &".toList, 0⟩ : Lexer).afterGetNextToken = ⟨"12 &".toList, 2⟩ ∧
        ((⟨.NUMBER, ['1', '2']⟩ : Token).type ≠ .END → 0 < 2)) :=
  ⟨getNextToken_cursor_monotone.1 ⟨"12 &".toList, 2⟩ (by decide),
    getNextToken_cursor_monotone.2.1 ⟨"12 &".toList, 0⟩ ⟨"12 &".toList, 2⟩
      ⟨.NUMBER, ['1', '2']⟩ (by decide!)⟩

/-! ## The tree and the tokens it was built from -/

theorem Consumed.append : ∀ (a : List Token) {b : List Token} {P P1 P2 : Parser},
    Consumed P a P1 → Consumed P1 b P2 → Consumed P (a ++ b) P2 := by
  intro a
  induction a with
  | nil =>
    intro b P P1 P2 h1 h2
    simp only [Consumed] at h1
    subst h1
    exact h2
  | cons tok a ih =>
    intro b P P1 P2 h1 h2
    obtain ⟨ht, P3, hn, hc⟩ := h1
    exact ⟨ht, P3, hn, ih hc h2⟩

theorem Consumed.of_consume {P P1 : Parser} {type : TokenType} (h : P.consume type = .ok P1) :
    Consumed P [P.currentToken] P1 :=
  ⟨rfl, P1, (Parser.consume_ok h).2.1, rfl⟩

theorem consumedNE_append {a b : List Token} {P P1 P2 : Parser}
    (h1 : Consumed P a P1 ∧ ∀ tok ∈ a, tok.type ≠ .END)
    (h2 : Consumed P1 b P2 ∧ ∀ tok ∈ b, tok.type ≠ .END) :
    Consumed P (a ++ b) P2 ∧ ∀ tok ∈ a ++ b, tok.type ≠ .END := by
  refine ⟨Consumed.append a h1.1 h2.1, ?_⟩
  intro tok htok
  rcases List.mem_append.mp htok with h | h
  · exact h1.2 tok h
  · exact h2.2 tok h

theorem consumedNE_of_consume {P P1 : Parser} {type : TokenType}
    (h : P.consume type = .ok P1) (hty : type ≠ .END) :
    Consumed P [P.currentToken] P1 ∧ ∀ tok ∈ [P.currentToken], tok.type ≠ .END := by
  refine ⟨Consumed.of_consume h, ?_⟩
  intro tok htok
  simp only [List.mem_singleton] at htok
  subst htok
  rw [(Parser.consume_ok h).1]
  exact hty

theorem tokenItems_append (a b : List Token) :
    tokenItems (a ++ b) = tokenItems a ++ tokenItems b := by
  simp [tokenItems, List.filterMap_append]

theorem tokenItems_cons (tok : Token) (a : List Token) :
    tokenItems (tok :: a) = tokenItems [tok] ++ tokenItems a :=
  tokenItems_append [tok] a

theorem tokenItems_operator {tok : Token}
    (h : tok.type = .PLUS ∨ tok.type = .MINUS ∨ tok.type = .MUL ∨ tok.type = .DIV) :
    tokenItems [tok] = [.operator tok.type] := by
  rcases h with h | h | h | h <;> simp [tokenItems, Token.item, h]

theorem tokenItems_paren {tok : Token} (h : tok.type = .LPAREN ∨ tok.type = .RPAREN) :
    tokenItems [tok] = [] := by
  rcases h with h | h <;> simp [tokenItems, Token.item, h]

theorem tokenItems_number {tok : Token} {v : Int} (hwf : tok.WF) (h : tok.type = .NUMBER)
    (hs : stoi tok.value = .ok v) : tokenItems [tok] = [.number v] := by
  obtain ⟨hne, hds⟩ := hwf h
  rw [stoi_digits _ hne hds] at hs
  split_ifs at hs
  simp only [Except.ok.injEq] at hs
  simp [tokenItems, Token.item, h, hs]

/-- The tokens a successful parsing function consumes are, parentheses
aside, the in-order traversal of the tree it returns; for the loops, of what
they add to the tree they were entered with. -/
theorem consumed_of_ok : ∀ f : Nat,
    (∀ P t P1, P.currentToken.WF → Parser.parseExpression f P = .ok (t, P1) →
      ∃ toks, (Consumed P toks P1 ∧ ∀ tok ∈ toks, tok.type ≠ .END) ∧ t.inorder = tokenItems toks) ∧
    (∀ n P t P1, P.currentToken.WF → Parser.parseExpressionLoop f n P = .ok (t, P1) →
      ∃ toks, (Consumed P toks P1 ∧ ∀ tok ∈ toks, tok.type ≠ .END) ∧ t.inorder = n.inorder ++ tokenItems toks) ∧
    (∀ P t P1, P.currentToken.WF → Parser.parseTerm f P = .ok (t, P1) →
      ∃ toks, (Consumed P toks P1 ∧ ∀ tok ∈ toks, tok.type ≠ .END) ∧ t.inorder = tokenItems toks) ∧
    (∀ n P t P1, P.currentToken.WF → Parser.parseTermLoop f n P = .ok (t, P1) →
      ∃ toks, (Consumed P toks P1 ∧ ∀ tok ∈ toks, tok.type ≠ .END) ∧ t.inorder = n.inorder ++ tokenItems toks) ∧
    (∀ P t P1, P.currentToken.WF → Parser.parseFactor f P = .ok (t, P1) →
      ∃ toks, (Consumed P toks P1 ∧ ∀ tok ∈ toks, tok.type ≠ .END) ∧ t.inorder = tokenItems toks) := by
  intro f
  induction f with
  | zero =>
    refine ⟨?_, ?_, ?_, ?_, ?_⟩ <;> intros <;> simp_all [Parser.parseExpression,
      Parser.parseExpressionLoop, Parser.parseTerm, Parser.parseTermLoop, Parser.parseFactor]
  | succ f ih =>
    obtain ⟨ihE, ihEL, ihT, ihTL, ihF⟩ := ih
    obtain ⟨vE, _, vT, _, vF⟩ := Parser.valid_of_ok f
    refine ⟨?_, ?_, ?_, ?_, ?_⟩
    · intro P t P1 hwf h
      rw [Parser.parseExpression_succ] at h
      cases hc : Parser.parseTerm f P with
      | error e => simp [hc] at h
      | ok r =>
        obtain ⟨n, P2⟩ := r
        simp only [hc] at h
        obtain ⟨a, ha, hia⟩ := ihT P n P2 hwf hc
        obtain ⟨b, hb, hib⟩ := ihEL n P2 t P1 (vT P n P2 hwf hc).2 h
        exact ⟨a ++ b, consumedNE_append ha hb, by rw [hib, hia, tokenItems_append]⟩
    · intro n P t P1 hwf h
      rw [Parser.parseExpressionLoop_succ] at h
      split_ifs at h with hop
      · cases hc : P.consume P.currentToken.type with
        | error e => simp [hc] at h
        | ok P2 =>
          simp only [hc] at h
          have hwf2 := (Parser.consume_ok hc).2.2
          cases hc2 : Parser.parseTerm f P2 with
          | error e => simp [hc2] at h
          | ok r =>
            obtain ⟨r1, P3⟩ := r
            simp only [hc2] at h
            obtain ⟨a, ha, hia⟩ := ihT P2 r1 P3 hwf2 hc2
            obtain ⟨b, hb, hib⟩ := ihEL _ P3 t P1 (vT P2 r1 P3 hwf2 hc2).2 h
            have hne : P.currentToken.type ≠ .END := by
              rcases hop with h1 | h1 <;> rw [h1] <;> simp
            refine ⟨[P.currentToken] ++ (a ++ b),
              consumedNE_append (consumedNE_of_consume hc hne) (consumedNE_append ha hb), ?_⟩
            rw [hib, tokenItems_append, tokenItems_append,
              tokenItems_operator (by tauto), ASTNode.inorder, hia]
            simp
      · simp only [Except.ok.injEq, Prod.mk.injEq] at h
        obtain ⟨rfl, rfl⟩ := h
        exact ⟨[], ⟨rfl, by simp⟩, by simp [tokenItems]⟩
    · intro P t P1 hwf h
      rw [Parser.parseTerm_succ] at h
      cases hc : Parser.parseFactor f P with
      | error e => simp [hc] at h
      | ok r =>
        obtain ⟨n, P2⟩ := r
        simp only [hc] at h
        obtain ⟨a, ha, hia⟩ := ihF P n P2 hwf hc
        obtain ⟨b, hb, hib⟩ := ihTL n P2 t P1 (vF P n P2 hwf hc).2 h
        exact ⟨a ++ b, consumedNE_append ha hb, by rw [hib, hia, tokenItems_append]⟩
    · intro n P t P1 hwf h
      rw [Parser.parseTermLoop_succ] at h
      split_ifs at h with hop
      · cases hc : P.consume P.currentToken.type with
        | error e => simp [hc] at h
        | ok P2 =>
          simp only [hc] at h
          have hwf2 := (Parser.consume_ok hc).2.2
          cases hc2 : Parser.parseFactor f P2 with
          | error e => simp [hc2] at h
          | ok r =>
            obtain ⟨r1, P3⟩ := r
            simp only [hc2] at h
            obtain ⟨a, ha, hia⟩ := ihF P2 r1 P3 hwf2 hc2
            obtain ⟨b, hb, hib⟩ := ihTL _ P3 t P1 (vF P2 r1 P3 hwf2 hc2).2 h
            have hne : P.currentToken.type ≠ .END := by
              rcases hop with h1 | h1 <;> rw [h1] <;> simp
            refine ⟨[P.currentToken] ++ (a ++ b),
              consumedNE_append (consumedNE_of_consume hc hne) (consumedNE_append ha hb), ?_⟩
            rw [hib, tokenItems_append, tokenItems_append,
              tokenItems_operator (by tauto), ASTNode.inorder, hia]
            simp
      · simp only [Except.ok.injEq, Prod.mk.injEq] at h
        obtain ⟨rfl, rfl⟩ := h
        exact ⟨[], ⟨rfl, by simp⟩, by simp [tokenItems]⟩
    · intro P t P1 hwf h
      rw [Parser.parseFactor_succ] at h
      split_ifs at h with hnum hlp
      · cases hs : stoi P.currentToken.value with
        | error e => simp [hs] at h
        | ok v =>
          simp only [hs] at h
          cases hc : P.consume .NUMBER with
          | error e => simp [hc] at h
          | ok P2 =>
            simp only [hc, Except.ok.injEq, Prod.mk.injEq] at h
            obtain ⟨rfl, rfl⟩ := h
            exact ⟨[P.currentToken], consumedNE_of_consume hc (by simp),
              by rw [tokenItems_number hwf hnum hs, ASTNode.inorder]⟩
      · cases hc : P.consume .LPAREN with
        | error e => simp [hc] at h
        | ok P2 =>
          simp only [hc] at h
          have hwf2 := (Parser.consume_ok hc).2.2
          cases hc2 : Parser.parseExpression f P2 with
          | error e => simp [hc2] at h
          | ok r =>
            obtain ⟨n3, P3⟩ := r
            simp only [hc2] at h
            cases hc3 : P3.consume .RPAREN with
            | error e => simp [hc3] at h
            | ok P4 =>
              simp only [hc3, Except.ok.injEq, Prod.mk.injEq] at h
              obtain ⟨rfl, rfl⟩ := h
              obtain ⟨a, ha, hia⟩ := ihE P2 _ P3 hwf2 hc2
              refine ⟨[P.currentToken] ++ (a ++ [P3.currentToken]),
                consumedNE_append (consumedNE_of_consume hc (by simp))
                  (consumedNE_append ha (consumedNE_of_consume hc3 (by simp))), ?_⟩
              rw [tokenItems_append, tokenItems_append, tokenItems_paren (Or.inl hlp),
                tokenItems_paren (Or.inr (Parser.consume_ok hc3).1), hia]
              simp

theorem Parser.new_ok_getNextToken {L : Lexer} {P : Parser} (h : Parser.new L = .ok P) :
    L.getNextToken = .ok (P.currentToken, P.lexer) := by
  simp only [Parser.new] at h
  cases hg : L.getNextToken with
  | error e => simp [hg] at h
  | ok r =>
    obtain ⟨tok, L1⟩ := r
    simp only [hg, Except.ok.injEq] at h
    subst h
    rfl

/-- The tokens consumed between two parser states, followed by the lookahead
of the second, are what the lexer returns, call after call, from the lexer
that produced the lookahead of the first. -/
theorem Consumed.run : ∀ (toks : List Token) {P P1 : Parser} {L0 : Lexer},
    Consumed P toks P1 → L0.getNextToken = .ok (P.currentToken, P.lexer) →
    L0.run (toks ++ [P1.currentToken]) = some P1.lexer := by
  intro toks
  induction toks with
  | nil =>
    intro P P1 L0 hc hg
    simp only [Consumed] at hc
    subst hc
    simp [Lexer.run, hg]
  | cons tok toks ih =>
    intro P P1 L0 hc hg
    obtain ⟨ht, P2, hn, hc2⟩ := hc
    subst ht
    simp only [List.cons_append, Lexer.run, hg, if_true]
    exact ih hc2 (Parser.new_ok_getNextToken hn)

/-- C18: when `parse` succeeds with tree `t` and leaves the parser `P`, there
are tokens `toks`, none of them `END`, such that the lexer, called again and
again from the start of the input, returns exactly `toks` followed by the
lookahead of `P` and is then the lexer of `P` (so `toks` is what the parser
consumed), and the in-order traversal of `t` is the sequence of the number
values and operators of `toks`, i.e. `toks` with the parentheses removed:
nothing is dropped, duplicated or reordered. -/
theorem parse_inorder_tokens (input : List Char) (t : ASTNode) (P : Parser)
    (h : parse input = .ok (t, P)) :
    ∃ toks : List Token, (Lexer.new input).run (toks ++ [P.currentToken]) = some P.lexer ∧
      (∀ tok ∈ toks, tok.type ≠ .END) ∧
      t.inorder = tokenItems toks := by
  simp only [parse, Parser.parse] at h
  cases hn : Parser.new (Lexer.new input) with
  | error e => simp [hn] at h
  | ok P0 =>
    simp only [hn] at h
    obtain ⟨toks, ⟨hc, hne⟩, hi⟩ := (consumed_of_ok _).1 P0 t P (Parser.new_ok hn).2.2.2 h
    exact ⟨toks, Consumed.run toks hc (Parser.new_ok_getNextToken hn), hne, hi⟩

/-- A use of `parse_inorder_tokens`: the input `2 * (3 + 4) 5`, of which the
parser consumes the first seven tokens. -/
theorem parse_inorder_tokens_witness :
    ∃ toks : List Token,
      (Lexer.new "2 * (3 + 4) 5".toList).run (toks ++ [⟨.NUMBER, ['5']⟩])
        = some ⟨"2 * (3 + 4) 5".toList, 13⟩ ∧
      (∀ tok ∈ toks, tok.type ≠ .END) ∧
      (ASTNode.OperatorNode .MUL (.NumberNode 2)
        (.OperatorNode .PLUS (.NumberNode 3) (.NumberNode 4))).inorder = tokenItems toks :=
  parse_inorder_tokens "2 * (3 + 4) 5".toList _
    ⟨⟨.NUMBER, ['5']⟩, ⟨"2 * (3 + 4) 5".toList, 13⟩⟩ (by decide!)

end ArithAST
